import Mathlib

/-!
# TSP-Parallel: branch-and-bound search over the built-in distance table

Shallow embedding of `src/TSP-Parallel/TSP-Parallel.cpp`.

* `std::vector<size_t>` is a `List Nat`; an index outside the vector or the table is
  undefined behaviour in C++ and is modelled by `none`.
* An `int` is an `Int` between `INT_MIN` and `INT_MAX` (32 bits).  The additions of
  `estimate` go through `int_add`: a sum outside that range is a signed overflow,
  undefined behaviour in C++, and is modelled by `none`.  A value of `estimate` lies
  between 0 and 82 times `len` (`estimate_le`), so no addition overflows for
  `len <= 26188824`, in particular for the routes of at most 15 cities `main` builds.
* The globals `best_estimation` and `best_solution_found` form the record `State`,
  threaded explicitly through `walk_route`.  The field `trace` is a ghost log of the
  calls, update attempts and assignments made; the program has no such variable.
* `walk_route` starts its children as threads while `len <= 3` and joins them before it
  returns.  The function `walk_route` below runs the children one after the other, in
  the order of the `for` loop.  Two step functions cover the other orders: `pool_step`
  runs the started calls in any order, and `leaf_step` interleaves the statements of
  the leaf update (lines 73-81) of several tasks.
-/

namespace TSP

/-- The table `distance_map` of the source, row by row. -/
def distance_table : List (List Int) :=
  [ [ 0, 29, 82, 46, 68, 52, 72, 42, 51, 55, 29, 74, 23, 72, 46],
    [29,  0, 55, 46, 42, 43, 43, 23, 23, 31, 41, 51, 11, 52, 21],
    [82, 55,  0, 68, 46, 55, 23, 43, 41, 29, 79, 21, 64, 31, 51],
    [46, 46, 68,  0, 82, 15, 72, 31, 62, 42, 21, 51, 51, 43, 64],
    [68, 42, 46, 82,  0, 74, 23, 52, 21, 46, 82, 58, 46, 65, 23],
    [52, 43, 55, 15, 74,  0, 61, 23, 55, 31, 33, 37, 51, 29, 59],
    [72, 43, 23, 72, 23, 61,  0, 42, 23, 31, 77, 37, 51, 46, 33],
    [42, 23, 43, 31, 52, 23, 42,  0, 33, 15, 37, 33, 33, 31, 37],
    [51, 23, 41, 62, 21, 55, 23, 33,  0, 29, 62, 46, 29, 51, 11],
    [55, 31, 29, 42, 46, 31, 31, 15, 29,  0, 51, 21, 41, 23, 37],
    [29, 41, 79, 21, 82, 33, 77, 37, 62, 51,  0, 65, 42, 59, 61],
    [74, 51, 21, 51, 58, 37, 37, 33, 46, 21, 65,  0, 61, 11, 55],
    [23, 11, 64, 51, 46, 51, 51, 33, 29, 41, 42, 61,  0, 62, 23],
    [72, 52, 31, 43, 65, 29, 46, 31, 51, 23, 59, 11, 62,  0, 59],
    [46, 21, 51, 64, 23, 59, 33, 37, 11, 37, 61, 55, 23, 59,  0] ]

/-- The read `distance_map[i][j]`; `none` when an index is outside `0..14`. -/
def distance_map (i j : Nat) : Option Int :=
  match distance_table[i]? with
  | none => none
  | some row => row[j]?

/-- The largest value of an `int`. -/
def INT_MAX : Int := 2147483647

/-- The smallest value of an `int`. -/
def INT_MIN : Int := -2147483648

/-- The statement `sum += d` on `int`; `none` when the sum is outside the range of `int`
(signed overflow). -/
def int_add (sum d : Int) : Option Int :=
  if INT_MIN ≤ sum + d ∧ sum + d ≤ INT_MAX then some (sum + d) else none

/-- One round of the loop of `estimate`: `sum += distance_map[solution[i - 1]][solution[i]]`. -/
def estimate_step (solution : List Nat) (sum : Int) (i : Nat) : Option Int :=
  match solution[i - 1]?, solution[i]? with
  | some a, some b =>
    match distance_map a b with
    | some d => int_add sum d
    | none => none
  | _, _ => none

/-- The closing edge of `estimate`: `sum += distance_map[solution[len - 1]][solution[0]]`.
For `len = 0` the index `len - 1` wraps around in `size_t`; the vector is then empty
(this line runs only when `solution.size() == len`), so the read is out of range
either way. -/
def estimate_close (solution : List Nat) (len : Nat) (sum : Int) : Option Int :=
  match solution[len - 1]?, solution[0]? with
  | some a, some b =>
    match distance_map a b with
    | some d => int_add sum d
    | none => none
  | _, _ => none

/-- The function `estimate(solution, len)`. -/
def estimate (solution : List Nat) (len : Nat) : Option Int :=
  if solution.length < len then some (-1)
  else
    match (List.range' 1 (len - 1)).foldlM (estimate_step solution) 0 with
    | none => none
    | some sum =>
      if solution.length = len then estimate_close solution len sum
      else some sum

/-- Ghost events recorded while `walk_route` runs. -/
inductive Event where
  /-- A call `walk_route(route, len)` has been entered. -/
  | enter (route : List Nat) (len : Nat)
  /-- The leaf block (lines 70-83) has been reached with this cost and route. -/
  | attempt (estimation : Int) (route : List Nat)
  /-- The two assignments under the mutex (lines 78-79) have been made. -/
  | commit (estimation : Int) (route : List Nat)
  deriving DecidableEq, Repr

/-- The globals `best_estimation` and `best_solution_found`, and the ghost log. -/
structure State where
  best_estimation : Int
  best_solution_found : List Nat
  trace : List Event
  deriving DecidableEq, Repr

/-- The two loops that fill and thin `unvisited_cities`: every index of the route is
inserted, then `partial_route[i]` is erased for each `i < len`.  The `std::set` is the
ascending list of its elements. -/
def unvisited_cities (partial_route : List Nat) (len : Nat) : Option (List Nat) :=
  (List.range len).foldlM
    (fun cities i =>
      match partial_route[i]? with
      | some c => some (cities.erase c)
      | none => none)
    (List.range partial_route.length)

/-- The copy `new_route = partial_route` followed by `new_route[len] = city`. -/
def new_route (partial_route : List Nat) (len city : Nat) : Option (List Nat) :=
  if len < partial_route.length then some (partial_route.set len city) else none

/-- The function `walk_route(partial_route, len)` with the children run in loop order.
The first argument bounds the depth of the recursion; `walk_route` supplies
`partial_route.size() - len`, and any larger bound gives the same result
(`walk_route_aux_fuel`), so `none` stands for undefined behaviour only.  No other thread
runs during the call: the reads of `best_estimation` on lines 66, 73 and 76 see one
value, so the re-check of line 76 succeeds whenever the test of line 73 does.  Calls
that overlap are the subject of `pool_step` and `leaf_step`. -/
def walk_route_aux (fuel : Nat) (st : State) (partial_route : List Nat) (len : Nat) :
    Option State :=
  let st1 : State := { st with trace := st.trace ++ [Event.enter partial_route len] }
  match estimate partial_route len with
  | none => none
  | some estimation =>
    if estimation ≥ st1.best_estimation then some st1
    else if partial_route.length = len then
      let st2 : State := { st1 with trace := st1.trace ++ [Event.attempt estimation partial_route] }
      if estimation < st2.best_estimation then
        -- under `best_solution_mutex`
        if estimation < st2.best_estimation then
          some { best_estimation := estimation, best_solution_found := partial_route,
                 trace := st2.trace ++ [Event.commit estimation partial_route] }
        else some st2
      else some st2
    else
      match unvisited_cities partial_route len with
      | none => none
      | some cities =>
        match fuel with
        | 0 => none
        | fuel + 1 =>
          -- for `len <= 3` the call below is started as a thread and joined after the
          -- loop, otherwise it is made in place; here both are the call itself
          cities.foldlM
            (fun s city =>
              match new_route partial_route len city with
              | none => none
              | some r => walk_route_aux fuel s r (len + 1))
            st1

/-- The function `walk_route`. -/
def walk_route (st : State) (partial_route : List Nat) (len : Nat) : Option State :=
  walk_route_aux (partial_route.length - len) st partial_route len

/-- The city count of `main`: `std::min(15, std::max(5, (argc == 2) ? atoi(argv[1]) : 10))`,
converted to `size_t`.  `arg` is the value `atoi(argv[1])`. -/
def main_N (argc : Nat) (arg : Int) : Nat :=
  (min 15 (max 5 (if argc = 2 then arg else 10))).toNat

/-- The state `main` builds before the search: the identity tour and its cost. -/
def main_init (N : Nat) : Option State :=
  let identity := List.range N
  match estimate identity identity.length with
  | none => none
  | some e => some { best_estimation := e, best_solution_found := identity, trace := [] }

/-- The search of `main` for `N` cities: initialisation, `route(N)`, `route[0] = 0`,
`walk_route(route, 1)`. -/
def main_search (N : Nat) : Option State :=
  match main_init N with
  | none => none
  | some st =>
    match new_route (List.replicate N 0) 0 0 with
    | none => none
    | some route => walk_route st route 1

/-! ### Reference quantities the claims are stated with -/

/-- The entry `distance_map[a][b]` as an integer (0 outside the table). -/
def dist (a b : Nat) : Int := (distance_map a b).getD 0

/-- The city at position `k` of a route (0 outside the route). -/
def city (route : List Nat) (k : Nat) : Nat := route.getD k 0

/-- The sum of `distance_map[route[k-1]][route[k]]` for `k = 1..len-1`. -/
def prefix_cost (route : List Nat) (len : Nat) : Int :=
  ((List.range' 1 (len - 1)).map (fun k => dist (city route (k - 1)) (city route k))).sum

/-- The closing edge `distance_map[route[len-1]][route[0]]`. -/
def closing_edge (route : List Nat) (len : Nat) : Int :=
  dist (city route (len - 1)) (city route 0)

/-- The full cost of a tour: consecutive edges plus the edge back to the first city. -/
def tour_cost (p : List Nat) : Int := prefix_cost p p.length + closing_edge p p.length

/-- The index pairs at which `estimate(route, len)` reads `distance_map` (lines 52, 54). -/
def estimate_reads (route : List Nat) (len : Nat) : List (Nat × Nat) :=
  (List.range' 1 (len - 1)).map (fun k => (city route (k - 1), city route k)) ++
    (if route.length = len then [(city route (len - 1), city route 0)] else [])

/-- A tour of `N` cities that starts at city 0: a permutation of `[0, N)` with head 0. -/
def Tour (N : Nat) (p : List Nat) : Prop :=
  p.Perm (List.range N) ∧ p.head? = some 0

/-- The value `c` is the brute-force optimum for `N` cities: some tour costs `c` and
no tour costs less. -/
def Optimum (N : Nat) (c : Int) : Prop :=
  (∃ p, Tour N p ∧ tour_cost p = c) ∧ ∀ p, Tour N p → c ≤ tour_cost p

/-- The route invariant of a call `walk_route(route, len)` for `N` cities. -/
def RouteOK (N : Nat) (route : List Nat) (len : Nat) : Prop :=
  route.length = N ∧ 1 ≤ len ∧ len ≤ N ∧ (route.take len).Nodup ∧
    (∀ c ∈ route.take len, c < N) ∧ route.head? = some 0

/-- Cost and route of the best solution belong together. -/
def Matched (st : State) : Prop :=
  estimate st.best_solution_found st.best_solution_found.length = some st.best_estimation

/-- The state after the entry of a call has been logged. -/
def entered (st : State) (route : List Nat) (len : Nat) : State :=
  { st with trace := st.trace ++ [Event.enter route len] }

/-- The state after a leaf call has logged its attempt and stored its cost and route. -/
def committed (st : State) (route : List Nat) (len : Nat) (e : Int) : State :=
  { best_estimation := e, best_solution_found := route,
    trace := st.trace ++ [Event.enter route len] ++ [Event.attempt e route] ++
      [Event.commit e route] }

/-- The loop body of `walk_route` for one unvisited city. -/
def child (fuel : Nat) (route : List Nat) (len : Nat) (s : State) (c : Nat) : Option State :=
  match new_route route len c with
  | none => none
  | some r => walk_route_aux fuel s r (len + 1)

/-- The best solution is a tour and its recorded cost is that tour's cost. -/
def Good (N : Nat) (st : State) : Prop :=
  Tour N st.best_solution_found ∧ st.best_estimation = tour_cost st.best_solution_found

/-- What holds of every logged event of a search over `N` cities: a call has a valid
route state, an update attempt carries a tour and its cost. -/
def EvOK (N : Nat) : Event → Prop
  | Event.enter route len => RouteOK N route len
  | Event.attempt e route => Tour N route ∧ e = tour_cost route
  | Event.commit e route => Tour N route ∧ e = tour_cost route

/-- The outcome of a call `walk_route(route, len)` started in state `st`. -/
def Post (N : Nat) (st : State) (route : List Nat) (len : Nat) (st' : State) : Prop :=
  Good N st' ∧ st'.best_estimation ≤ st.best_estimation ∧
    (∀ p, Tour N p → p.take len = route.take len → st'.best_estimation ≤ tour_cost p) ∧
    ∃ evs, st'.trace = st.trace ++ evs ∧ ∀ ev ∈ evs, EvOK N ev

/-- All tours of `N` cities that start at city 0, by enumeration of the permutations. -/
def tours (N : Nat) : List (List Nat) :=
  (List.range N).permutations.filter (fun p => decide (p.head? = some 0))

/-- The brute-force optimum: the least full tour cost over `tours N`. -/
def brute_force (N : Nat) : Option Int := ((tours N).map tour_cost).min?

/-- A call `walk_route(route, len)` that stays inside the vector and the table: the
committed prefix lies within a non-empty route of at most 15 entries and holds table
indices. -/
def CallOK (route : List Nat) (len : Nat) : Prop :=
  len ≤ route.length ∧ route ≠ [] ∧ route.length ≤ 15 ∧ ∀ k < len, city route k < 15

/-- The values assigned to `best_estimation` by the logged events, in order. -/
def commits : List Event → List Int
  | [] => []
  | Event.commit e _ :: evs => e :: commits evs
  | _ :: evs => commits evs

/-- How one call may change the state: the best cost does not rise, a matched pair
stays matched, cost and route change together or not at all, the log only grows, and
the values assigned to `best_estimation` on the way lie below the value before, at or
above the value after, strictly decrease, and end with the value after. -/
def Step (s s' : State) : Prop :=
  s'.best_estimation ≤ s.best_estimation ∧ (Matched s → Matched s') ∧
    ((s'.best_estimation = s.best_estimation ∧ s'.best_solution_found = s.best_solution_found) ∨
      (s'.best_estimation < s.best_estimation ∧ Matched s')) ∧
    ∃ evs, s'.trace = s.trace ++ evs ∧
      (∀ e ∈ commits evs, s'.best_estimation ≤ e ∧ e < s.best_estimation) ∧
      (commits evs).Pairwise (fun a b => b < a) ∧
      (commits evs).getLastD s.best_estimation = s'.best_estimation

/-! ### The leaf update under concurrency (lines 73-81)

Several tasks have reached the leaf block of `walk_route`, each with its own
`estimation` and `partial_route`.  One step is one statement of one task; a schedule
is the order in which the tasks take their steps.  Reads and writes of
`best_estimation` are single steps, `best_solution_mutex` is held by at most one task,
and a task that finds it taken cannot take its step. -/

/-- The statement a task executes next. -/
inductive PC where
  /-- Line 73: the test `estimation < best_estimation` outside the mutex. -/
  | at_check
  /-- Line 75: the `lock_guard` is about to take `best_solution_mutex`. -/
  | at_lock
  /-- Line 76: the same test again, holding the mutex. -/
  | at_recheck
  /-- Line 78: `best_estimation = estimation`. -/
  | at_write_cost
  /-- Line 79: `best_solution_found = partial_route`. -/
  | at_write_route
  /-- Line 81: the `lock_guard` goes out of scope and releases the mutex. -/
  | at_unlock
  /-- Line 82: the task has returned. -/
  | finished
  deriving DecidableEq, Repr

/-- The shared globals, the owner of `best_solution_mutex` and the next statement of
every task. -/
structure Shared where
  best_estimation : Int
  best_solution_found : List Nat
  mutex : Option Nat
  pc : Nat → PC

/-- Task `i` moves on to statement `next`. -/
def goto (s : Shared) (i : Nat) (next : PC) : Nat → PC := Function.update s.pc i next

/-- Task `i` takes its next step; `none` when it has none to take (no such task, the
mutex is taken, or the task has returned).  `cands[i]` holds the `estimation` and the
`partial_route` of task `i`. -/
def leaf_step (cands : List (Int × List Nat)) (s : Shared) (i : Nat) : Option Shared :=
  match cands[i]? with
  | none => none
  | some (estimation, partial_route) =>
    match s.pc i with
    | PC.at_check =>
      if estimation < s.best_estimation then some { s with pc := goto s i PC.at_lock }
      else some { s with pc := goto s i PC.finished }
    | PC.at_lock =>
      if s.mutex = none then some { s with mutex := some i, pc := goto s i PC.at_recheck }
      else none
    | PC.at_recheck =>
      if estimation < s.best_estimation then some { s with pc := goto s i PC.at_write_cost }
      else some { s with pc := goto s i PC.at_unlock }
    | PC.at_write_cost =>
      some { s with best_estimation := estimation, pc := goto s i PC.at_write_route }
    | PC.at_write_route =>
      some { s with best_solution_found := partial_route, pc := goto s i PC.at_unlock }
    | PC.at_unlock =>
      some { s with mutex := none, pc := goto s i PC.finished }
    | PC.finished => none

/-- The tasks take their steps in the order the schedule lists them. -/
def leaf_run (cands : List (Int × List Nat)) : Shared → List Nat → Option Shared
  | s, [] => some s
  | s, i :: sched =>
    match leaf_step cands s i with
    | none => none
    | some s' => leaf_run cands s' sched

/-- All tasks stand before the test of line 73 and the mutex is free. -/
def leaf_init (best : Int) (route : List Nat) : Shared :=
  { best_estimation := best, best_solution_found := route, mutex := none,
    pc := fun _ => PC.at_check }

/-- Every task has returned. -/
def all_finished (cands : List (Int × List Nat)) (s : Shared) : Prop :=
  ∀ i < cands.length, s.pc i = PC.finished

/-- The task holds the mutex at this statement. -/
def in_critical : PC → Bool
  | PC.at_recheck => true
  | PC.at_write_cost => true
  | PC.at_write_route => true
  | PC.at_unlock => true
  | _ => false

/-- What holds in every state the tasks can reach from `leaf_init best route`. -/
structure LeafInv (cands : List (Int × List Nat)) (best : Int) (route : List Nat)
    (s : Shared) : Prop where
  owner : ∀ i, in_critical (s.pc i) = true ↔ s.mutex = some i
  le_init : s.best_estimation ≤ best
  passed : ∀ i e r, cands[i]? = some (e, r) →
    (s.pc i = PC.finished ∨ s.pc i = PC.at_unlock) → s.best_estimation ≤ e
  below : ∀ i e r, cands[i]? = some (e, r) → s.pc i = PC.at_write_cost →
    e < s.best_estimation
  half : ∀ i e r, cands[i]? = some (e, r) → s.pc i = PC.at_write_route →
    s.best_estimation = e
  pair : (∀ i < cands.length, s.pc i ≠ PC.at_write_route) →
    (s.best_estimation = best ∧ s.best_solution_found = route) ∨
      ∃ c ∈ cands, s.best_estimation = c.1 ∧ s.best_solution_found = c.2
  idle : ∀ i, cands[i]? = none → s.pc i = PC.at_check

/-- The position of a statement in the leaf block. -/
def pc_rank : PC → Nat
  | PC.at_check => 0
  | PC.at_lock => 1
  | PC.at_recheck => 2
  | PC.at_write_cost => 3
  | PC.at_write_route => 4
  | PC.at_unlock => 5
  | PC.finished => 6

/-- The number of statements the tasks have at most left to execute. -/
def leaf_measure (cands : List (Int × List Nat)) (s : Shared) : Nat :=
  ((List.range cands.length).map (fun i => 6 - pc_rank (s.pc i))).sum


/-- Where task `i` with cost `e` and route `r` stands once its re-check of line 76 has
succeeded: before its two assignments, between them with the cost stored, after them with
cost and route stored, or returned. -/
def Storing (i : Nat) (e : Int) (r : List Nat) (s : Shared) : Prop :=
  (s.pc i = PC.at_recheck ∧ e < s.best_estimation) ∨
    s.pc i = PC.at_write_cost ∨
    (s.pc i = PC.at_write_route ∧ s.best_estimation = e) ∨
    (s.pc i = PC.at_unlock ∧ s.best_estimation = e ∧ s.best_solution_found = r) ∨
    s.pc i = PC.finished
/-! ### The search with the started calls run in any order

`walk_route` starts each child as a thread while `len <= 3`, so calls of different
branches interleave.  A `Pool` holds the globals and the calls that have been started
and have not run yet; one step runs one of them from its prune test to the start of its
children, against the value `best_estimation` has at that moment.  The leaf update is
one step here; `leaf_step` is its statement-by-statement form.  Running the children
in loop order, as `walk_route` above does, is one of the orders. -/

/-- The globals and the started calls `walk_route(route, len)` that have not run yet. -/
structure Pool where
  best_estimation : Int
  best_solution_found : List Nat
  pending : List (List Nat × Nat)

/-- The calls the loop of `walk_route(route, len)` makes for the given unvisited cities. -/
def spawned (route : List Nat) (len : Nat) : List Nat → Option (List (List Nat × Nat))
  | [] => some []
  | c :: cs =>
    match new_route route len c, spawned route len cs with
    | some r, some rest => some ((r, len + 1) :: rest)
    | _, _ => none

/-- The pending call at position `k` runs. -/
def pool_step (s : Pool) (k : Nat) : Option Pool :=
  match s.pending[k]? with
  | none => none
  | some (route, len) =>
    match estimate route len with
    | none => none
    | some estimation =>
      if estimation ≥ s.best_estimation then
        some { s with pending := s.pending.take k ++ s.pending.drop (k + 1) }
      else if route.length = len then
        some { best_estimation := estimation, best_solution_found := route,
               pending := s.pending.take k ++ s.pending.drop (k + 1) }
      else
        match unvisited_cities route len with
        | none => none
        | some cities =>
          match spawned route len cities with
          | none => none
          | some calls =>
            some { s with pending := s.pending.take k ++ s.pending.drop (k + 1) ++ calls }

/-- The pending calls run in the order the schedule lists their positions. -/
def pool_run : Pool → List Nat → Option Pool
  | s, [] => some s
  | s, k :: sched =>
    match pool_step s k with
    | none => none
    | some s' => pool_run s' sched

/-- The pool of `main`: the identity tour, its cost, and the entry call. -/
def pool_init (N : Nat) : Option Pool :=
  match main_init N, new_route (List.replicate N 0) 0 0 with
  | some st, some route =>
    some { best_estimation := st.best_estimation,
           best_solution_found := st.best_solution_found, pending := [(route, 1)] }
  | _, _ => none

/-- What holds of every pool reachable from `pool_init N`: the best solution is a tour
with its cost, every pending call has a valid route state, and every tour costs at
least the best cost or lies below a pending call. -/
def PoolInv (N : Nat) (s : Pool) : Prop :=
  (Tour N s.best_solution_found ∧ s.best_estimation = tour_cost s.best_solution_found) ∧
    (∀ rl ∈ s.pending, RouteOK N rl.1 rl.2) ∧
    ∀ p, Tour N p → s.best_estimation ≤ tour_cost p ∨
      ∃ rl ∈ s.pending, p.take rl.2 = rl.1.take rl.2

/-- A bound on the number of calls below a call with `d` positions still open, when
every call makes at most `N` child calls. -/
def tree_bound (N : Nat) : Nat → Nat
  | 0 => 1
  | d + 1 => 1 + N * tree_bound N d

/-- A bound on the number of steps the pool has left. -/
def pool_measure (N : Nat) (s : Pool) : Nat :=
  (s.pending.map (fun rl => tree_bound N (N - rl.2))).sum

/-! ### Further notions for the claims on single calls -/

/-- The routes of the logged calls that were made with the given `len`, in order. -/
def calls_at (len : Nat) : List Event → List (List Nat)
  | [] => []
  | Event.enter r l :: evs => if l = len then r :: calls_at len evs else calls_at len evs
  | _ :: evs => calls_at len evs

/-- The list `p` comes before `q` in lexicographic order, with the first difference at a
position below `bound`: the two agree before some position `k < bound`, and there `p`
holds the smaller city. -/
def LexBefore (bound : Nat) (p q : List Nat) : Prop :=
  ∃ k, k < bound ∧ p.take k = q.take k ∧ city p k < city q k

/-- Every tour that comes before the best solution in lexicographic order costs more
than the best cost. -/
def FirstBest (N : Nat) (st : State) : Prop :=
  ∀ p, Tour N p → LexBefore N p st.best_solution_found → st.best_estimation < tour_cost p

/-- Every tour that comes before all tours below the call `walk_route(route, len)` costs
at least the best cost. -/
def Explored (N : Nat) (st : State) (route : List Nat) (len : Nat) : Prop :=
  ∀ p, Tour N p → LexBefore len p route → st.best_estimation ≤ tour_cost p


/-- The route of `n` entries that alternates between city 0 and city 2.  Their distance
`distance_map[0][2] = distance_map[2][0] = 82` is the largest entry of the table. -/
def alternating_route (n : Nat) : List Nat :=
  (List.range n).map (fun i => if i % 2 = 0 then 0 else 2)

end TSP

/-! # MultMatrix-Parallel: the matrix benchmark

Shallow embedding of `src/MultMatrix-Parallel/MultMatrix-Parallel.cpp`.

* A `double**` matrix is a `Mat`: its dimensions and its entries.  A read or write
  outside the dimensions is undefined behaviour in C++ and is modelled by `none`.
* `double` values are rational numbers: the arithmetic is exact.
* The threads of `main` each run `mult_matrix` for one `th_idx`; they write disjoint
  rows of `C` and every update of `C` is made under `c_mutex`.  `main_product` runs the
  calls one after the other in a given order of the thread indices. -/

namespace MultMatrix

/-- A matrix of `rows * cols` values. -/
structure Mat where
  rows : Nat
  cols : Nat
  elem : Nat → Nat → ℚ

/-- The read `M[i][j]`. -/
def Mat.read (M : Mat) (i j : Nat) : Option ℚ :=
  if i < M.rows ∧ j < M.cols then some (M.elem i j) else none

/-- The write `M[i][j] = v`. -/
def Mat.write (M : Mat) (i j : Nat) (v : ℚ) : Option Mat :=
  if i < M.rows ∧ j < M.cols then
    some { M with elem := fun a b => if a = i ∧ b = j then v else M.elem a b }
  else none

/-- The function `create_matrix(rows, cols)`.  The memory is not initialised; `junk` is
what it happens to hold. -/
def create_matrix (rows cols : Nat) (junk : Nat → Nat → ℚ) : Mat :=
  { rows := rows, cols := cols, elem := junk }

/-- The function `fill_matrix(M, rows, cols, value)`. -/
def fill_matrix (M : Mat) (rows cols : Nat) (value : ℚ) : Option Mat :=
  (List.range rows).foldlM
    (fun M i => (List.range cols).foldlM (fun M j => M.write i j value) M) M

/-- The innermost loop of `mult_matrix`: `sum += A[i][k] * B[k][j]` for `k < A_cols`,
starting from `sum = 0`. -/
def mult_sum (A B : Mat) (A_cols i j : Nat) : Option ℚ :=
  (List.range A_cols).foldlM
    (fun sum k =>
      match A.read i k, B.read k j with
      | some a, some b => some (sum + a * b)
      | _, _ => none)
    0

/-- The middle loop of `mult_matrix` for row `i`: for `j < B_cols` the sum is formed and
added to `C[i][j]` under `c_mutex`. -/
def mult_row (A B : Mat) (A_cols B_cols i : Nat) (C : Mat) : Option Mat :=
  (List.range B_cols).foldlM
    (fun C j =>
      match mult_sum A B A_cols i j, C.read i j with
      | some sum, some c => C.write i j (c + sum)
      | _, _ => none)
    C

/-- The outer loop of `mult_matrix`, `for (i = ...; i < A_rows; i += P)`, from the
current `i`.  The first argument bounds the number of rounds; a loop that needs more
rounds than that is `none`. -/
def mult_matrix_loop (A B : Mat) (A_rows A_cols B_cols P : Nat) : Nat → Nat → Mat → Option Mat
  | 0, i, C => if i < A_rows then none else some C
  | fuel + 1, i, C =>
    if i < A_rows then
      match mult_row A B A_cols B_cols i C with
      | none => none
      | some C' => mult_matrix_loop A B A_rows A_cols B_cols P fuel (i + P) C'
    else some C

/-- The function `mult_matrix(A, B, C, A_rows, A_cols, B_cols, th_idx, P)`; the result
is the new content of `C`.  For `P >= 1` the loop runs at most `A_rows` rounds
(`mult_matrix_loop_spec` holds for every larger bound as well); for `P = 0` it does
not end. -/
def mult_matrix (A B C : Mat) (A_rows A_cols B_cols th_idx P : Nat) : Option Mat :=
  mult_matrix_loop A B A_rows A_cols B_cols P A_rows th_idx C

/-- The function `test_result(M, rows, cols, result)`; the result is the list of the
lines it prints, one `(i, j, M[i][j])` for each entry that differs from `result`. -/
def test_result (M : Mat) (rows cols : Nat) (result : ℚ) : Option (List (Nat × Nat × ℚ)) :=
  (List.range rows).foldlM
    (fun out i =>
      (List.range cols).foldlM
        (fun out j =>
          match M.read i j with
          | none => none
          | some v => if v ≠ result then some (out ++ [(i, j, v)]) else some out)
        out)
    []

/-- The matrix size of `main`: `(argc == 2) ? atoi(argv[1]) : 1000`, converted to
`size_t`.  `arg` is the value `atoi(argv[1])`. -/
def main_N (argc : Nat) (arg : Int) : Nat :=
  ((if argc = 2 then arg else 1000) % 2 ^ 64).toNat

/-- The matrix `C` of `main` after the threads have been joined, for size `N` and `P`
threads whose calls of `mult_matrix` run in the given order: the three matrices are
created and filled with 1, 1 and 0, then `mult_matrix` runs for each thread index. -/
def main_product (N P : Nat) (order : List Nat) (junkA junkB junkC : Nat → Nat → ℚ) :
    Option Mat :=
  match fill_matrix (create_matrix N N junkA) N N 1,
        fill_matrix (create_matrix N N junkB) N N 1,
        fill_matrix (create_matrix N N junkC) N N 0 with
  | some A, some B, some C =>
    order.foldlM (fun C th_idx => mult_matrix A B C N N N th_idx P) C
  | _, _, _ => none

/-- The lines `main` prints through `test_result(C, N, N, N)`. -/
def main_report (N P : Nat) (order : List Nat) (junkA junkB junkC : Nat → Nat → ℚ) :
    Option (List (Nat × Nat × ℚ)) :=
  match main_product N P order junkA junkB junkC with
  | none => none
  | some C => test_result C N N (N : ℚ)

/-- The matrix is `N * N` and holds 1 everywhere. -/
def Ones (N : Nat) (M : Mat) : Prop :=
  M.rows = N ∧ M.cols = N ∧ ∀ a < N, ∀ b < N, M.elem a b = 1

/-- The row `a` is one of the rows `i, i + P, i + 2P, ...`. -/
def on_stride (P i a : Nat) : Prop := i ≤ a ∧ P ∣ a - i

end MultMatrix

namespace TSP

/-! ### The distance table -/

theorem dist_bounds : ∀ a < 15, ∀ b < 15, 0 ≤ dist a b ∧ dist a b ≤ 82 := by
  decide

theorem distance_map_some : ∀ a < 15, ∀ b < 15, distance_map a b = some (dist a b) := by
  decide

theorem dist_nonneg (a b : Nat) : 0 ≤ dist a b := by
  by_cases ha : a < 15
  · by_cases hb : b < 15
    · exact (dist_bounds a ha b hb).1
    · have : distance_map a b = none := by
        unfold distance_map
        cases h : distance_table[a]? with
        | none => rfl
        | some row =>
          simp only
          have hrow : row.length = 15 := by
            have : ∀ a < 15, ∀ row, distance_table[a]? = some row → row.length = 15 := by decide
            exact this a ha row h
          exact List.getElem?_eq_none (by omega)
      simp [dist, this]
  · have : distance_map a b = none := by
      unfold distance_map
      have : distance_table[a]? = none := List.getElem?_eq_none (by simp [distance_table]; omega)
      rw [this]
    simp [dist, this]

/-! ### Reference quantities -/

theorem city_eq_of_lt {route : List Nat} {k : Nat} (h : k < route.length) :
    route[k]? = some (city route k) := by
  simp [city, List.getD_eq_getElem?_getD, List.getElem?_eq_getElem h]

theorem prefix_cost_congr {r r' : List Nat} {len : Nat}
    (h : ∀ k < len, city r k = city r' k) : prefix_cost r len = prefix_cost r' len := by
  unfold prefix_cost
  congr 1
  apply List.map_congr_left
  intro k hk
  rw [List.mem_range'_1] at hk
  rw [h (k - 1) (by omega), h k (by omega)]

theorem prefix_cost_nonneg (r : List Nat) (len : Nat) : 0 ≤ prefix_cost r len := by
  unfold prefix_cost
  apply List.sum_nonneg
  intro x hx
  rw [List.mem_map] at hx
  obtain ⟨k, _, rfl⟩ := hx
  exact dist_nonneg _ _

theorem prefix_cost_mono (r : List Nat) {len len' : Nat} (h : len ≤ len') :
    prefix_cost r len ≤ prefix_cost r len' := by
  unfold prefix_cost
  have hsplit : List.range' 1 (len' - 1) =
      List.range' 1 (len - 1) ++ List.range' (1 + (len - 1)) ((len' - 1) - (len - 1)) := by
    rw [List.range'_append_1]
    congr 1
    omega
  rw [hsplit, List.map_append, List.sum_append]
  have : 0 ≤ ((List.range' (1 + (len - 1)) ((len' - 1) - (len - 1))).map
      (fun k => dist (city r (k - 1)) (city r k))).sum := by
    apply List.sum_nonneg
    intro x hx
    rw [List.mem_map] at hx
    obtain ⟨k, _, rfl⟩ := hx
    exact dist_nonneg _ _
  omega

theorem closing_edge_nonneg (r : List Nat) (len : Nat) : 0 ≤ closing_edge r len :=
  dist_nonneg _ _

theorem prefix_cost_le_tour_cost (p : List Nat) {len : Nat} (h : len ≤ p.length) :
    prefix_cost p len ≤ tour_cost p := by
  have := prefix_cost_mono p h
  have := closing_edge_nonneg p p.length
  unfold tour_cost
  omega

/-! ### `estimate` -/

theorem int_add_eq {sum d : Int} (h0 : 0 ≤ sum + d) (h1 : sum + d ≤ INT_MAX) :
    int_add sum d = some (sum + d) := by
  unfold int_add
  rw [if_pos ⟨le_trans (by decide) h0, h1⟩]

theorem int_add_none {sum d : Int} (h : INT_MAX < sum + d) : int_add sum d = none := by
  unfold int_add
  rw [if_neg (fun hh => absurd hh.2 (not_le.mpr h))]

theorem estimate_step_eq {route : List Nat} {k : Nat} (sum : Int) (hk : k + 1 < route.length)
    (h0 : city route k < 15) (h1 : city route (k + 1) < 15) :
    estimate_step route sum (k + 1) =
      int_add sum (dist (city route k) (city route (k + 1))) := by
  unfold estimate_step
  rw [Nat.add_sub_cancel, city_eq_of_lt (by omega : k < route.length), city_eq_of_lt hk]
  simp only [distance_map_some _ h0 _ h1]

theorem edges_sum_nonneg (route : List Nat) (m : Nat) :
    0 ≤ ((List.range' 1 m).map (fun k => dist (city route (k - 1)) (city route k))).sum := by
  apply List.sum_nonneg
  intro x hx
  rw [List.mem_map] at hx
  obtain ⟨k, _, rfl⟩ := hx
  exact dist_nonneg _ _

/-- The loop of `estimate` returns the sum of the edges when that sum fits an `int`, and
overflows otherwise. -/
theorem estimate_loop_eq (route : List Nat) :
    ∀ m : Nat, (m = 0 ∨ m < route.length) → (∀ k, k ≤ m → city route k < 15) →
      (List.range' 1 m).foldlM (estimate_step route) 0 =
        if ((List.range' 1 m).map (fun k => dist (city route (k - 1)) (city route k))).sum
            ≤ INT_MAX
        then some ((List.range' 1 m).map (fun k => dist (city route (k - 1)) (city route k))).sum
        else none := by
  intro m
  induction m with
  | zero =>
    intro _ _
    have : (0 : Int) ≤ INT_MAX := by decide
    simp [this]
  | succ m ih =>
    intro hm hv
    have hm' : m + 1 < route.length := by omega
    have hnn := edges_sum_nonneg route m
    have hd := dist_nonneg (city route m) (city route (m + 1))
    rw [List.range'_concat, List.foldlM_append, ih (Or.inr (by omega)) (fun k hk => hv k (by omega))]
    have h1 : 1 + 1 * m = m + 1 := by omega
    simp only [h1, List.map_append, List.sum_append, List.map_cons, List.map_nil, List.sum_cons,
      List.sum_nil, add_zero, Nat.add_sub_cancel]
    by_cases hfit : ((List.range' 1 m).map
        (fun k => dist (city route (k - 1)) (city route k))).sum ≤ INT_MAX
    · rw [if_pos hfit]
      simp only [Option.bind_eq_bind, Option.some_bind, List.foldlM_cons, List.foldlM_nil]
      rw [estimate_step_eq _ hm' (hv m (by omega)) (hv (m + 1) le_rfl)]
      by_cases hfit' : ((List.range' 1 m).map
          (fun k => dist (city route (k - 1)) (city route k))).sum +
            dist (city route m) (city route (m + 1)) ≤ INT_MAX
      · rw [if_pos hfit', int_add_eq (by omega) hfit']
        rfl
      · rw [if_neg hfit', int_add_none (not_le.mp hfit')]
        rfl
    · rw [if_neg hfit, if_neg (by omega)]
      rfl

/-- What `estimate` returns on a non-empty route whose first `len` entries index the
table: the prefix sum, plus the closing edge exactly when `len` is the route's length,
when that sum fits an `int`; otherwise an addition overflows. -/
theorem estimate_char {route : List Nat} {len : Nat} (hlen : len ≤ route.length)
    (hne : route ≠ []) (hv : ∀ k < len, city route k < 15) :
    estimate route len =
      if prefix_cost route len + (if route.length = len then closing_edge route len else 0)
          ≤ INT_MAX
      then some (prefix_cost route len +
        if route.length = len then closing_edge route len else 0)
      else none := by
  have hpos : 0 < route.length := List.length_pos.mpr hne
  have hmax : (0 : Int) ≤ INT_MAX := by decide
  rcases Nat.eq_zero_or_pos len with h0 | h0
  · subst h0
    have : route.length ≠ 0 := by omega
    simp [estimate, prefix_cost, this, hmax]
  · unfold estimate
    rw [if_neg (by omega), estimate_loop_eq route (len - 1) (by omega) (fun k hk => hv k (by omega))]
    have hnn := edges_sum_nonneg route (len - 1)
    have hc := closing_edge_nonneg route len
    unfold prefix_cost
    by_cases hfit : ((List.range' 1 (len - 1)).map
        (fun k => dist (city route (k - 1)) (city route k))).sum ≤ INT_MAX
    · rw [if_pos hfit]
      simp only
      by_cases hfull : route.length = len
      · rw [if_pos hfull, if_pos hfull]
        unfold estimate_close
        rw [city_eq_of_lt (by omega : len - 1 < route.length), city_eq_of_lt hpos]
        simp only [distance_map_some _ (hv (len - 1) (by omega)) _ (hv 0 h0)]
        unfold closing_edge at hc ⊢
        by_cases hfit' : ((List.range' 1 (len - 1)).map
            (fun k => dist (city route (k - 1)) (city route k))).sum +
              dist (city route (len - 1)) (city route 0) ≤ INT_MAX
        · rw [if_pos hfit', int_add_eq (by omega) hfit']
        · rw [if_neg hfit', int_add_none (not_le.mp hfit')]
      · rw [if_neg hfull, if_neg hfull, add_zero, if_pos hfit]
    · rw [if_neg hfit]
      simp only
      rw [if_neg]
      by_cases hfull : route.length = len
      · rw [if_pos hfull]
        omega
      · rw [if_neg hfull]
        omega

/-- The sum `estimate` computes is at least 0 and at most 82 for each of the at most
`len` edges. -/
theorem cost_bounds {route : List Nat} {len : Nat} (hlen : len ≤ route.length)
    (hne : route ≠ []) (hv : ∀ k < len, city route k < 15) :
    0 ≤ prefix_cost route len + (if route.length = len then closing_edge route len else 0) ∧
      prefix_cost route len + (if route.length = len then closing_edge route len else 0)
        ≤ 82 * len := by
  have hpos : 0 < route.length := List.length_pos.mpr hne
  have hedges : ∀ m : Nat, m + 1 ≤ len →
      ((List.range' 1 m).map (fun k => dist (city route (k - 1)) (city route k))).sum
        ≤ 82 * m := by
    intro m
    induction m with
    | zero => intro _; simp
    | succ m ih =>
      intro hm
      have h1 : 1 + 1 * m = m + 1 := by omega
      rw [List.range'_concat]
      simp only [h1, List.map_append, List.sum_append, List.map_cons, List.map_nil,
        List.sum_cons, List.sum_nil, add_zero, Nat.add_sub_cancel]
      have := ih (by omega)
      have := (dist_bounds _ (hv m (by omega)) _ (hv (m + 1) (by omega))).2
      push_cast
      omega
  have hnn := prefix_cost_nonneg route len
  have hc := closing_edge_nonneg route len
  rcases Nat.eq_zero_or_pos len with h0 | h0
  · subst h0
    have : route.length ≠ 0 := by omega
    simp [prefix_cost, this]
  · have hp : prefix_cost route len ≤ 82 * ((len - 1 : Nat) : Int) := hedges (len - 1) (by omega)
    have hcast : ((len - 1 : Nat) : Int) = (len : Int) - 1 := by omega
    by_cases hfull : route.length = len
    · rw [if_pos hfull]
      have := (dist_bounds _ (hv (len - 1) (by omega)) _ (hv 0 h0)).2
      unfold closing_edge at hc ⊢
      constructor
      · omega
      · omega
    · rw [if_neg hfull]
      constructor
      · omega
      · omega

/-- The value of `estimate` when the sum fits an `int`. -/
theorem estimate_eq_fit {route : List Nat} {len : Nat} (hlen : len ≤ route.length)
    (hne : route ≠ []) (hv : ∀ k < len, city route k < 15)
    (hfit : prefix_cost route len +
      (if route.length = len then closing_edge route len else 0) ≤ INT_MAX) :
    estimate route len =
      some (prefix_cost route len + if route.length = len then closing_edge route len else 0) := by
  rw [estimate_char hlen hne hv, if_pos hfit]

/-- A sum above `INT_MAX` makes `estimate` overflow. -/
theorem estimate_overflow {route : List Nat} {len : Nat} (hlen : len ≤ route.length)
    (hne : route ≠ []) (hv : ∀ k < len, city route k < 15)
    (hbig : INT_MAX < prefix_cost route len +
      (if route.length = len then closing_edge route len else 0)) :
    estimate route len = none := by
  rw [estimate_char hlen hne hv, if_neg (not_le.mpr hbig)]

/-- A value `estimate` returns is the sum, and fits an `int`. -/
theorem estimate_some {route : List Nat} {len : Nat} {c : Int} (hlen : len ≤ route.length)
    (hne : route ≠ []) (hv : ∀ k < len, city route k < 15)
    (h : estimate route len = some c) :
    c = prefix_cost route len + (if route.length = len then closing_edge route len else 0) ∧
      c ≤ INT_MAX := by
  rw [estimate_char hlen hne hv] at h
  by_cases hfit : prefix_cost route len +
      (if route.length = len then closing_edge route len else 0) ≤ INT_MAX
  · rw [if_pos hfit, Option.some.injEq] at h
    rw [← h]
    exact ⟨rfl, hfit⟩
  · rw [if_neg hfit] at h
    exact Option.noConfusion h

/-- Up to `len = 26188824` the sum is at most `82 * len`, which fits an `int`. -/
theorem cost_fits {route : List Nat} {len : Nat} (hlen : len ≤ route.length)
    (hne : route ≠ []) (hv : ∀ k < len, city route k < 15) (hsmall : len ≤ 26188824) :
    prefix_cost route len + (if route.length = len then closing_edge route len else 0)
      ≤ INT_MAX := by
  have h := (cost_bounds hlen hne hv).2
  have hcast : (len : Int) ≤ 26188824 := by exact_mod_cast hsmall
  unfold INT_MAX
  omega

/-- What `estimate` returns on a non-empty route whose first `len <= 26188824` entries
index the table: the prefix sum, plus the closing edge exactly when `len` is the route's
length. -/
theorem estimate_eq {route : List Nat} {len : Nat} (hlen : len ≤ route.length)
    (hne : route ≠ []) (hv : ∀ k < len, city route k < 15) (hsmall : len ≤ 26188824) :
    estimate route len =
      some (prefix_cost route len + if route.length = len then closing_edge route len else 0) :=
  estimate_eq_fit hlen hne hv (cost_fits hlen hne hv hsmall)

theorem reads_sum_eq (route : List Nat) (len : Nat) :
    ((estimate_reads route len).map (fun p => dist p.1 p.2)).sum =
      prefix_cost route len + if route.length = len then closing_edge route len else 0 := by
  unfold estimate_reads prefix_cost closing_edge
  by_cases hfull : route.length = len
  · simp [hfull, List.map_map, Function.comp_def]
  · simp [hfull, List.map_map, Function.comp_def]

/-- The result of `estimate` is the sum of the table entries at the index pairs it reads. -/
theorem estimate_eq_reads {route : List Nat} {len : Nat} (hlen : len ≤ route.length)
    (hne : route ≠ []) (hv : ∀ k < len, city route k < 15) (hsmall : len ≤ 26188824) :
    estimate route len = some ((estimate_reads route len).map (fun p => dist p.1 p.2)).sum := by
  rw [estimate_eq hlen hne hv hsmall, reads_sum_eq]

/-! ### `unvisited_cities` and `new_route` -/

theorem take_succ_eq {route : List Nat} {len : Nat} (h : len < route.length) :
    route.take (len + 1) = route.take len ++ [city route len] := by
  rw [List.take_succ, city_eq_of_lt h]
  rfl

/-- For `len` within the route the set of unvisited cities is the ascending list of the
indices of the route that do not occur among its first `len` entries. -/
theorem unvisited_cities_eq (route : List Nat) :
    ∀ len : Nat, len ≤ route.length →
      unvisited_cities route len =
        some ((List.range route.length).filter (fun c => decide (c ∉ route.take len))) := by
  intro len
  induction len with
  | zero =>
    intro _
    simp [unvisited_cities]
  | succ len ih =>
    intro hlen
    have hlt : len < route.length := by omega
    have ih' := ih (by omega)
    unfold unvisited_cities at ih' ⊢
    rw [List.range_succ, List.foldlM_append, ih']
    simp only [Option.bind_eq_bind, Option.some_bind, List.foldlM_cons, List.foldlM_nil,
      city_eq_of_lt hlt]
    have hnd : ((List.range route.length).filter (fun c => decide (c ∉ route.take len))).Nodup :=
      (List.nodup_range _).filter _
    rw [hnd.erase_eq_filter, List.filter_filter, take_succ_eq hlt]
    simp only [Option.bind_eq_bind, Option.some_bind, Option.pure_def, Option.some.injEq]
    apply List.filter_congr
    intro x _
    simp only [List.mem_append, List.mem_singleton, not_or, bne_iff_ne, ne_eq, Bool.and_eq_true,
      decide_eq_true_eq, Bool.decide_and, decide_not]
    rw [Bool.and_comm]
    congr 1

theorem unvisited_cities_none {route : List Nat} {len : Nat} (h : route.length < len) :
    unvisited_cities route len = none := by
  unfold unvisited_cities
  have hsplit : List.range len =
      List.range route.length ++ List.range' route.length (len - route.length) := by
    rw [List.range_eq_range', List.range_eq_range']
    have := List.range'_append_1 0 route.length (len - route.length)
    rw [Nat.zero_add] at this
    rw [this]
    congr 1
    omega
  rw [hsplit, List.foldlM_append]
  have hlen := unvisited_cities_eq route route.length le_rfl
  unfold unvisited_cities at hlen
  rw [hlen]
  obtain ⟨d, hd⟩ : ∃ d, len - route.length = d + 1 := ⟨len - route.length - 1, by omega⟩
  rw [hd, List.range'_succ]
  simp [List.getElem?_eq_none]

theorem mem_unvisited {route : List Nat} {len c : Nat} :
    c ∈ (List.range route.length).filter (fun c => decide (c ∉ route.take len)) ↔
      c < route.length ∧ c ∉ route.take len := by
  simp [List.mem_filter]

theorem new_route_eq {route : List Nat} {len : Nat} (h : len < route.length) (c : Nat) :
    new_route route len c = some (route.set len c) := by
  simp [new_route, h]

theorem take_set_succ {route : List Nat} {len : Nat} (h : len < route.length) (c : Nat) :
    (route.set len c).take (len + 1) = route.take len ++ [c] := by
  have h' : len < (route.set len c).length := by simpa using h
  rw [take_succ_eq h', List.set_take, List.set_eq_of_length_le (by simp)]
  simp [city, List.getD_eq_getElem?_getD, h]

/-! ### The three outcomes of one call of `walk_route` -/

theorem walk_route_aux_none {fuel : Nat} {st : State} {route : List Nat} {len : Nat}
    (he : estimate route len = none) : walk_route_aux fuel st route len = none := by
  unfold walk_route_aux
  simp only [he]

theorem walk_route_aux_pruned {fuel : Nat} {st : State} {route : List Nat} {len : Nat} {e : Int}
    (he : estimate route len = some e) (hp : e ≥ st.best_estimation) :
    walk_route_aux fuel st route len = some (entered st route len) := by
  unfold walk_route_aux
  simp only [he, hp, if_true, ge_iff_le, entered]

theorem walk_route_aux_leaf {fuel : Nat} {st : State} {route : List Nat} {len : Nat} {e : Int}
    (he : estimate route len = some e) (hp : e < st.best_estimation)
    (hfull : route.length = len) :
    walk_route_aux fuel st route len = some (committed st route len e) := by
  unfold walk_route_aux
  have hnp : ¬ e ≥ st.best_estimation := not_le.mpr hp
  simp only [he, hnp, hp, hfull, if_true, if_false, committed]

theorem walk_route_aux_branch {fuel : Nat} {st : State} {route : List Nat} {len : Nat} {e : Int}
    {cities : List Nat}
    (he : estimate route len = some e) (hp : e < st.best_estimation)
    (hfull : route.length ≠ len) (hu : unvisited_cities route len = some cities) :
    walk_route_aux (fuel + 1) st route len =
      cities.foldlM (child fuel route len) (entered st route len) := by
  rw [walk_route_aux]
  have hnp : ¬ e ≥ st.best_estimation := not_le.mpr hp
  simp only [he, hnp, hfull, hu, if_false]
  rfl

theorem walk_route_aux_branch_none {fuel : Nat} {st : State} {route : List Nat} {len : Nat}
    {e : Int} (he : estimate route len = some e) (hp : e < st.best_estimation)
    (hfull : route.length ≠ len) (hu : unvisited_cities route len = none) :
    walk_route_aux fuel st route len = none := by
  unfold walk_route_aux
  have hnp : ¬ e ≥ st.best_estimation := not_le.mpr hp
  simp only [he, hnp, hfull, hu, if_false]


/-- A value of `estimate` is at least 0 and at most 82 for each of the at most `len`
edges it sums, so it fits an `int` for every route of at most 26188824 entries, in
particular for every route the program can build. -/
theorem estimate_le {route : List Nat} {len : Nat} (hlen : len ≤ route.length)
    (hne : route ≠ []) (hv : ∀ k < len, city route k < 15) (hsmall : len ≤ 26188824) :
    ∃ e, estimate route len = some e ∧ 0 ≤ e ∧ e ≤ 82 * len :=
  ⟨_, estimate_eq hlen hne hv hsmall, cost_bounds hlen hne hv⟩


/-! ### Tours and route states -/

theorem tour_length {N : Nat} {p : List Nat} (h : Tour N p) : p.length = N := by
  rw [h.1.length_eq, List.length_range]

theorem tour_nodup {N : Nat} {p : List Nat} (h : Tour N p) : p.Nodup :=
  h.1.nodup_iff.mpr (List.nodup_range N)

theorem tour_lt {N : Nat} {p : List Nat} (h : Tour N p) {x : Nat} (hx : x ∈ p) : x < N :=
  List.mem_range.mp (h.1.mem_iff.mp hx)

theorem tour_of_nodup {N : Nat} {p : List Nat} (hlen : p.length = N) (hnd : p.Nodup)
    (hlt : ∀ x ∈ p, x < N) (hhead : p.head? = some 0) : Tour N p := by
  refine ⟨?_, hhead⟩
  apply (hnd.subperm (fun x hx => List.mem_range.mpr (hlt x hx))).perm_of_length_le
  rw [List.length_range, hlen]

theorem city_mem_take {route : List Nat} {len k : Nat} (hk : k < len) (hlen : len ≤ route.length) :
    city route k ∈ route.take len := by
  have hk' : k < route.length := by omega
  have h := city_eq_of_lt hk'
  rw [List.mem_iff_getElem?]
  exact ⟨k, by rw [List.getElem?_take, if_pos hk, h]⟩

theorem city_eq_of_take_eq {p route : List Nat} {len k : Nat} (h : p.take len = route.take len)
    (hk : k < len) : city p k = city route k := by
  have h1 : (p.take len)[k]? = (route.take len)[k]? := by rw [h]
  rw [List.getElem?_take, List.getElem?_take, if_pos hk, if_pos hk] at h1
  simp only [city, List.getD_eq_getElem?_getD, h1]

theorem routeOK_city_lt {N : Nat} {route : List Nat} {len : Nat} (h : RouteOK N route len)
    {k : Nat} (hk : k < len) : city route k < N :=
  h.2.2.2.2.1 _ (city_mem_take hk (by rw [h.1]; exact h.2.2.1))

theorem routeOK_estimate {N : Nat} (hN : N ≤ 15) {route : List Nat} {len : Nat}
    (h : RouteOK N route len) :
    estimate route len =
      some (prefix_cost route len + if route.length = len then closing_edge route len else 0) := by
  have hc := fun k (hk : k < len) => routeOK_city_lt h hk
  obtain ⟨hl, h1, h2, -, -, -⟩ := h
  refine estimate_eq (by omega) ?_ ?_ (by omega)
  · intro hnil
    rw [hnil] at hl
    simp at hl
    omega
  · intro k hk
    exact lt_of_lt_of_le (hc k hk) hN

theorem tour_estimate {N : Nat} (hN : N ≤ 15) (h0 : 0 < N) {p : List Nat} (h : Tour N p) :
    estimate p p.length = some (tour_cost p) := by
  have hl := tour_length h
  rw [estimate_eq le_rfl]
  · simp [tour_cost]
  · intro hnil
    rw [hnil] at hl
    simp at hl
    omega
  · intro k hk
    have := tour_lt h (city_mem_take hk le_rfl |> fun m => by simpa using m)
    omega
  · omega

/-- A complete valid route state is a tour. -/
theorem routeOK_tour {N : Nat} {route : List Nat} {len : Nat} (h : RouteOK N route len)
    (hfull : route.length = len) : Tour N route := by
  obtain ⟨hl, -, -, hnd, hlt, hh⟩ := h
  rw [← hfull, List.take_length] at hnd hlt
  exact tour_of_nodup hl hnd hlt hh

/-- The route state of a child call. -/
theorem routeOK_child {N : Nat} {route : List Nat} {len : Nat} (h : RouteOK N route len)
    (hlt : len < N) {c : Nat} (hc : c < N) (hnot : c ∉ route.take len) :
    RouteOK N (route.set len c) (len + 1) := by
  obtain ⟨hl, h1, -, hnd, hb, hh⟩ := h
  have hlt' : len < route.length := by omega
  refine ⟨by simpa using hl, by omega, by omega, ?_, ?_, ?_⟩
  · rw [take_set_succ hlt']
    exact List.Nodup.append hnd (List.nodup_singleton c) (by
      intro x hx hx'
      rw [List.mem_singleton] at hx'
      exact hnot (hx' ▸ hx))
  · rw [take_set_succ hlt']
    intro x hx
    rcases List.mem_append.mp hx with hx | hx
    · exact hb x hx
    · rw [List.mem_singleton] at hx
      omega
  · cases route with
    | nil => simp at hh
    | cons a t =>
      cases len with
      | zero => omega
      | succ n => simpa using hh

/-! ### The search: every call keeps the best solution a tour, never raises the best cost,
and leaves the best cost at most the cost of every tour below the call -/

theorem prefix_le_of_take_eq {N : Nat} {p route : List Nat} {len : Nat} (hp : Tour N p)
    (hr : RouteOK N route len) (htake : p.take len = route.take len) :
    prefix_cost route len + (if route.length = len then closing_edge route len else 0) ≤
      tour_cost p := by
  have hpl := tour_length hp
  obtain ⟨hl, h1, h2, -, -, -⟩ := hr
  by_cases hfull : route.length = len
  · have hpr : p = route := by
      have e1 : p.take len = p := List.take_of_length_le (by omega)
      have e2 : route.take len = route := List.take_of_length_le (by omega)
      rw [e1, e2] at htake
      exact htake
    rw [if_pos hfull, hpr, tour_cost, hfull]
  · rw [if_neg hfull, add_zero,
      ← prefix_cost_congr (fun k hk => city_eq_of_take_eq htake hk)]
    exact prefix_cost_le_tour_cost p (by omega)

theorem spec_pruned {N : Nat} (hN : N ≤ 15) {st : State} {route : List Nat} {len : Nat}
    {e : Int} (hr : RouteOK N route len) (hg : Good N st) (he : estimate route len = some e)
    (hp : e ≥ st.best_estimation) : Post N st route len (entered st route len) := by
  refine ⟨hg, le_rfl, ?_, [Event.enter route len], rfl, ?_⟩
  · intro p hpt htake
    have hle := prefix_le_of_take_eq hpt hr htake
    rw [routeOK_estimate hN hr, Option.some.injEq] at he
    show st.best_estimation ≤ tour_cost p
    omega
  · intro ev hev
    rw [List.mem_singleton] at hev
    subst hev
    exact hr

theorem spec_leaf {N : Nat} (hN : N ≤ 15) {st : State} {route : List Nat} {len : Nat}
    {e : Int} (hr : RouteOK N route len) (he : estimate route len = some e)
    (hp : e < st.best_estimation) (hfull : route.length = len) :
    Post N st route len (committed st route len e) := by
  have ht : Tour N route := routeOK_tour hr hfull
  have hcost : e = tour_cost route := by
    rw [routeOK_estimate hN hr, if_pos hfull, Option.some.injEq] at he
    rw [tour_cost, hfull]
    exact he.symm
  refine ⟨⟨ht, hcost⟩, le_of_lt hp, ?_,
    [Event.enter route len, Event.attempt e route, Event.commit e route],
    by simp [committed], ?_⟩
  · intro p hpt htake
    have hle := prefix_le_of_take_eq hpt hr htake
    rw [if_pos hfull, ← hfull, ← tour_cost] at hle
    show e ≤ tour_cost p
    omega
  · intro ev hev
    simp only [List.mem_cons, List.mem_singleton, List.not_mem_nil, or_false] at hev
    rcases hev with rfl | rfl | rfl
    · exact hr
    · exact ⟨ht, hcost⟩
    · exact ⟨ht, hcost⟩

theorem fold_children_spec {N fuel : Nat} {route : List Nat} {len : Nat}
    (hchild : ∀ (s : State) (c : Nat), c < N → c ∉ route.take len → Good N s →
      ∃ s', child fuel route len s c = some s' ∧ Post N s (route.set len c) (len + 1) s') :
    ∀ (cs : List Nat) (s : State), (∀ c ∈ cs, c < N ∧ c ∉ route.take len) → Good N s →
      ∃ s', cs.foldlM (child fuel route len) s = some s' ∧ Good N s' ∧
        s'.best_estimation ≤ s.best_estimation ∧
        (∀ c ∈ cs, ∀ p, Tour N p → p.take (len + 1) = (route.set len c).take (len + 1) →
          s'.best_estimation ≤ tour_cost p) ∧
        ∃ evs, s'.trace = s.trace ++ evs ∧ ∀ ev ∈ evs, EvOK N ev := by
  intro cs
  induction cs with
  | nil =>
    intro s _ hg
    exact ⟨s, rfl, hg, le_rfl, fun c hc => absurd hc (List.not_mem_nil c), [], by simp, by simp⟩
  | cons c cs ih =>
    intro s hcs hg
    obtain ⟨hcN, hcnot⟩ := hcs c (List.mem_cons_self c cs)
    obtain ⟨s1, hs1, hg1, hle1, hcov1, evs1, htr1, hev1⟩ := hchild s c hcN hcnot hg
    obtain ⟨s2, hs2, hg2, hle2, hcov2, evs2, htr2, hev2⟩ :=
      ih s1 (fun c' hc' => hcs c' (List.mem_cons_of_mem c hc')) hg1
    refine ⟨s2, ?_, hg2, le_trans hle2 hle1, ?_, evs1 ++ evs2, ?_, ?_⟩
    · rw [List.foldlM_cons, hs1]
      exact hs2
    · intro c' hc' p hpt htake
      rcases List.mem_cons.mp hc' with rfl | hmem
      · exact le_trans hle2 (hcov1 p hpt htake)
      · exact hcov2 c' hmem p hpt htake
    · rw [htr2, htr1, List.append_assoc]
    · intro ev hev
      rcases List.mem_append.mp hev with h | h
      · exact hev1 ev h
      · exact hev2 ev h

theorem walk_route_aux_spec {N : Nat} (hN : N ≤ 15) :
    ∀ (fuel : Nat) (st : State) (route : List Nat) (len : Nat),
      RouteOK N route len → N - len ≤ fuel → Good N st →
      ∃ st', walk_route_aux fuel st route len = some st' ∧ Post N st route len st' := by
  intro fuel
  induction fuel with
  | zero =>
    intro st route len hr hfuel hg
    have hfull : route.length = len := by
      have := hr.1
      have := hr.2.2.1
      omega
    have he := routeOK_estimate hN hr
    by_cases hp : prefix_cost route len +
        (if route.length = len then closing_edge route len else 0) ≥ st.best_estimation
    · exact ⟨_, walk_route_aux_pruned he hp, spec_pruned hN hr hg he hp⟩
    · exact ⟨_, walk_route_aux_leaf he (not_le.mp hp) hfull,
        spec_leaf hN hr he (not_le.mp hp) hfull⟩
  | succ fuel ih =>
    intro st route len hr hfuel hg
    have he := routeOK_estimate hN hr
    by_cases hp : prefix_cost route len +
        (if route.length = len then closing_edge route len else 0) ≥ st.best_estimation
    · exact ⟨_, walk_route_aux_pruned he hp, spec_pruned hN hr hg he hp⟩
    · by_cases hfull : route.length = len
      · exact ⟨_, walk_route_aux_leaf he (not_le.mp hp) hfull,
          spec_leaf hN hr he (not_le.mp hp) hfull⟩
      · have hl := hr.1
        have hlenN : len < N := by
          have := hr.2.2.1
          omega
        have hlt : len < route.length := by omega
        have hu := unvisited_cities_eq route len (le_of_lt hlt)
        rw [walk_route_aux_branch he (not_le.mp hp) hfull hu]
        have hg1 : Good N (entered st route len) := hg
        have hchild : ∀ (s : State) (c : Nat), c < N → c ∉ route.take len → Good N s →
            ∃ s', child fuel route len s c = some s' ∧
              Post N s (route.set len c) (len + 1) s' := by
          intro s c hc hnot hgs
          have := ih s (route.set len c) (len + 1) (routeOK_child hr hlenN hc hnot) (by omega) hgs
          simpa only [child, new_route_eq hlt] using this
        obtain ⟨s', hs', hg', hle', hcov', evs, htr, hevs⟩ :=
          fold_children_spec hchild
            ((List.range route.length).filter (fun c => decide (c ∉ route.take len)))
            (entered st route len)
            (fun c hc => by
              have := (@mem_unvisited route len c).mp hc
              rw [hl] at this
              exact this) hg1
        refine ⟨s', hs', hg', hle', ?_, Event.enter route len :: evs, ?_, ?_⟩
        · intro p hpt htake
          have hpl := tour_length hpt
          have hlp : len < p.length := by omega
          have hcN : city p len < N := tour_lt hpt (by
            have := city_mem_take (Nat.lt_succ_self len) (by omega : len + 1 ≤ p.length)
            exact List.mem_of_mem_take this)
          have hcnot : city p len ∉ route.take len := by
            rw [← htake]
            intro hmem
            have hnd : (p.take (len + 1)).Nodup := (tour_nodup hpt).sublist (List.take_sublist _ _)
            rw [take_succ_eq hlp, List.nodup_append] at hnd
            exact hnd.2.2 hmem (List.mem_singleton_self _)
          apply hcov' (city p len) (mem_unvisited.mpr ⟨by omega, hcnot⟩) p hpt
          rw [take_set_succ hlt, take_succ_eq hlp, htake]
        · rw [htr]
          simp [entered]
        · intro ev hev
          rcases List.mem_cons.mp hev with rfl | h
          · exact hr
          · exact hevs ev h

/-! ### `main` -/

theorem tour_range {N : Nat} (h0 : 0 < N) : Tour N (List.range N) := by
  refine ⟨List.Perm.refl _, ?_⟩
  obtain ⟨n, rfl⟩ : ∃ n, N = n + 1 := ⟨N - 1, by omega⟩
  rw [List.range_succ_eq_map]
  rfl

theorem main_init_eq {N : Nat} (h0 : 0 < N) (hN : N ≤ 15) :
    main_init N = some { best_estimation := tour_cost (List.range N),
                         best_solution_found := List.range N, trace := [] } := by
  unfold main_init
  simp only [tour_estimate hN h0 (tour_range h0)]

theorem main_route_ok {N : Nat} (h0 : 0 < N) : RouteOK N ((List.replicate N 0).set 0 0) 1 := by
  obtain ⟨n, rfl⟩ : ∃ n, N = n + 1 := ⟨N - 1, by omega⟩
  refine ⟨by simp, le_rfl, by omega, ?_, ?_, ?_⟩
  · simp [List.replicate_succ]
  · simp [List.replicate_succ]
  · simp [List.replicate_succ]

theorem tour_take_one {N : Nat} {p : List Nat} (h : Tour N p) : p.take 1 = [0] := by
  obtain ⟨-, hh⟩ := h
  cases p with
  | nil => simp at hh
  | cons a t =>
    simp only [List.head?_cons, Option.some.injEq] at hh
    simp [hh]

/-- The search of `main` returns, and its final state is the outcome of the entry call
`walk_route(route, 1)` started from the identity tour. -/
theorem main_search_spec {N : Nat} (h0 : 0 < N) (hN : N ≤ 15) :
    ∃ st, main_search N = some st ∧
      Post N { best_estimation := tour_cost (List.range N),
               best_solution_found := List.range N, trace := [] }
        ((List.replicate N 0).set 0 0) 1 st := by
  have hr := main_route_ok h0
  have hg : Good N { best_estimation := tour_cost (List.range N),
                     best_solution_found := List.range N, trace := [] } :=
    ⟨tour_range h0, rfl⟩
  obtain ⟨st, hst, hpost⟩ := walk_route_aux_spec hN (((List.replicate N 0).set 0 0).length - 1)
    _ _ 1 hr (by rw [hr.1]) hg
  refine ⟨st, ?_, hpost⟩
  unfold main_search
  rw [main_init_eq h0 hN]
  have hnr : new_route (List.replicate N 0) 0 0 = some ((List.replicate N 0).set 0 0) :=
    new_route_eq (by simpa using h0) 0
  simp only [hnr]
  exact hst

theorem main_search_optimum {N : Nat} (h0 : 0 < N) (hN : N ≤ 15) :
    ∃ st, main_search N = some st ∧ Good N st ∧ Optimum N st.best_estimation := by
  obtain ⟨st, hst, hg, -, hcov, -⟩ := main_search_spec h0 hN
  refine ⟨st, hst, hg, ⟨st.best_solution_found, hg.1, hg.2.symm⟩, ?_⟩
  intro p hp
  apply hcov p hp
  rw [tour_take_one hp]
  obtain ⟨n, rfl⟩ : ∃ n, N = n + 1 := ⟨N - 1, by omega⟩
  simp [List.replicate_succ]

/-! ### The brute-force optimum -/

theorem mem_tours {N : Nat} {p : List Nat} : p ∈ tours N ↔ Tour N p := by
  simp [tours, Tour, List.mem_filter, List.mem_permutations]

theorem brute_force_eq_some_iff {N : Nat} {c : Int} : brute_force N = some c ↔ Optimum N c := by
  haveI : Std.Antisymm (fun (x1 x2 : Int) => x1 ≤ x2) := ⟨fun h1 h2 => Int.le_antisymm h1 h2⟩
  unfold brute_force Optimum
  rw [List.min?_eq_some_iff (fun a => le_refl a)
    (fun a b => by rcases le_total a b with h | h <;> simp [h]) (fun a b c => le_min_iff)]
  simp only [List.mem_map, mem_tours, forall_exists_index, and_imp, forall_apply_eq_imp_iff₂]

/-! ### The recursion bound of `walk_route_aux` is never exhausted -/

theorem foldlM_congr_fun {f g : State → Nat → Option State} (h : ∀ s c, f s c = g s c) :
    ∀ (cs : List Nat) (s : State), cs.foldlM f s = cs.foldlM g s := by
  intro cs
  induction cs with
  | nil => intro s; rfl
  | cons c cs ih =>
    intro s
    rw [List.foldlM_cons, List.foldlM_cons, h s c]
    cases g s c with
    | none => rfl
    | some s1 => exact ih s1

/-- With at least `route.size() - len` units the bound plays no part in the result. -/
theorem walk_route_aux_fuel :
    ∀ (fuel : Nat) (st : State) (route : List Nat) (len : Nat),
      route.length - len ≤ fuel →
      walk_route_aux fuel st route len = walk_route st route len := by
  intro fuel
  induction fuel with
  | zero =>
    intro st route len h
    unfold walk_route
    rw [Nat.le_zero.mp h]
  | succ fuel ih =>
    intro st route len h
    unfold walk_route
    rcases Nat.eq_or_lt_of_le h with heq | hlt
    · rw [heq]
    · have hle : route.length - len ≤ fuel := by omega
      cases he : estimate route len with
      | none => rw [walk_route_aux_none he, walk_route_aux_none he]
      | some e =>
        by_cases hp : e ≥ st.best_estimation
        · rw [walk_route_aux_pruned he hp, walk_route_aux_pruned he hp]
        · by_cases hfull : route.length = len
          · rw [walk_route_aux_leaf he (not_le.mp hp) hfull,
              walk_route_aux_leaf he (not_le.mp hp) hfull]
          · cases hu : unvisited_cities route len with
            | none =>
              rw [walk_route_aux_branch_none he (not_le.mp hp) hfull hu,
                walk_route_aux_branch_none he (not_le.mp hp) hfull hu]
            | some cities =>
              have hlen : len < route.length := by
                by_contra hcon
                have hgt : route.length < len := by omega
                rw [unvisited_cities_none hgt] at hu
                exact Option.noConfusion hu
              obtain ⟨k, hk⟩ : ∃ k, route.length - len = k + 1 :=
                ⟨route.length - len - 1, by omega⟩
              rw [hk, walk_route_aux_branch he (not_le.mp hp) hfull hu,
                walk_route_aux_branch he (not_le.mp hp) hfull hu]
              apply foldlM_congr_fun
              intro s c
              unfold child
              rw [new_route_eq hlen]
              simp only
              have hk' : (route.set len c).length - (len + 1) = k := by
                rw [List.length_set]
                omega
              rw [ih s _ _ (by rw [hk']; omega), walk_route, hk']

/-! ### What any call may do to the state -/

theorem commits_append (l1 l2 : List Event) : commits (l1 ++ l2) = commits l1 ++ commits l2 := by
  induction l1 with
  | nil => rfl
  | cons ev l1 ih =>
    cases ev with
    | enter r l => simpa [commits] using ih
    | attempt e r => simpa [commits] using ih
    | commit e r => simpa [commits] using ih

theorem getLastD_append_eq (l1 l2 : List Int) (a : Int) :
    (l1 ++ l2).getLastD a = l2.getLastD (l1.getLastD a) := by
  induction l1 generalizing a with
  | nil => rfl
  | cons x l1 ih =>
    rw [List.cons_append, List.getLastD_cons, List.getLastD_cons]
    exact ih x

theorem step_refl (s : State) : Step s s :=
  ⟨le_rfl, id, Or.inl ⟨rfl, rfl⟩, [], by simp, by simp [commits], by simp [commits],
    by simp [commits]⟩

theorem step_trans {a b c : State} (h1 : Step a b) (h2 : Step b c) : Step a c := by
  obtain ⟨hle1, hm1, hd1, evs1, ht1, hb1, hp1, hl1⟩ := h1
  obtain ⟨hle2, hm2, hd2, evs2, ht2, hb2, hp2, hl2⟩ := h2
  refine ⟨le_trans hle2 hle1, fun h => hm2 (hm1 h), ?_, evs1 ++ evs2, ?_, ?_, ?_, ?_⟩
  · rcases hd2 with ⟨e2, r2⟩ | ⟨l2, m2⟩
    · rcases hd1 with ⟨e1, r1⟩ | ⟨l1, m1⟩
      · exact Or.inl ⟨e2.trans e1, r2.trans r1⟩
      · exact Or.inr ⟨by omega, hm2 m1⟩
    · exact Or.inr ⟨by omega, m2⟩
  · rw [ht2, ht1, List.append_assoc]
  · intro e he
    rw [commits_append, List.mem_append] at he
    rcases he with he | he
    · have := hb1 e he
      omega
    · have := hb2 e he
      omega
  · rw [commits_append, List.pairwise_append]
    refine ⟨hp1, hp2, ?_⟩
    intro x hx y hy
    have := hb1 x hx
    have := hb2 y hy
    omega
  · rw [commits_append, getLastD_append_eq, hl1, hl2]

theorem step_entered (s : State) (route : List Nat) (len : Nat) :
    Step s (entered s route len) :=
  ⟨le_rfl, id, Or.inl ⟨rfl, rfl⟩, [Event.enter route len], rfl, by simp [commits],
    by simp [commits], by simp [commits, entered]⟩

theorem step_leaf (s : State) {route : List Nat} {len : Nat} {e : Int}
    (he : estimate route len = some e) (hp : e < s.best_estimation)
    (hfull : route.length = len) :
    Step s (committed s route len e) := by
  have hm : Matched (committed s route len e) := by
    show estimate route route.length = some e
    rw [hfull]
    exact he
  refine ⟨le_of_lt hp, fun _ => hm, Or.inr ⟨hp, hm⟩,
    [Event.enter route len, Event.attempt e route, Event.commit e route],
    by simp [committed], ?_, by simp [commits], by simp [commits, committed]⟩
  intro x hx
  simp only [commits, List.mem_singleton] at hx
  subst hx
  exact ⟨le_refl _, hp⟩

theorem foldlM_step {f : State → Nat → Option State}
    (h : ∀ s c s', f s c = some s' → Step s s') :
    ∀ (cs : List Nat) (s s' : State), cs.foldlM f s = some s' → Step s s' := by
  intro cs
  induction cs with
  | nil =>
    intro s s' hs
    have : s = s' := by simpa using hs
    rw [this]
    exact step_refl s'
  | cons c cs ih =>
    intro s s' hs
    rw [List.foldlM_cons] at hs
    cases hf : f s c with
    | none => rw [hf] at hs; exact Option.noConfusion hs
    | some s1 =>
      rw [hf] at hs
      exact step_trans (h s c s1 hf) (ih s1 s' hs)

/-- Whatever a call returns is related to the state it started from by `Step`. -/
theorem walk_route_aux_step :
    ∀ (fuel : Nat) (st : State) (route : List Nat) (len : Nat) (st' : State),
      walk_route_aux fuel st route len = some st' → Step st st' := by
  intro fuel
  induction fuel with
  | zero =>
    intro st route len st' h
    cases he : estimate route len with
    | none => rw [walk_route_aux_none he] at h; exact Option.noConfusion h
    | some e =>
      by_cases hp : e ≥ st.best_estimation
      · rw [walk_route_aux_pruned he hp, Option.some.injEq] at h
        rw [← h]
        exact step_entered st route len
      · by_cases hfull : route.length = len
        · rw [walk_route_aux_leaf he (not_le.mp hp) hfull, Option.some.injEq] at h
          rw [← h]
          exact step_leaf st he (not_le.mp hp) hfull
        · exfalso
          unfold walk_route_aux at h
          simp only [he, hp, hfull, if_false] at h
          cases hu : unvisited_cities route len with
          | none => rw [hu] at h; exact Option.noConfusion h
          | some cities => rw [hu] at h; exact Option.noConfusion h
  | succ fuel ih =>
    intro st route len st' h
    cases he : estimate route len with
    | none => rw [walk_route_aux_none he] at h; exact Option.noConfusion h
    | some e =>
      by_cases hp : e ≥ st.best_estimation
      · rw [walk_route_aux_pruned he hp, Option.some.injEq] at h
        rw [← h]
        exact step_entered st route len
      · by_cases hfull : route.length = len
        · rw [walk_route_aux_leaf he (not_le.mp hp) hfull, Option.some.injEq] at h
          rw [← h]
          exact step_leaf st he (not_le.mp hp) hfull
        · cases hu : unvisited_cities route len with
          | none =>
            rw [walk_route_aux_branch_none he (not_le.mp hp) hfull hu] at h
            exact Option.noConfusion h
          | some cities =>
            rw [walk_route_aux_branch he (not_le.mp hp) hfull hu] at h
            refine step_trans (step_entered st route len) (foldlM_step ?_ cities _ st' h)
            intro s c s' hc
            unfold child at hc
            cases hn : new_route route len c with
            | none => rw [hn] at hc; exact Option.noConfusion hc
            | some r =>
              rw [hn] at hc
              exact ih s r (len + 1) s' hc

theorem walk_route_step {st : State} {route : List Nat} {len : Nat} {st' : State}
    (h : walk_route st route len = some st') : Step st st' :=
  walk_route_aux_step _ st route len st' h

/-! ### A call on a well-formed route returns -/

theorem foldlM_returns {f : State → Nat → Option State} :
    ∀ (cs : List Nat), (∀ c ∈ cs, ∀ s, ∃ s', f s c = some s') →
      ∀ s, ∃ s', cs.foldlM f s = some s' := by
  intro cs
  induction cs with
  | nil => intro _ s; exact ⟨s, rfl⟩
  | cons c cs ih =>
    intro h s
    obtain ⟨s1, hs1⟩ := h c (List.mem_cons_self c cs) s
    obtain ⟨s2, hs2⟩ := ih (fun c' hc' => h c' (List.mem_cons_of_mem c hc')) s1
    exact ⟨s2, by rw [List.foldlM_cons, hs1]; exact hs2⟩

theorem callOK_estimate {route : List Nat} {len : Nat} (h : CallOK route len) :
    estimate route len =
      some (prefix_cost route len + if route.length = len then closing_edge route len else 0) :=
  estimate_eq h.1 h.2.1 h.2.2.2 (le_trans h.1 (le_trans h.2.2.1 (by decide)))

theorem callOK_child {route : List Nat} {len : Nat} (h : CallOK route len)
    (hlt : len < route.length) {c : Nat} (hc : c < route.length) :
    CallOK (route.set len c) (len + 1) := by
  obtain ⟨-, hne, h15, hv⟩ := h
  refine ⟨by rw [List.length_set]; omega,
    List.ne_nil_of_length_pos (by rw [List.length_set]; omega),
    by rw [List.length_set]; exact h15, ?_⟩
  · intro k hk
    unfold city at hv ⊢
    rw [List.getD_eq_getElem?_getD, List.getElem?_set]
    by_cases hkl : len = k
    · subst hkl
      simp only [if_true, if_pos hlt, Option.getD_some]
      omega
    · rw [if_neg hkl, ← List.getD_eq_getElem?_getD]
      exact hv k (by omega)

theorem walk_route_aux_returns :
    ∀ (fuel : Nat) (st : State) (route : List Nat) (len : Nat),
      CallOK route len → route.length - len ≤ fuel →
      ∃ st', walk_route_aux fuel st route len = some st' := by
  intro fuel
  induction fuel with
  | zero =>
    intro st route len hc hfuel
    have hfull : route.length = len := by
      have := hc.1
      omega
    have he := callOK_estimate hc
    by_cases hp : prefix_cost route len +
        (if route.length = len then closing_edge route len else 0) ≥ st.best_estimation
    · exact ⟨_, walk_route_aux_pruned he hp⟩
    · exact ⟨_, walk_route_aux_leaf he (not_le.mp hp) hfull⟩
  | succ fuel ih =>
    intro st route len hc hfuel
    have he := callOK_estimate hc
    by_cases hp : prefix_cost route len +
        (if route.length = len then closing_edge route len else 0) ≥ st.best_estimation
    · exact ⟨_, walk_route_aux_pruned he hp⟩
    · by_cases hfull : route.length = len
      · exact ⟨_, walk_route_aux_leaf he (not_le.mp hp) hfull⟩
      · have hlt : len < route.length := by
          have := hc.1
          omega
        rw [walk_route_aux_branch he (not_le.mp hp) hfull
          (unvisited_cities_eq route len (le_of_lt hlt))]
        apply foldlM_returns
        intro c hcm s
        have hcl := (mem_unvisited.mp hcm).1
        unfold child
        rw [new_route_eq hlt]
        exact ih s _ _ (callOK_child hc hlt hcl) (by rw [List.length_set]; omega)

theorem walk_route_returns {route : List Nat} {len : Nat} (h : CallOK route len) (st : State) :
    ∃ st', walk_route st route len = some st' :=
  walk_route_aux_returns _ st route len h le_rfl

/-! ### The leaf update under every schedule -/

theorem goto_same (s : Shared) (i : Nat) (next : PC) : goto s i next i = next := by
  simp [goto]

theorem goto_other (s : Shared) {i j : Nat} (next : PC) (h : j ≠ i) :
    goto s i next j = s.pc j := by
  simp [goto, h]

theorem leaf_init_inv (cands : List (Int × List Nat)) (best : Int) (route : List Nat) :
    LeafInv cands best route (leaf_init best route) where
  owner := by intro i; simp [leaf_init, in_critical]
  le_init := le_refl _
  passed := by intro i e r _ h; simp [leaf_init] at h
  below := by intro i e r _ h; simp [leaf_init] at h
  half := by intro i e r _ h; simp [leaf_init] at h
  pair := fun _ => Or.inl ⟨rfl, rfl⟩
  idle := fun _ _ => rfl

theorem idle_goto {cands : List (Int × List Nat)} {s : Shared} {i : Nat} (next : PC)
    (h : ∀ j, cands[j]? = none → s.pc j = PC.at_check) (hex : cands[i]? ≠ none) :
    ∀ j, cands[j]? = none → goto s i next j = PC.at_check := by
  intro j hj
  have hji : j ≠ i := fun heq => hex (heq ▸ hj)
  rw [goto_other s next hji]
  exact h j hj

/-- A step that only moves task `i` to a statement outside the critical section, or
within it, and leaves the globals alone keeps the invariant. -/
theorem leaf_inv_move {cands : List (Int × List Nat)} {best : Int} {route : List Nat}
    {s : Shared} (h : LeafInv cands best route s) (i : Nat) (next : PC)
    (hex : cands[i]? ≠ none)
    (hcs : in_critical next = in_critical (s.pc i))
    (hne : s.pc i ≠ PC.at_write_route)
    (hpassed : next = PC.finished ∨ next = PC.at_unlock →
      ∀ e r, cands[i]? = some (e, r) → s.best_estimation ≤ e)
    (hbelow : next = PC.at_write_cost →
      ∀ e r, cands[i]? = some (e, r) → e < s.best_estimation)
    (hhalf : next ≠ PC.at_write_route) :
    LeafInv cands best route { s with pc := goto s i next } where
  owner := by
    intro j
    by_cases hj : j = i
    · subst hj
      simp only [goto_same, hcs]
      exact h.owner j
    · simp only [goto_other s next hj]
      exact h.owner j
  le_init := h.le_init
  passed := by
    intro j e r hc hp
    by_cases hj : j = i
    · subst hj
      simp only [goto_same] at hp
      exact hpassed hp e r hc
    · simp only [goto_other s next hj] at hp
      exact h.passed j e r hc hp
  below := by
    intro j e r hc hp
    by_cases hj : j = i
    · subst hj
      simp only [goto_same] at hp
      exact hbelow hp e r hc
    · simp only [goto_other s next hj] at hp
      exact h.below j e r hc hp
  half := by
    intro j e r hc hp
    by_cases hj : j = i
    · subst hj
      simp only [goto_same] at hp
      exact absurd hp hhalf
    · simp only [goto_other s next hj] at hp
      exact h.half j e r hc hp
  pair := by
    intro hall
    apply h.pair
    intro j hjl
    by_cases hj : j = i
    · subst hj
      exact hne
    · have := hall j hjl
      simp only [goto_other s next hj] at this
      exact this
  idle := idle_goto next h.idle hex

theorem leaf_inv_not_critical {cands : List (Int × List Nat)} {best : Int} {route : List Nat}
    {s : Shared} (h : LeafInv cands best route s) {i j : Nat}
    (hi : in_critical (s.pc i) = true) (hj : j ≠ i) : in_critical (s.pc j) = false := by
  cases hc : in_critical (s.pc j) with
  | false => rfl
  | true =>
    have h1 := (h.owner i).mp hi
    have h2 := (h.owner j).mp hc
    rw [h1, Option.some.injEq] at h2
    exact absurd h2.symm hj

/-- Every step keeps the invariant. -/
theorem leaf_step_inv {cands : List (Int × List Nat)} {best : Int} {route : List Nat}
    {s s' : Shared} {i : Nat} (h : LeafInv cands best route s)
    (hs : leaf_step cands s i = some s') : LeafInv cands best route s' := by
  unfold leaf_step at hs
  cases hc : cands[i]? with
  | none => rw [hc] at hs; exact Option.noConfusion hs
  | some c =>
    obtain ⟨estimation, partial_route⟩ := c
    rw [hc] at hs
    simp only at hs
    have hex : cands[i]? ≠ none := by rw [hc]; simp
    have hinj : ∀ e r, cands[i]? = some (e, r) → e = estimation ∧ r = partial_route := by
      intro e r he
      rw [hc, Option.some.injEq, Prod.mk.injEq] at he
      exact ⟨he.1.symm, he.2.symm⟩
    cases hpc : s.pc i with
    | at_check =>
      rw [hpc] at hs
      simp only at hs
      by_cases hlt : estimation < s.best_estimation
      · rw [if_pos hlt, Option.some.injEq] at hs
        rw [← hs]
        exact leaf_inv_move h i PC.at_lock hex (by rw [hpc]; rfl) (by rw [hpc]; simp)
          (by simp) (by simp) (by simp)
      · rw [if_neg hlt, Option.some.injEq] at hs
        rw [← hs]
        exact leaf_inv_move h i PC.finished hex (by rw [hpc]; rfl) (by rw [hpc]; simp)
          (fun _ e r he => by rw [(hinj e r he).1]; omega) (by simp) (by simp)
    | at_lock =>
      rw [hpc] at hs
      simp only at hs
      by_cases hm : s.mutex = none
      · rw [if_pos hm, Option.some.injEq] at hs
        rw [← hs]
        refine ⟨?_, h.le_init, ?_, ?_, ?_, ?_, idle_goto _ h.idle hex⟩
        · intro j
          by_cases hj : j = i
          · subst hj
            simp [goto_same, in_critical]
          · simp only [goto_other s _ hj]
            have := h.owner j
            rw [hm] at this
            constructor
            · intro hcj
              exact absurd (this.mp hcj) (by simp)
            · intro heq
              rw [Option.some.injEq] at heq
              exact absurd heq.symm hj
        · intro j e r hcj hp
          by_cases hj : j = i
          · subst hj
            simp [goto_same] at hp
          · simp only [goto_other s _ hj] at hp
            exact h.passed j e r hcj hp
        · intro j e r hcj hp
          by_cases hj : j = i
          · subst hj
            simp [goto_same] at hp
          · simp only [goto_other s _ hj] at hp
            exact h.below j e r hcj hp
        · intro j e r hcj hp
          by_cases hj : j = i
          · subst hj
            simp [goto_same] at hp
          · simp only [goto_other s _ hj] at hp
            exact h.half j e r hcj hp
        · intro hall
          apply h.pair
          intro j hjl
          by_cases hj : j = i
          · subst hj
            rw [hpc]
            simp
          · have := hall j hjl
            simp only [goto_other s _ hj] at this
            exact this
      · rw [if_neg hm] at hs
        exact Option.noConfusion hs
    | at_recheck =>
      rw [hpc] at hs
      simp only at hs
      by_cases hlt : estimation < s.best_estimation
      · rw [if_pos hlt, Option.some.injEq] at hs
        rw [← hs]
        exact leaf_inv_move h i PC.at_write_cost hex (by rw [hpc]; rfl) (by rw [hpc]; simp)
          (by simp) (fun _ e r he => by rw [(hinj e r he).1]; exact hlt) (by simp)
      · rw [if_neg hlt, Option.some.injEq] at hs
        rw [← hs]
        exact leaf_inv_move h i PC.at_unlock hex (by rw [hpc]; rfl) (by rw [hpc]; simp)
          (fun _ e r he => by rw [(hinj e r he).1]; omega) (by simp) (by simp)
    | at_write_cost =>
      rw [hpc] at hs
      simp only [Option.some.injEq] at hs
      rw [← hs]
      have hcrit : in_critical (s.pc i) = true := by rw [hpc]; rfl
      have hbel := h.below i estimation partial_route hc hpc
      refine ⟨?_, ?_, ?_, ?_, ?_, ?_, idle_goto _ h.idle hex⟩
      · intro j
        by_cases hj : j = i
        · subst hj
          simp only [goto_same]
          rw [← h.owner j, hcrit]
          rfl
        · simp only [goto_other s _ hj]
          exact h.owner j
      · have := h.le_init
        show estimation ≤ best
        omega
      · intro j e r hcj hp
        by_cases hj : j = i
        · subst hj
          simp [goto_same] at hp
        · simp only [goto_other s _ hj] at hp
          have := h.passed j e r hcj hp
          show estimation ≤ e
          omega
      · intro j e r hcj hp
        by_cases hj : j = i
        · subst hj
          simp [goto_same] at hp
        · simp only [goto_other s _ hj] at hp
          have := leaf_inv_not_critical h hcrit hj
          rw [hp] at this
          exact absurd this (by simp [in_critical])
      · intro j e r hcj hp
        by_cases hj : j = i
        · subst hj
          exact ((hinj e r hcj).1).symm
        · simp only [goto_other s _ hj] at hp
          have := leaf_inv_not_critical h hcrit hj
          rw [hp] at this
          exact absurd this (by simp [in_critical])
      · intro hall
        have hil : i < cands.length := by
          by_contra hcon
          rw [List.getElem?_eq_none (by omega)] at hc
          exact Option.noConfusion hc
        exact absurd (goto_same s i PC.at_write_route) (hall i hil)
    | at_write_route =>
      rw [hpc] at hs
      simp only [Option.some.injEq] at hs
      rw [← hs]
      have hcrit : in_critical (s.pc i) = true := by rw [hpc]; rfl
      have hhalf := h.half i estimation partial_route hc hpc
      refine ⟨?_, h.le_init, ?_, ?_, ?_, ?_, idle_goto _ h.idle hex⟩
      · intro j
        by_cases hj : j = i
        · subst hj
          simp only [goto_same]
          rw [← h.owner j, hcrit]
          rfl
        · simp only [goto_other s _ hj]
          exact h.owner j
      · intro j e r hcj hp
        by_cases hj : j = i
        · subst hj
          rw [(hinj e r hcj).1]
          exact le_of_eq hhalf
        · simp only [goto_other s _ hj] at hp
          exact h.passed j e r hcj hp
      · intro j e r hcj hp
        by_cases hj : j = i
        · subst hj
          simp [goto_same] at hp
        · simp only [goto_other s _ hj] at hp
          exact h.below j e r hcj hp
      · intro j e r hcj hp
        by_cases hj : j = i
        · subst hj
          simp [goto_same] at hp
        · simp only [goto_other s _ hj] at hp
          exact h.half j e r hcj hp
      · intro _
        exact Or.inr ⟨(estimation, partial_route), List.getElem?_mem hc, hhalf, rfl⟩
    | at_unlock =>
      rw [hpc] at hs
      simp only [Option.some.injEq] at hs
      rw [← hs]
      have hcrit : in_critical (s.pc i) = true := by rw [hpc]; rfl
      refine ⟨?_, h.le_init, ?_, ?_, ?_, ?_, idle_goto _ h.idle hex⟩
      · intro j
        by_cases hj : j = i
        · subst hj
          simp [goto_same, in_critical]
        · simp only [goto_other s _ hj]
          rw [leaf_inv_not_critical h hcrit hj]
          simp
      · intro j e r hcj hp
        by_cases hj : j = i
        · subst hj
          exact h.passed j e r hcj (Or.inr hpc)
        · simp only [goto_other s _ hj] at hp
          exact h.passed j e r hcj hp
      · intro j e r hcj hp
        by_cases hj : j = i
        · subst hj
          simp [goto_same] at hp
        · simp only [goto_other s _ hj] at hp
          exact h.below j e r hcj hp
      · intro j e r hcj hp
        by_cases hj : j = i
        · subst hj
          simp [goto_same] at hp
        · simp only [goto_other s _ hj] at hp
          exact h.half j e r hcj hp
      · intro hall
        apply h.pair
        intro j hjl
        by_cases hj : j = i
        · subst hj
          rw [hpc]
          simp
        · have := hall j hjl
          simp only [goto_other s _ hj] at this
          exact this
    | finished =>
      rw [hpc] at hs
      exact Option.noConfusion hs

theorem leaf_run_inv {cands : List (Int × List Nat)} {best : Int} {route : List Nat} :
    ∀ (sched : List Nat) (s s' : Shared), LeafInv cands best route s →
      leaf_run cands s sched = some s' → LeafInv cands best route s' := by
  intro sched
  induction sched with
  | nil =>
    intro s s' h hr
    simp only [leaf_run, Option.some.injEq] at hr
    rw [← hr]
    exact h
  | cons i sched ih =>
    intro s s' h hr
    simp only [leaf_run] at hr
    cases hst : leaf_step cands s i with
    | none => rw [hst] at hr; exact Option.noConfusion hr
    | some s1 =>
      rw [hst] at hr
      exact ih s1 s' (leaf_step_inv h hst) hr

theorem foldl_min_eq {l : List Int} : ∀ {b m : Int}, m ≤ b → (∀ x ∈ l, m ≤ x) →
    (m = b ∨ m ∈ l) → l.foldl min b = m := by
  induction l with
  | nil =>
    intro b m _ _ hmem
    rcases hmem with h | h
    · exact h.symm
    · exact absurd h (List.not_mem_nil m)
  | cons x l ih =>
    intro b m hle hall hmem
    rw [List.foldl_cons]
    have hx : m ≤ x := hall x (List.mem_cons_self x l)
    apply ih (le_min hle hx) (fun y hy => hall y (List.mem_cons_of_mem x hy))
    rcases hmem with h | h
    · left
      rw [h, min_eq_left (by omega)]
    · rcases List.mem_cons.mp h with h | h
      · left
        rw [h, min_eq_right (by omega)]
      · exact Or.inr h

/-! ### Every schedule of the leaf update can be run to the end -/

theorem pc_rank_le (p : PC) : pc_rank p ≤ 6 := by
  cases p <;> simp [pc_rank]

theorem pc_rank_eq_six {p : PC} (h : pc_rank p = 6) : p = PC.finished := by
  cases p <;> simp [pc_rank] at h ⊢

/-- A step moves the task that takes it forward and leaves the other tasks where they
are. -/
theorem leaf_step_pc {cands : List (Int × List Nat)} {s s' : Shared} {i : Nat}
    (hs : leaf_step cands s i = some s') :
    i < cands.length ∧ pc_rank (s.pc i) < pc_rank (s'.pc i) ∧ ∀ j, j ≠ i → s'.pc j = s.pc j := by
  unfold leaf_step at hs
  cases hc : cands[i]? with
  | none => rw [hc] at hs; exact Option.noConfusion hs
  | some c =>
    have hil : i < cands.length := by
      by_contra hcon
      rw [List.getElem?_eq_none (by omega)] at hc
      exact Option.noConfusion hc
    obtain ⟨estimation, partial_route⟩ := c
    rw [hc] at hs
    simp only at hs
    refine ⟨hil, ?_⟩
    cases hpc : s.pc i with
    | at_check =>
      rw [hpc] at hs
      simp only at hs
      by_cases hlt : estimation < s.best_estimation
      · rw [if_pos hlt, Option.some.injEq] at hs
        rw [← hs]
        exact ⟨by simp [goto_same, pc_rank], fun j hj => goto_other s _ hj⟩
      · rw [if_neg hlt, Option.some.injEq] at hs
        rw [← hs]
        exact ⟨by simp [goto_same, pc_rank], fun j hj => goto_other s _ hj⟩
    | at_lock =>
      rw [hpc] at hs
      simp only at hs
      by_cases hm : s.mutex = none
      · rw [if_pos hm, Option.some.injEq] at hs
        rw [← hs]
        exact ⟨by simp [goto_same, pc_rank], fun j hj => goto_other s _ hj⟩
      · rw [if_neg hm] at hs
        exact Option.noConfusion hs
    | at_recheck =>
      rw [hpc] at hs
      simp only at hs
      by_cases hlt : estimation < s.best_estimation
      · rw [if_pos hlt, Option.some.injEq] at hs
        rw [← hs]
        exact ⟨by simp [goto_same, pc_rank], fun j hj => goto_other s _ hj⟩
      · rw [if_neg hlt, Option.some.injEq] at hs
        rw [← hs]
        exact ⟨by simp [goto_same, pc_rank], fun j hj => goto_other s _ hj⟩
    | at_write_cost =>
      rw [hpc] at hs
      simp only [Option.some.injEq] at hs
      rw [← hs]
      exact ⟨by simp [goto_same, pc_rank], fun j hj => goto_other s _ hj⟩
    | at_write_route =>
      rw [hpc] at hs
      simp only [Option.some.injEq] at hs
      rw [← hs]
      exact ⟨by simp [goto_same, pc_rank], fun j hj => goto_other s _ hj⟩
    | at_unlock =>
      rw [hpc] at hs
      simp only [Option.some.injEq] at hs
      rw [← hs]
      exact ⟨by simp [goto_same, pc_rank], fun j hj => goto_other s _ hj⟩
    | finished =>
      rw [hpc] at hs
      exact Option.noConfusion hs

theorem sum_range_lt {f g : Nat → Nat} {i : Nat} (hi : g i < f i)
    (hrest : ∀ j, j ≠ i → g j = f j) :
    ∀ n, i < n → ((List.range n).map g).sum < ((List.range n).map f).sum := by
  intro n
  induction n with
  | zero => intro h; omega
  | succ n ih =>
    intro h
    rw [List.range_succ, List.map_append, List.map_append, List.sum_append, List.sum_append]
    simp only [List.map_cons, List.map_nil, List.sum_cons, List.sum_nil, add_zero]
    by_cases hin : i = n
    · subst hin
      have heq : (List.range i).map g = (List.range i).map f := by
        apply List.map_congr_left
        intro j hj
        rw [List.mem_range] at hj
        exact hrest j (by omega)
      rw [heq]
      omega
    · have := ih (by omega)
      rw [hrest n (fun h' => hin h'.symm)]
      omega

theorem leaf_measure_lt {cands : List (Int × List Nat)} {s s' : Shared} {i : Nat}
    (hs : leaf_step cands s i = some s') : leaf_measure cands s' < leaf_measure cands s := by
  obtain ⟨hil, hlt, hrest⟩ := leaf_step_pc hs
  unfold leaf_measure
  apply sum_range_lt (i := i) _ _ _ hil
  · have := pc_rank_le (s'.pc i)
    omega
  · intro j hj
    rw [hrest j hj]

/-- In a reachable state in which some task has not returned, some task can step. -/
theorem leaf_progress {cands : List (Int × List Nat)} {best : Int} {route : List Nat}
    {s : Shared} (h : LeafInv cands best route s) (hnot : ¬ all_finished cands s) :
    ∃ i s', leaf_step cands s i = some s' := by
  have enabled : ∀ i, cands[i]? ≠ none → s.pc i ≠ PC.finished →
      (s.pc i = PC.at_lock → s.mutex = none) → ∃ s', leaf_step cands s i = some s' := by
    intro i hex hnf hlock
    unfold leaf_step
    cases hc : cands[i]? with
    | none => exact absurd hc hex
    | some c =>
      obtain ⟨estimation, partial_route⟩ := c
      simp only
      cases hpc : s.pc i with
      | at_check =>
        simp only
        by_cases hlt : estimation < s.best_estimation
        · exact ⟨_, if_pos hlt⟩
        · exact ⟨_, if_neg hlt⟩
      | at_lock => exact ⟨_, if_pos (hlock hpc)⟩
      | at_recheck =>
        simp only
        by_cases hlt : estimation < s.best_estimation
        · exact ⟨_, if_pos hlt⟩
        · exact ⟨_, if_neg hlt⟩
      | at_write_cost => exact ⟨_, rfl⟩
      | at_write_route => exact ⟨_, rfl⟩
      | at_unlock => exact ⟨_, rfl⟩
      | finished => exact absurd hpc hnf
  cases hm : s.mutex with
  | some i =>
    have hcrit := (h.owner i).mpr hm
    refine ⟨i, enabled i ?_ ?_ ?_⟩
    · intro hnone
      rw [h.idle i hnone] at hcrit
      simp [in_critical] at hcrit
    · intro hf
      rw [hf] at hcrit
      simp [in_critical] at hcrit
    · intro hl
      rw [hl] at hcrit
      simp [in_critical] at hcrit
  | none =>
    unfold all_finished at hnot
    push_neg at hnot
    obtain ⟨i, hil, hnf⟩ := hnot
    refine ⟨i, enabled i ?_ hnf (fun _ => hm)⟩
    rw [List.getElem?_eq_getElem hil]
    simp

/-- From every reachable state some schedule runs every task to its return. -/
theorem leaf_run_completes {cands : List (Int × List Nat)} {best : Int} {route : List Nat} :
    ∀ (m : Nat) (s : Shared), leaf_measure cands s ≤ m → LeafInv cands best route s →
      ∃ sched s', leaf_run cands s sched = some s' ∧ all_finished cands s' := by
  intro m
  induction m with
  | zero =>
    intro s hm h
    refine ⟨[], s, rfl, ?_⟩
    by_contra hnot
    obtain ⟨i, s', hs⟩ := leaf_progress h hnot
    have := leaf_measure_lt hs
    omega
  | succ m ih =>
    intro s hm h
    by_cases hfin : all_finished cands s
    · exact ⟨[], s, rfl, hfin⟩
    · obtain ⟨i, s1, hs⟩ := leaf_progress h hfin
      have hlt := leaf_measure_lt hs
      obtain ⟨sched, s', hr, hf⟩ := ih s1 (by omega) (leaf_step_inv h hs)
      exact ⟨i :: sched, s', by simp only [leaf_run, hs]; exact hr, hf⟩

theorem leaf_run_append (cands : List (Int × List Nat)) :
    ∀ (sched sched' : List Nat) (s s1 : Shared), leaf_run cands s sched = some s1 →
      leaf_run cands s (sched ++ sched') = leaf_run cands s1 sched' := by
  intro sched
  induction sched with
  | nil =>
    intro sched' s s1 h
    simp only [leaf_run, Option.some.injEq] at h
    rw [h]
    rfl
  | cons i sched ih =>
    intro sched' s s1 h
    simp only [leaf_run, List.cons_append] at h ⊢
    cases hst : leaf_step cands s i with
    | none => rw [hst] at h; exact Option.noConfusion h
    | some s2 =>
      rw [hst] at h
      simp only [hst]
      exact ih sched' s2 s1 h

/-- Every interleaving of the leaf update can be continued until all tasks have
returned. -/
theorem leaf_schedule_extends (cands : List (Int × List Nat)) (best : Int) (route : List Nat)
    (sched : List Nat) (s : Shared)
    (hrun : leaf_run cands (leaf_init best route) sched = some s) :
    ∃ sched' s', leaf_run cands (leaf_init best route) (sched ++ sched') = some s' ∧
      all_finished cands s' := by
  have h := leaf_run_inv sched _ s (leaf_init_inv cands best route) hrun
  obtain ⟨sched', s', hr, hf⟩ := leaf_run_completes (leaf_measure cands s) s le_rfl h
  exact ⟨sched', s', by rw [leaf_run_append cands sched sched' _ s hrun]; exact hr, hf⟩

/-- A step of the leaf update never raises `best_estimation`. -/
theorem leaf_step_le {cands : List (Int × List Nat)} {best : Int} {route : List Nat}
    {s s' : Shared} {i : Nat} (h : LeafInv cands best route s)
    (hs : leaf_step cands s i = some s') : s'.best_estimation ≤ s.best_estimation := by
  unfold leaf_step at hs
  cases hc : cands[i]? with
  | none => rw [hc] at hs; exact Option.noConfusion hs
  | some c =>
    obtain ⟨estimation, partial_route⟩ := c
    rw [hc] at hs
    simp only at hs
    cases hpc : s.pc i with
    | at_write_cost =>
      rw [hpc] at hs
      simp only [Option.some.injEq] at hs
      rw [← hs]
      exact le_of_lt (h.below i estimation partial_route hc hpc)
    | at_check =>
      rw [hpc] at hs
      simp only at hs
      split_ifs at hs <;> simp only [Option.some.injEq] at hs <;> rw [← hs]
    | at_lock =>
      rw [hpc] at hs
      simp only at hs
      split_ifs at hs
      simp only [Option.some.injEq] at hs
      rw [← hs]
    | at_recheck =>
      rw [hpc] at hs
      simp only at hs
      split_ifs at hs <;> simp only [Option.some.injEq] at hs <;> rw [← hs]
    | at_write_route =>
      rw [hpc] at hs
      simp only [Option.some.injEq] at hs
      rw [← hs]
    | at_unlock =>
      rw [hpc] at hs
      simp only [Option.some.injEq] at hs
      rw [← hs]
    | finished =>
      rw [hpc] at hs
      exact Option.noConfusion hs

/-! ### The search under every order of the started calls -/

theorem spawned_eq {route : List Nat} {len : Nat} (hlt : len < route.length) :
    ∀ cities : List Nat,
      spawned route len cities = some (cities.map (fun c => (route.set len c, len + 1))) := by
  intro cities
  induction cities with
  | nil => rfl
  | cons c cs ih => simp only [spawned, new_route_eq hlt, ih, List.map_cons]

/-- A tour below a call that is neither pruned nor a leaf lies below the child call for
the city the tour has at position `len`. -/
theorem tour_below_child {N : Nat} {p route : List Nat} {len : Nat} (hp : Tour N p)
    (hl : route.length = N) (hlen : len < N) (htake : p.take len = route.take len) :
    city p len < route.length ∧ city p len ∉ route.take len ∧
      p.take (len + 1) = (route.set len (city p len)).take (len + 1) := by
  have hpl := tour_length hp
  have hlp : len < p.length := by omega
  have hlr : len < route.length := by omega
  refine ⟨?_, ?_, ?_⟩
  · rw [hl]
    exact tour_lt hp (List.mem_of_mem_take
      (city_mem_take (Nat.lt_succ_self len) (by omega : len + 1 ≤ p.length)))
  · rw [← htake]
    intro hmem
    have hnd : (p.take (len + 1)).Nodup := (tour_nodup hp).sublist (List.take_sublist _ _)
    rw [take_succ_eq hlp, List.nodup_append] at hnd
    exact hnd.2.2 hmem (List.mem_singleton_self _)
  · rw [take_set_succ hlr, take_succ_eq hlp, htake]

theorem mem_split_at {α : Type} {l : List α} {k : Nat} {y x : α} (hk : l[k]? = some y)
    (hx : x ∈ l) : x = y ∨ x ∈ l.take k ++ l.drop (k + 1) := by
  have hlt : k < l.length := by
    by_contra hcon
    rw [List.getElem?_eq_none (by omega)] at hk
    exact Option.noConfusion hk
  have hy : l[k] = y := by
    rw [List.getElem?_eq_getElem hlt, Option.some.injEq] at hk
    exact hk
  have hsplit : l = l.take k ++ y :: l.drop (k + 1) := by
    rw [← hy, ← List.drop_eq_getElem_cons hlt, List.take_append_drop]
  rw [hsplit] at hx
  rcases List.mem_append.mp hx with h | h
  · exact Or.inr (List.mem_append_left _ h)
  · rcases List.mem_cons.mp h with h | h
    · exact Or.inl h
    · exact Or.inr (List.mem_append_right _ h)

theorem mem_of_mem_others {α : Type} {l : List α} {k : Nat} {x : α}
    (hx : x ∈ l.take k ++ l.drop (k + 1)) : x ∈ l := by
  rcases List.mem_append.mp hx with h | h
  · exact List.mem_of_mem_take h
  · exact List.mem_of_mem_drop h

/-- Every step of the pool keeps the invariant. -/
theorem pool_step_inv {N : Nat} (hN : N ≤ 15) {s s' : Pool} {k : Nat} (h : PoolInv N s)
    (hs : pool_step s k = some s') : PoolInv N s' := by
  obtain ⟨hg, hok, hcov⟩ := h
  unfold pool_step at hs
  cases hk : s.pending[k]? with
  | none => rw [hk] at hs; exact Option.noConfusion hs
  | some rl =>
    obtain ⟨route, len⟩ := rl
    rw [hk] at hs
    simp only at hs
    have hr : RouteOK N route len := hok (route, len) (List.getElem?_mem hk)
    have he := routeOK_estimate hN hr
    rw [he] at hs
    simp only at hs
    have hothers : ∀ rl ∈ s.pending.take k ++ s.pending.drop (k + 1), RouteOK N rl.1 rl.2 :=
      fun rl hrl => hok rl (mem_of_mem_others hrl)
    by_cases hp : prefix_cost route len +
        (if route.length = len then closing_edge route len else 0) ≥ s.best_estimation
    · rw [if_pos hp, Option.some.injEq] at hs
      rw [← hs]
      refine ⟨hg, hothers, ?_⟩
      intro p hpt
      rcases hcov p hpt with hle | ⟨rl, hrl, htake⟩
      · exact Or.inl hle
      · rcases mem_split_at hk hrl with heq | hmem
        · left
          subst heq
          have := prefix_le_of_take_eq hpt hr htake
          show s.best_estimation ≤ tour_cost p
          omega
        · exact Or.inr ⟨rl, hmem, htake⟩
    · rw [if_neg hp] at hs
      by_cases hfull : route.length = len
      · rw [if_pos hfull, Option.some.injEq] at hs
        rw [← hs]
        have hcost : prefix_cost route len +
            (if route.length = len then closing_edge route len else 0) = tour_cost route := by
          rw [if_pos hfull, tour_cost, hfull]
        refine ⟨⟨routeOK_tour hr hfull, hcost⟩, hothers, ?_⟩
        intro p hpt
        rcases hcov p hpt with hle | ⟨rl, hrl, htake⟩
        · exact Or.inl (le_trans (le_of_lt (not_le.mp hp)) hle)
        · rcases mem_split_at hk hrl with heq | hmem
          · left
            subst heq
            exact prefix_le_of_take_eq hpt hr htake
          · exact Or.inr ⟨rl, hmem, htake⟩
      · rw [if_neg hfull] at hs
        have hl := hr.1
        have hlenN : len < N := by
          have := hr.2.2.1
          omega
        have hlt : len < route.length := by omega
        rw [unvisited_cities_eq route len (le_of_lt hlt)] at hs
        simp only [spawned_eq hlt, Option.some.injEq] at hs
        rw [← hs]
        refine ⟨hg, ?_, ?_⟩
        · intro rl hrl
          rcases List.mem_append.mp hrl with h1 | h1
          · exact hothers rl h1
          · obtain ⟨c, hc, rfl⟩ := List.mem_map.mp h1
            have hc' := (@mem_unvisited route len c).mp hc
            exact routeOK_child hr hlenN (by omega) hc'.2
        · intro p hpt
          rcases hcov p hpt with hle | ⟨rl, hrl, htake⟩
          · exact Or.inl hle
          · right
            rcases mem_split_at hk hrl with heq | hmem
            · subst heq
              obtain ⟨h1, h2, h3⟩ := tour_below_child hpt hl hlenN htake
              exact ⟨(route.set len (city p len), len + 1),
                List.mem_append_right _ (List.mem_map.mpr
                  ⟨city p len, mem_unvisited.mpr ⟨h1, h2⟩, rfl⟩), h3⟩
            · exact ⟨rl, List.mem_append_left _ hmem, htake⟩

theorem pool_run_inv {N : Nat} (hN : N ≤ 15) :
    ∀ (sched : List Nat) (s s' : Pool), PoolInv N s → pool_run s sched = some s' →
      PoolInv N s' := by
  intro sched
  induction sched with
  | nil =>
    intro s s' h hr
    simp only [pool_run, Option.some.injEq] at hr
    rw [← hr]
    exact h
  | cons k sched ih =>
    intro s s' h hr
    simp only [pool_run] at hr
    cases hst : pool_step s k with
    | none => rw [hst] at hr; exact Option.noConfusion hr
    | some s1 =>
      rw [hst] at hr
      exact ih s1 s' (pool_step_inv hN h hst) hr

theorem pool_init_eq {N : Nat} (h0 : 0 < N) (hN : N ≤ 15) :
    pool_init N = some { best_estimation := tour_cost (List.range N),
                         best_solution_found := List.range N,
                         pending := [((List.replicate N 0).set 0 0, 1)] } := by
  unfold pool_init
  have hnr : new_route (List.replicate N 0) 0 0 = some ((List.replicate N 0).set 0 0) :=
    new_route_eq (by simpa using h0) 0
  simp only [main_init_eq h0 hN, hnr]

theorem pool_init_inv {N : Nat} (h0 : 0 < N) :
    PoolInv N { best_estimation := tour_cost (List.range N),
                best_solution_found := List.range N,
                pending := [((List.replicate N 0).set 0 0, 1)] } := by
  refine ⟨⟨tour_range h0, rfl⟩, ?_, ?_⟩
  · intro rl hrl
    rw [List.mem_singleton] at hrl
    subst hrl
    exact main_route_ok h0
  · intro p hp
    refine Or.inr ⟨_, List.mem_singleton_self _, ?_⟩
    rw [tour_take_one hp]
    obtain ⟨n, rfl⟩ : ∃ n, N = n + 1 := ⟨N - 1, by omega⟩
    simp [List.replicate_succ]

/-- In whatever order the started calls run, once none is pending the best solution is
a tour, `best_estimation` is its cost, and that cost is the brute-force optimum. -/
theorem pool_optimum {N : Nat} (h0 : 0 < N) (hN : N ≤ 15) (sched : List Nat) (s0 s : Pool)
    (hinit : pool_init N = some s0) (hrun : pool_run s0 sched = some s)
    (hdone : s.pending = []) :
    Tour N s.best_solution_found ∧ s.best_estimation = tour_cost s.best_solution_found ∧
      Optimum N s.best_estimation := by
  rw [pool_init_eq h0 hN, Option.some.injEq] at hinit
  subst hinit
  obtain ⟨hg, -, hcov⟩ := pool_run_inv hN sched _ s (pool_init_inv h0) hrun
  refine ⟨hg.1, hg.2, ⟨s.best_solution_found, hg.1, hg.2.symm⟩, ?_⟩
  intro p hp
  rcases hcov p hp with h | ⟨rl, hrl, -⟩
  · exact h
  · rw [hdone] at hrl
    exact absurd hrl (List.not_mem_nil rl)

/-- Two orders of the started calls for five cities: first-started-first and
last-started-first.  Both end with cost 231; the tours found differ. -/
theorem pool_run_example :
    ((pool_init 5).bind (fun s => pool_run s (List.replicate 65 0))).map
        (fun s => (s.best_estimation, s.best_solution_found, s.pending)) =
      some (231, [0, 1, 4, 2, 3], []) ∧
    ((pool_init 5).bind (fun s => pool_run s
        [0, 3, 5, 6, 6, 5, 5, 4, 5, 5, 4, 4, 3, 4, 4, 3, 3, 2, 4, 5, 5, 4, 4, 3, 4, 4, 3, 3, 2,
          3, 3, 2, 2, 1, 3, 4, 4, 3, 3, 2, 3, 2, 2, 1, 2, 2, 1, 1, 0, 2, 3, 3, 2, 2, 1, 2, 2,
          1, 1, 0, 1, 1, 0, 0])).map
        (fun s => (s.best_estimation, s.best_solution_found, s.pending)) =
      some (231, [0, 3, 2, 4, 1], []) := by
  constructor <;> decide!

/-! ### Every order of the started calls runs to the end -/

theorem tree_bound_pos (N d : Nat) : 0 < tree_bound N d := by
  cases d <;> simp [tree_bound]

theorem sum_split_at {α : Type} (f : α → Nat) {l : List α} {k : Nat} {y : α}
    (hk : l[k]? = some y) :
    (l.map f).sum = ((l.take k ++ l.drop (k + 1)).map f).sum + f y := by
  have hlt : k < l.length := by
    by_contra hcon
    rw [List.getElem?_eq_none (by omega)] at hk
    exact Option.noConfusion hk
  have hy : l[k] = y := by
    rw [List.getElem?_eq_getElem hlt, Option.some.injEq] at hk
    exact hk
  have hsplit : l = l.take k ++ y :: l.drop (k + 1) := by
    rw [← hy, ← List.drop_eq_getElem_cons hlt, List.take_append_drop]
  conv_lhs => rw [hsplit]
  simp only [List.map_append, List.map_cons, List.sum_append, List.sum_cons]
  omega

/-- A pending call of a reachable pool can run. -/
theorem pool_progress {N : Nat} (hN : N ≤ 15) {s : Pool} (h : PoolInv N s) {k : Nat}
    (hk : k < s.pending.length) : ∃ s', pool_step s k = some s' := by
  obtain ⟨rl, hget⟩ : ∃ rl, s.pending[k]? = some rl := ⟨_, List.getElem?_eq_getElem hk⟩
  obtain ⟨route, len⟩ := rl
  have hr : RouteOK N route len := h.2.1 _ (List.getElem?_mem hget)
  unfold pool_step
  rw [hget]
  simp only
  rw [routeOK_estimate hN hr]
  simp only
  by_cases hp : prefix_cost route len +
      (if route.length = len then closing_edge route len else 0) ≥ s.best_estimation
  · rw [if_pos hp]
    exact ⟨_, rfl⟩
  · rw [if_neg hp]
    by_cases hfull : route.length = len
    · rw [if_pos hfull]
      exact ⟨_, rfl⟩
    · rw [if_neg hfull]
      have hlt : len < route.length := by
        have := hr.1
        have := hr.2.2.1
        omega
      rw [unvisited_cities_eq _ _ (le_of_lt hlt)]
      simp only [spawned_eq hlt]
      exact ⟨_, rfl⟩

/-- Every step of a reachable pool lowers the measure. -/
theorem pool_measure_lt {N : Nat} (hN : N ≤ 15) {s s' : Pool} {k : Nat} (h : PoolInv N s)
    (hs : pool_step s k = some s') : pool_measure N s' < pool_measure N s := by
  unfold pool_step at hs
  cases hk : s.pending[k]? with
  | none => rw [hk] at hs; exact Option.noConfusion hs
  | some rl =>
    obtain ⟨route, len⟩ := rl
    rw [hk] at hs
    simp only at hs
    have hr : RouteOK N route len := h.2.1 (route, len) (List.getElem?_mem hk)
    rw [routeOK_estimate hN hr] at hs
    simp only at hs
    have hsum := sum_split_at (fun rl : List Nat × Nat => tree_bound N (N - rl.2)) hk
    have hpos := tree_bound_pos N (N - len)
    unfold pool_measure
    rw [hsum]
    simp only at hsum
    by_cases hp : prefix_cost route len +
        (if route.length = len then closing_edge route len else 0) ≥ s.best_estimation
    · rw [if_pos hp, Option.some.injEq] at hs
      rw [← hs]
      simp only
      omega
    · rw [if_neg hp] at hs
      by_cases hfull : route.length = len
      · rw [if_pos hfull, Option.some.injEq] at hs
        rw [← hs]
        simp only
        omega
      · rw [if_neg hfull] at hs
        have hl := hr.1
        have hlenN : len < N := by
          have := hr.2.2.1
          omega
        have hlt : len < route.length := by omega
        rw [unvisited_cities_eq route len (le_of_lt hlt)] at hs
        simp only [spawned_eq hlt, Option.some.injEq] at hs
        rw [← hs]
        simp only [List.map_append, List.sum_append, List.map_map, Function.comp_def,
          List.map_const', List.sum_replicate, smul_eq_mul]
        have hcount : ((List.range route.length).filter
            (fun c => decide (c ∉ route.take len))).length ≤ N := by
          rw [← hl]
          exact le_trans (List.length_filter_le _ _) (by simp)
        obtain ⟨d, hd⟩ : ∃ d, N - len = d + 1 := ⟨N - len - 1, by omega⟩
        have hd' : N - (len + 1) = d := by omega
        rw [hd] at hpos ⊢
        rw [hd', tree_bound]
        have := Nat.mul_le_mul_right (tree_bound N d) hcount
        omega

/-- From every reachable pool some order of the pending calls leaves none pending. -/
theorem pool_run_completes {N : Nat} (hN : N ≤ 15) :
    ∀ (m : Nat) (s : Pool), pool_measure N s ≤ m → PoolInv N s →
      ∃ sched s', pool_run s sched = some s' ∧ s'.pending = [] := by
  intro m
  induction m with
  | zero =>
    intro s hm h
    refine ⟨[], s, rfl, ?_⟩
    cases hpend : s.pending with
    | nil => rfl
    | cons rl rest =>
      obtain ⟨s1, hs1⟩ := pool_progress hN h (k := 0) (by rw [hpend]; simp)
      have := pool_measure_lt hN h hs1
      omega
  | succ m ih =>
    intro s hm h
    cases hpend : s.pending with
    | nil => exact ⟨[], s, rfl, hpend⟩
    | cons rl rest =>
      obtain ⟨s1, hs1⟩ := pool_progress hN h (k := 0) (by rw [hpend]; simp)
      have hlt := pool_measure_lt hN h hs1
      obtain ⟨sched, s', hr, hf⟩ := ih s1 (by omega) (pool_step_inv hN h hs1)
      exact ⟨0 :: sched, s', by simp only [pool_run, hs1]; exact hr, hf⟩

theorem pool_run_append :
    ∀ (sched sched' : List Nat) (s s1 : Pool), pool_run s sched = some s1 →
      pool_run s (sched ++ sched') = pool_run s1 sched' := by
  intro sched
  induction sched with
  | nil =>
    intro sched' s s1 h
    simp only [pool_run, Option.some.injEq] at h
    rw [h]
    rfl
  | cons k sched ih =>
    intro sched' s s1 h
    simp only [pool_run, List.cons_append] at h ⊢
    cases hst : pool_step s k with
    | none => rw [hst] at h; exact Option.noConfusion h
    | some s2 =>
      rw [hst] at h
      simp only [hst]
      exact ih sched' s2 s1 h

/-- Every order in which started calls have run so far can be continued until no call
is pending. -/
theorem pool_schedule_extends {N : Nat} (h0 : 0 < N) (hN : N ≤ 15) (sched : List Nat)
    (s0 s : Pool) (hinit : pool_init N = some s0) (hrun : pool_run s0 sched = some s) :
    ∃ sched' s', pool_run s0 (sched ++ sched') = some s' ∧ s'.pending = [] := by
  rw [pool_init_eq h0 hN, Option.some.injEq] at hinit
  subst hinit
  have h := pool_run_inv hN sched _ s (pool_init_inv h0) hrun
  obtain ⟨sched', s', hr, hf⟩ := pool_run_completes hN (pool_measure N s) s le_rfl h
  exact ⟨sched', s', by rw [pool_run_append sched sched' _ s hrun]; exact hr, hf⟩

theorem city_lt_of_forall_mem {route : List Nat} (hv : ∀ c ∈ route, c < 15) {len : Nat}
    (hlen : len ≤ route.length) : ∀ k < len, city route k < 15 :=
  fun _ hk => hv _ (List.mem_of_mem_take (city_mem_take hk hlen))

/-! ### Routes long enough for `estimate` to overflow -/

theorem alternating_length (n : Nat) : (alternating_route n).length = n := by
  simp [alternating_route]

theorem city_alternating {n k : Nat} (hk : k < n) :
    city (alternating_route n) k = if k % 2 = 0 then 0 else 2 := by
  simp [city, alternating_route, List.getD_eq_getElem?_getD, List.getElem?_range hk]

theorem alternating_valid (n : Nat) : ∀ c ∈ alternating_route n, c < 15 := by
  intro c hc
  unfold alternating_route at hc
  obtain ⟨i, -, rfl⟩ := List.mem_map.mp hc
  split_ifs <;> omega

theorem alternating_ne_nil {n : Nat} (h : 0 < n) : alternating_route n ≠ [] := by
  intro hnil
  have := alternating_length n
  rw [hnil] at this
  simp at this
  omega

/-- Every edge of the alternating route costs 82. -/
theorem prefix_cost_alternating {n len : Nat} (hlen : len ≤ n) :
    prefix_cost (alternating_route n) len = 82 * ((len - 1 : Nat) : Int) := by
  unfold prefix_cost
  have hconst : (List.range' 1 (len - 1)).map
      (fun k => dist (city (alternating_route n) (k - 1)) (city (alternating_route n) k)) =
      (List.range' 1 (len - 1)).map (fun _ => (82 : Int)) := by
    apply List.map_congr_left
    intro k hk
    rw [List.mem_range'_1] at hk
    obtain ⟨hk1, hk2⟩ := hk
    rw [city_alternating (by omega : k - 1 < n), city_alternating (by omega : k < n)]
    rcases Nat.mod_two_eq_zero_or_one k with h | h
    · have h' : ¬ (k - 1) % 2 = 0 := by omega
      rw [if_pos h, if_neg h']
      decide
    · have h' : (k - 1) % 2 = 0 := by omega
      have h'' : ¬ k % 2 = 0 := by omega
      rw [if_neg h'', if_pos h']
      decide
  rw [hconst]
  simp [List.map_const', mul_comm]

/-- On the alternating route `estimate` sums 82 for every edge of the prefix as long as
the sum fits an `int`, that is for `len <= 26188825` below the length of the route. -/
theorem estimate_alternating {n len : Nat} (h1 : 1 ≤ len) (hlen : len < n)
    (hfit : len ≤ 26188825) :
    estimate (alternating_route n) len = some (82 * ((len - 1 : Nat) : Int)) := by
  have hl := alternating_length n
  rw [estimate_eq_fit (by omega) (alternating_ne_nil (by omega))
    (city_lt_of_forall_mem (alternating_valid n) (by omega)), if_neg (by omega), add_zero,
    prefix_cost_alternating (le_of_lt hlen)]
  rw [if_neg (by omega), add_zero, prefix_cost_alternating (le_of_lt hlen)]
  unfold INT_MAX
  omega

/-- From `len = 26188826` on, the sum over the alternating route exceeds `INT_MAX` and
an addition of `estimate` overflows. -/
theorem estimate_alternating_overflow {n len : Nat} (hbig : 26188826 ≤ len) (hlen : len ≤ n) :
    estimate (alternating_route n) len = none := by
  have hl := alternating_length n
  apply estimate_overflow (by omega) (alternating_ne_nil (by omega))
    (city_lt_of_forall_mem (alternating_valid n) (by omega))
  have hp := prefix_cost_alternating hlen
  have hc := closing_edge_nonneg (alternating_route n) len
  have : 0 ≤ (if (alternating_route n).length = len then
      closing_edge (alternating_route n) len else 0) := by
    split_ifs
    · exact hc
    · exact le_refl 0
  unfold INT_MAX
  omega

/-! ### A task that has passed the re-check stores its cost and its route -/

/-- A step of a task outside the critical section leaves the globals alone. -/
theorem leaf_step_outside {cands : List (Int × List Nat)} {s s' : Shared} {j : Nat}
    (hs : leaf_step cands s j = some s') (hj : in_critical (s.pc j) = false) :
    s'.best_estimation = s.best_estimation ∧
      s'.best_solution_found = s.best_solution_found := by
  unfold leaf_step at hs
  cases hc : cands[j]? with
  | none => rw [hc] at hs; exact Option.noConfusion hs
  | some c =>
    obtain ⟨estimation, partial_route⟩ := c
    rw [hc] at hs
    simp only at hs
    cases hpc : s.pc j with
    | at_check =>
      rw [hpc] at hs
      simp only at hs
      split_ifs at hs <;> simp only [Option.some.injEq] at hs <;> rw [← hs] <;> exact ⟨rfl, rfl⟩
    | at_lock =>
      rw [hpc] at hs
      simp only at hs
      split_ifs at hs
      simp only [Option.some.injEq] at hs
      rw [← hs]
      exact ⟨rfl, rfl⟩
    | at_recheck => rw [hpc] at hj; simp [in_critical] at hj
    | at_write_cost => rw [hpc] at hj; simp [in_critical] at hj
    | at_write_route => rw [hpc] at hj; simp [in_critical] at hj
    | at_unlock => rw [hpc] at hj; simp [in_critical] at hj
    | finished =>
      rw [hpc] at hs
      exact Option.noConfusion hs

/-- Once the re-check of task `i` has succeeded, no step of any task takes it off its way
to storing its cost and its route. -/
theorem storing_step {cands : List (Int × List Nat)} {best : Int} {route : List Nat}
    {s s' : Shared} {i j : Nat} {e : Int} {r : List Nat} (h : LeafInv cands best route s)
    (hc : cands[i]? = some (e, r)) (hst : Storing i e r s)
    (hs : leaf_step cands s j = some s') : Storing i e r s' := by
  by_cases hji : j = i
  · subst hji
    unfold leaf_step at hs
    rw [hc] at hs
    simp only at hs
    rcases hst with ⟨hpc, hlt⟩ | hpc | ⟨hpc, hb⟩ | ⟨hpc, hb, hr⟩ | hpc
    · rw [hpc] at hs
      simp only at hs
      rw [if_pos hlt, Option.some.injEq] at hs
      rw [← hs]
      exact Or.inr (Or.inl (goto_same s j _))
    · rw [hpc] at hs
      simp only [Option.some.injEq] at hs
      rw [← hs]
      exact Or.inr (Or.inr (Or.inl ⟨goto_same s j _, rfl⟩))
    · rw [hpc] at hs
      simp only [Option.some.injEq] at hs
      rw [← hs]
      exact Or.inr (Or.inr (Or.inr (Or.inl ⟨goto_same s j _, hb, rfl⟩)))
    · rw [hpc] at hs
      simp only [Option.some.injEq] at hs
      rw [← hs]
      exact Or.inr (Or.inr (Or.inr (Or.inr (goto_same s j _))))
    · rw [hpc] at hs
      exact Option.noConfusion hs
  · have hpci : s'.pc i = s.pc i := (leaf_step_pc hs).2.2 i (fun h => hji h.symm)
    by_cases hfin : s.pc i = PC.finished
    · exact Or.inr (Or.inr (Or.inr (Or.inr (by rw [hpci]; exact hfin))))
    · have hcrit : in_critical (s.pc i) = true := by
        rcases hst with ⟨hpc, -⟩ | hpc | ⟨hpc, -⟩ | ⟨hpc, -, -⟩ | hpc
        · rw [hpc]; rfl
        · rw [hpc]; rfl
        · rw [hpc]; rfl
        · rw [hpc]; rfl
        · exact absurd hpc hfin
      obtain ⟨hb', hr'⟩ := leaf_step_outside hs (leaf_inv_not_critical h hcrit hji)
      unfold Storing
      rw [hpci, hb', hr']
      exact hst

theorem storing_run {cands : List (Int × List Nat)} {best : Int} {route : List Nat}
    {i : Nat} {e : Int} {r : List Nat} (hc : cands[i]? = some (e, r)) :
    ∀ (sched : List Nat) (s s' : Shared), LeafInv cands best route s → Storing i e r s →
      leaf_run cands s sched = some s' → Storing i e r s' := by
  intro sched
  induction sched with
  | nil =>
    intro s s' _ hst hr
    simp only [leaf_run, Option.some.injEq] at hr
    rw [← hr]
    exact hst
  | cons j sched ih =>
    intro s s' h hst hr
    simp only [leaf_run] at hr
    cases hstep : leaf_step cands s j with
    | none => rw [hstep] at hr; exact Option.noConfusion hr
    | some s1 =>
      rw [hstep] at hr
      exact ih s1 s' (leaf_step_inv h hstep) (storing_step h hc hst hstep) hr

/-- The three steps of a task whose re-check succeeds: both assignments are made. -/
theorem leaf_store_steps {cands : List (Int × List Nat)} {s : Shared} {i : Nat} {e : Int}
    {r : List Nat} (hc : cands[i]? = some (e, r)) (hpc : s.pc i = PC.at_recheck)
    (hlt : e < s.best_estimation) :
    ∃ s3, leaf_run cands s [i, i, i] = some s3 ∧ s3.pc i = PC.at_unlock ∧
      s3.best_estimation = e ∧ s3.best_solution_found = r := by
  simp [leaf_run, leaf_step, hc, hpc, hlt, goto_same]

/-- The step of a task whose re-check fails: nothing is stored. -/
theorem leaf_skip_step {cands : List (Int × List Nat)} {s : Shared} {i : Nat} {e : Int}
    {r : List Nat} (hc : cands[i]? = some (e, r)) (hpc : s.pc i = PC.at_recheck)
    (hge : ¬ e < s.best_estimation) :
    ∃ s1, leaf_step cands s i = some s1 ∧ s1.pc i = PC.at_unlock ∧
      s1.best_estimation = s.best_estimation ∧
      s1.best_solution_found = s.best_solution_found := by
  simp [leaf_step, hc, hpc, hge, goto_same]

/-- With matched candidates and a matched initial pair, cost and route belong together
in every reachable state in which no task stands between its two assignments. -/
theorem leaf_pair_matched {cands : List (Int × List Nat)} {best : Int} {route : List Nat}
    {s : Shared} (h : LeafInv cands best route s)
    (hm0 : estimate route route.length = some best)
    (hmc : ∀ c ∈ cands, estimate c.2 c.2.length = some c.1)
    (hno : ∀ i < cands.length, s.pc i ≠ PC.at_write_route) :
    estimate s.best_solution_found s.best_solution_found.length = some s.best_estimation := by
  rcases h.pair hno with ⟨hb, hr⟩ | ⟨c, hc, hb, hr⟩
  · rw [hb, hr]
    exact hm0
  · rw [hb, hr]
    exact hmc c hc

/-- The second assignment of a task completes the pair. -/
theorem leaf_write_route_step {cands : List (Int × List Nat)} {best : Int} {route : List Nat}
    {s : Shared} (h : LeafInv cands best route s) {i : Nat} {e : Int} {r : List Nat}
    (hc : cands[i]? = some (e, r)) (hpc : s.pc i = PC.at_write_route) :
    s.best_estimation = e ∧
      ∃ s1, leaf_step cands s i = some s1 ∧ s1.best_estimation = e ∧
        s1.best_solution_found = r := by
  have hb := h.half i e r hc hpc
  refine ⟨hb, ?_⟩
  simp [leaf_step, hc, hpc, hb]

/-! ## The claims -/

/-- C1 (result optimality): for every `N` from 5 to 15 the search of `main` (best
solution initialised to the identity tour, then the entry call `walk_route(route, 1)`
with `route[0] = 0`) returns, and it ends with `best_estimation` equal to the
brute-force optimum: the least full tour cost over all permutations of `[0, N)` that
start with city 0. -/
theorem C1_result_optimality (N : Nat) (h5 : 5 ≤ N) (h15 : N ≤ 15) :
    ∃ st, main_search N = some st ∧ brute_force N = some st.best_estimation ∧
      Optimum N st.best_estimation := by
  obtain ⟨st, hst, -, hopt⟩ := main_search_optimum (by omega : 0 < N) h15
  exact ⟨st, hst, brute_force_eq_some_iff.mpr hopt, hopt⟩

theorem C1_result_optimality_witness :
    5 ≤ 5 ∧ 5 ≤ 15 ∧
      (main_search 5).map (fun s => s.best_estimation) = some 231 ∧
      ∃ st, main_search 5 = some st ∧ brute_force 5 = some st.best_estimation ∧
        Optimum 5 st.best_estimation :=
  ⟨by decide, by decide, by decide!, C1_result_optimality 5 (by decide) (by decide)⟩

/-- C2 (permutation validity): for every `N` from 5 to 15, when the search of `main`
finishes, `best_solution_found` has length `N`, is a permutation of `[0, N)` without a
duplicate, and its first entry is city 0. -/
theorem C2_permutation_validity (N : Nat) (h5 : 5 ≤ N) (h15 : N ≤ 15) :
    ∃ st, main_search N = some st ∧ st.best_solution_found.length = N ∧
      st.best_solution_found.Perm (List.range N) ∧ st.best_solution_found.Nodup ∧
      st.best_solution_found[0]? = some 0 := by
  obtain ⟨st, hst, hg, -⟩ := main_search_optimum (by omega : 0 < N) h15
  refine ⟨st, hst, tour_length hg.1, hg.1.1, tour_nodup hg.1, ?_⟩
  rw [← List.head?_eq_getElem?]
  exact hg.1.2

theorem C2_permutation_validity_witness :
    5 ≤ 5 ∧ 5 ≤ 15 ∧
      (main_search 5).map (fun s => s.best_solution_found) = some [0, 1, 4, 2, 3] ∧
      ∃ st, main_search 5 = some st ∧ st.best_solution_found.length = 5 ∧
        st.best_solution_found.Perm (List.range 5) ∧ st.best_solution_found.Nodup ∧
        st.best_solution_found[0]? = some 0 :=
  ⟨by decide, by decide, by decide!, C2_permutation_validity 5 (by decide) (by decide)⟩

/-- C3, as stated, fails for the alternating route of 26188827 table indices with
`len` equal to its length: the sum of the edges is 2147483732, more than an `int`
holds, so an addition of `estimate` overflows and no sum is returned. -/
theorem C3_counterexample :
    26188827 ≤ (alternating_route 26188827).length ∧ alternating_route 26188827 ≠ [] ∧
      (∀ c ∈ alternating_route 26188827, c < 15) ∧
      prefix_cost (alternating_route 26188827) 26188827 = 2147483732 ∧
      INT_MAX < prefix_cost (alternating_route 26188827) 26188827 ∧
      estimate (alternating_route 26188827) 26188827 = none ∧
      ¬ estimate (alternating_route 26188827) 26188827 =
        some (prefix_cost (alternating_route 26188827) 26188827 +
          closing_edge (alternating_route 26188827) 26188827) := by
  have hp : prefix_cost (alternating_route 26188827) 26188827 = 2147483732 := by
    rw [prefix_cost_alternating le_rfl]
    norm_num
  have hnone := @estimate_alternating_overflow 26188827 26188827 (by norm_num) le_rfl
  refine ⟨by rw [alternating_length], alternating_ne_nil (by norm_num),
    alternating_valid _, hp, ?_, hnone, ?_⟩
  · rw [hp]
    decide
  · rw [hnone]
    exact fun h => Option.noConfusion h

/-- C3, amended: for every non-empty route whose entries are table indices and every
`len <= route.size()`, if the sum of `distance_map[route[k-1]][route[k]]` for
`k = 1..len-1`, plus the closing edge `distance_map[route[len-1]][route[0]]` exactly
when `len` is the length of the route, is at most `INT_MAX`, then `estimate(route, len)`
returns that sum; for a shorter `len` no closing edge is added.  The sum is at most
`INT_MAX` whenever `len <= 26188824`; when it is larger, `estimate` overflows. -/
theorem C3_estimate_sum (route : List Nat) (len : Nat) (hlen : len ≤ route.length)
    (hne : route ≠ []) (hv : ∀ c ∈ route, c < 15) :
    (((List.range' 1 (len - 1)).map
          (fun k => dist (city route (k - 1)) (city route k))).sum +
        (if len = route.length then dist (city route (len - 1)) (city route 0) else 0)
        ≤ INT_MAX →
      estimate route len =
          some (((List.range' 1 (len - 1)).map
              (fun k => dist (city route (k - 1)) (city route k))).sum +
            (if len = route.length then dist (city route (len - 1)) (city route 0) else 0)) ∧
        (len < route.length → estimate route len = some (prefix_cost route len)) ∧
        (len = route.length →
          estimate route len = some (prefix_cost route len + closing_edge route len))) ∧
    (len ≤ 26188824 →
      ((List.range' 1 (len - 1)).map
          (fun k => dist (city route (k - 1)) (city route k))).sum +
        (if len = route.length then dist (city route (len - 1)) (city route 0) else 0)
        ≤ INT_MAX) ∧
    (INT_MAX < ((List.range' 1 (len - 1)).map
          (fun k => dist (city route (k - 1)) (city route k))).sum +
        (if len = route.length then dist (city route (len - 1)) (city route 0) else 0) →
      estimate route len = none) := by
  have hS : ((List.range' 1 (len - 1)).map
        (fun k => dist (city route (k - 1)) (city route k))).sum +
      (if len = route.length then dist (city route (len - 1)) (city route 0) else 0) =
      prefix_cost route len + (if route.length = len then closing_edge route len else 0) := by
    by_cases hfull : route.length = len
    · rw [if_pos hfull, if_pos hfull.symm]
      rfl
    · rw [if_neg hfull, if_neg (fun h' => hfull h'.symm)]
      rfl
  have hvk := city_lt_of_forall_mem hv hlen
  rw [hS]
  refine ⟨?_, cost_fits hlen hne hvk, estimate_overflow hlen hne hvk⟩
  intro hfit
  have h := estimate_eq_fit hlen hne hvk hfit
  refine ⟨h, ?_, ?_⟩
  · intro hlt
    rw [h, if_neg (by omega), add_zero]
  · intro heq
    rw [h, if_pos heq.symm]

theorem C3_estimate_sum_witness :
    estimate [0, 1, 2, 3, 4] 3 = some (29 + 55) ∧
      estimate [0, 1, 2, 3, 4] 5 = some (29 + 55 + 68 + 82 + 68) ∧
      3 ≤ [0, 1, 2, 3, 4].length ∧ [0, 1, 2, 3, 4] ≠ [] ∧ (∀ c ∈ [0, 1, 2, 3, 4], c < 15) ∧
      (estimate [0, 1, 2, 3, 4] 3 =
          some (((List.range' 1 (3 - 1)).map
              (fun k => dist (city [0, 1, 2, 3, 4] (k - 1)) (city [0, 1, 2, 3, 4] k))).sum +
            (if 3 = [0, 1, 2, 3, 4].length then
              dist (city [0, 1, 2, 3, 4] (3 - 1)) (city [0, 1, 2, 3, 4] 0) else 0)) ∧
        (3 < [0, 1, 2, 3, 4].length →
          estimate [0, 1, 2, 3, 4] 3 = some (prefix_cost [0, 1, 2, 3, 4] 3)) ∧
        (3 = [0, 1, 2, 3, 4].length →
          estimate [0, 1, 2, 3, 4] 3 =
            some (prefix_cost [0, 1, 2, 3, 4] 3 + closing_edge [0, 1, 2, 3, 4] 3))) :=
  ⟨by decide, by decide, by decide, by decide, by decide,
    (C3_estimate_sum [0, 1, 2, 3, 4] 3 (by decide) (by decide) (by decide)).1 (by decide)⟩

/-- C4, as stated, fails when calls of `walk_route` overlap.  Two leaf calls run as
threads against the initial pair (302, identity tour): the first, with cost 231, has
made the assignment of line 78 and not yet that of line 79 when the second, with cost
257, fails the test of line 73 and returns.  After that call `best_estimation` is 231
and `best_solution_found` is still the identity tour, whose cost is 302. -/
theorem C4_counterexample :
    estimate [0, 1, 2, 3, 4] 5 = some 302 ∧ estimate [0, 1, 4, 2, 3] 5 = some 231 ∧
      estimate [0, 1, 3, 2, 4] 5 = some 257 ∧
      (leaf_run [(231, [0, 1, 4, 2, 3]), (257, [0, 1, 3, 2, 4])]
          (leaf_init 302 [0, 1, 2, 3, 4]) [0, 0, 0, 0, 1]).map
        (fun s => (s.pc 0, s.pc 1, s.best_estimation, s.best_solution_found,
          decide (estimate s.best_solution_found 5 = some s.best_estimation))) =
        some (PC.at_write_route, PC.finished, 231, [0, 1, 2, 3, 4], false) := by
  decide

/-- C4, amended: cost and route are mismatched only while a thread stands between the
two assignments of lines 78 and 79.  For every `N` from 5 to 15 the state `main` builds
before the search and the state at the end of the search satisfy
`best_estimation = estimate(best_solution_found, N)`; every call of `walk_route` that
runs without another call in between takes a matched state to a matched state in which
cost and route are either both as before or both replaced (the cost by a lower one); in
whatever order the started calls run, each from its prune test to the start of its
children, the pair is matched after every one of them; and when the statements of leaf
updates interleave, the pair is matched in every state in which no task stands between
its two assignments, while a task that stands there has stored its cost and stores its
route with its next step. -/
theorem C4_cost_route_matched :
    (∀ N, 5 ≤ N → N ≤ 15 →
      (∃ st0, main_init N = some st0 ∧ st0.best_solution_found.length = N ∧
        estimate st0.best_solution_found N = some st0.best_estimation) ∧
      (∃ st, main_search N = some st ∧ st.best_solution_found.length = N ∧
        estimate st.best_solution_found N = some st.best_estimation)) ∧
    (∀ st route len, CallOK route len → Matched st →
      ∃ st', walk_route st route len = some st' ∧ Matched st' ∧
        ((st'.best_estimation = st.best_estimation ∧
            st'.best_solution_found = st.best_solution_found) ∨
          (st'.best_estimation < st.best_estimation ∧
            st'.best_solution_found ≠ st.best_solution_found))) ∧
    (∀ st route len st', walk_route st route len = some st' → Matched st → Matched st') ∧
    (∀ N, 5 ≤ N → N ≤ 15 → ∀ s0 sched s, pool_init N = some s0 →
      pool_run s0 sched = some s →
      s.best_solution_found.length = N ∧
        estimate s.best_solution_found N = some s.best_estimation) ∧
    (∀ cands best route sched s, estimate route route.length = some best →
      (∀ c ∈ cands, estimate c.2 c.2.length = some c.1) →
      leaf_run cands (leaf_init best route) sched = some s →
      ((∀ i < cands.length, s.pc i ≠ PC.at_write_route) →
        estimate s.best_solution_found s.best_solution_found.length =
          some s.best_estimation) ∧
      (∀ i e r, cands[i]? = some (e, r) → s.pc i = PC.at_write_route →
        s.best_estimation = e ∧
          ∃ s1, leaf_step cands s i = some s1 ∧ s1.best_estimation = e ∧
            s1.best_solution_found = r)) := by
  refine ⟨?_, ?_, ?_, ?_, ?_⟩
  · intro N h5 h15
    have h0 : 0 < N := by omega
    refine ⟨⟨_, main_init_eq h0 h15, by simp, ?_⟩, ?_⟩
    · have := tour_estimate h15 h0 (tour_range h0)
      rw [List.length_range] at this
      exact this
    · obtain ⟨st, hst, hg, -⟩ := main_search_optimum h0 h15
      refine ⟨st, hst, tour_length hg.1, ?_⟩
      have := tour_estimate h15 h0 hg.1
      rw [tour_length hg.1, ← hg.2] at this
      exact this
  · intro st route len hc hm
    obtain ⟨st', hst'⟩ := walk_route_returns hc st
    obtain ⟨-, hmm, hd, -⟩ := walk_route_step hst'
    refine ⟨st', hst', hmm hm, ?_⟩
    rcases hd with h | ⟨hlt, hm'⟩
    · exact Or.inl h
    · refine Or.inr ⟨hlt, ?_⟩
      intro heq
      unfold Matched at hm hm'
      rw [heq, hm, Option.some.injEq] at hm'
      omega
  · intro st route len st' h hm
    exact (walk_route_step h).2.1 hm
  · intro N h5 h15 s0 sched s hinit hrun
    have h0 : 0 < N := by omega
    rw [pool_init_eq h0 h15, Option.some.injEq] at hinit
    subst hinit
    obtain ⟨hg, -, -⟩ := pool_run_inv h15 sched _ s (pool_init_inv h0) hrun
    refine ⟨tour_length hg.1, ?_⟩
    have := tour_estimate h15 h0 hg.1
    rw [tour_length hg.1, ← hg.2] at this
    exact this
  · intro cands best route sched s hm0 hmc hrun
    have h := leaf_run_inv sched _ s (leaf_init_inv cands best route) hrun
    exact ⟨leaf_pair_matched h hm0 hmc, fun i e r hc hpc => leaf_write_route_step h hc hpc⟩

theorem C4_cost_route_matched_witness :
    (5 ≤ 5 ∧ 5 ≤ 15 ∧ CallOK [0, 2, 1] 3 ∧ Matched ⟨166, [0, 1, 2], []⟩) ∧
      ((∃ st0, main_init 5 = some st0 ∧ st0.best_solution_found.length = 5 ∧
          estimate st0.best_solution_found 5 = some st0.best_estimation) ∧
        (∃ st, main_search 5 = some st ∧ st.best_solution_found.length = 5 ∧
          estimate st.best_solution_found 5 = some st.best_estimation)) ∧
      (∃ st', walk_route ⟨166, [0, 1, 2], []⟩ [0, 2, 1] 3 = some st' ∧ Matched st' ∧
        ((st'.best_estimation = (166 : Int) ∧ st'.best_solution_found = [0, 1, 2]) ∨
          (st'.best_estimation < (166 : Int) ∧ st'.best_solution_found ≠ [0, 1, 2]))) ∧
      (∀ s0 sched s, pool_init 5 = some s0 → pool_run s0 sched = some s →
        s.best_solution_found.length = 5 ∧
          estimate s.best_solution_found 5 = some s.best_estimation) ∧
      (estimate [0, 1, 2, 3, 4] [0, 1, 2, 3, 4].length = some 302 ∧
        (∀ c ∈ [((231 : Int), [0, 1, 4, 2, 3]), (257, [0, 1, 3, 2, 4])],
          estimate c.2 c.2.length = some c.1) ∧
        ∀ sched s, leaf_run [(231, [0, 1, 4, 2, 3]), (257, [0, 1, 3, 2, 4])]
            (leaf_init 302 [0, 1, 2, 3, 4]) sched = some s →
          ((∀ i < [((231 : Int), [0, 1, 4, 2, 3]), (257, [0, 1, 3, 2, 4])].length,
              s.pc i ≠ PC.at_write_route) →
            estimate s.best_solution_found s.best_solution_found.length =
              some s.best_estimation) ∧
          (∀ i e r, [((231 : Int), [0, 1, 4, 2, 3]), (257, [0, 1, 3, 2, 4])][i]? = some (e, r) →
            s.pc i = PC.at_write_route →
            s.best_estimation = e ∧
              ∃ s1, leaf_step [(231, [0, 1, 4, 2, 3]), (257, [0, 1, 3, 2, 4])] s i = some s1 ∧
                s1.best_estimation = e ∧ s1.best_solution_found = r)) :=
  ⟨⟨by decide, by decide, ⟨by decide, by decide, by decide, by decide⟩,
      (show estimate [0, 1, 2] 3 = some 166 by decide)⟩,
    C4_cost_route_matched.1 5 (by decide) (by decide),
    C4_cost_route_matched.2.1 ⟨166, [0, 1, 2], []⟩ [0, 2, 1] 3
      ⟨by decide, by decide, by decide, by decide⟩
      (show estimate [0, 1, 2] 3 = some 166 by decide),
    C4_cost_route_matched.2.2.2.1 5 (by decide) (by decide),
    by decide, by decide,
    fun sched s => C4_cost_route_matched.2.2.2.2
      [(231, [0, 1, 4, 2, 3]), (257, [0, 1, 3, 2, 4])] 302 [0, 1, 2, 3, 4] sched s
      (by decide) (by decide)⟩

/-- C5 (monotonic improvement): for every route and `len`, the value of
`best_estimation` after a call of `walk_route` is at most its value before the call,
and the values assigned to `best_estimation` during the call, in order, start below the
value before, strictly decrease and end with the value after; a call on a well-formed
route returns. -/
theorem C5_monotonic_improvement (st : State) (route : List Nat) (len : Nat) :
    (∀ st', walk_route st route len = some st' →
      st'.best_estimation ≤ st.best_estimation ∧
      ∃ evs, st'.trace = st.trace ++ evs ∧
        (st.best_estimation :: commits evs).Pairwise (fun a b => b ≤ a) ∧
        (st.best_estimation :: commits evs).Pairwise (fun a b => b < a) ∧
        (commits evs).getLastD st.best_estimation = st'.best_estimation) ∧
    (CallOK route len →
      ∃ st', walk_route st route len = some st' ∧
        st'.best_estimation ≤ st.best_estimation) := by
  constructor
  · intro st' h
    obtain ⟨hle, -, -, evs, htr, hb, hp, hl⟩ := walk_route_step h
    have hlt : (st.best_estimation :: commits evs).Pairwise (fun a b => b < a) :=
      List.pairwise_cons.mpr ⟨fun e he => (hb e he).2, hp⟩
    exact ⟨hle, evs, htr, hlt.imp (fun h => le_of_lt h), hlt, hl⟩
  · intro hc
    obtain ⟨st', hst'⟩ := walk_route_returns hc st
    exact ⟨st', hst', (walk_route_step hst').1⟩

theorem C5_monotonic_improvement_witness :
    CallOK [0, 0, 0, 0, 0] 1 ∧
      ∃ st', walk_route ⟨324, [0, 1, 2, 3, 4], []⟩ [0, 0, 0, 0, 0] 1 = some st' ∧
        st'.best_estimation ≤ (324 : Int) :=
  ⟨⟨by decide, by decide, by decide, by decide⟩,
    (C5_monotonic_improvement ⟨324, [0, 1, 2, 3, 4], []⟩ [0, 0, 0, 0, 0] 1).2
      ⟨by decide, by decide, by decide, by decide⟩⟩

/-- C6 (pruning correctness): for every route, `len` and best state, if
`estimate(route, len) >= best_estimation` then `walk_route(route, len)` returns at once:
the only event it logs is its own entry (no recursive call, no update attempt, no
assignment), and `best_estimation` and `best_solution_found` are unchanged. -/
theorem C6_pruning (st : State) (route : List Nat) (len : Nat) (e : Int)
    (he : estimate route len = some e) (hp : e ≥ st.best_estimation) :
    ∃ st', walk_route st route len = some st' ∧
      st'.best_estimation = st.best_estimation ∧
      st'.best_solution_found = st.best_solution_found ∧
      st'.trace = st.trace ++ [Event.enter route len] :=
  ⟨entered st route len, walk_route_aux_pruned he hp, rfl, rfl, rfl⟩

theorem C6_pruning_witness :
    estimate [0, 2, 0, 0, 0] 2 = some 82 ∧ (82 : Int) ≥ 82 ∧
      ∃ st', walk_route ⟨82, [0, 1, 2, 3, 4], []⟩ [0, 2, 0, 0, 0] 2 = some st' ∧
        st'.best_estimation = 82 ∧ st'.best_solution_found = [0, 1, 2, 3, 4] ∧
        st'.trace = [] ++ [Event.enter [0, 2, 0, 0, 0] 2] :=
  ⟨by decide, by decide,
    C6_pruning ⟨82, [0, 1, 2, 3, 4], []⟩ [0, 2, 0, 0, 0] 2 82 (by decide) (by decide)⟩

theorem city_eq_of_agree {full route : List Nat} {len : Nat}
    (h : ∀ k < len, full[k]? = route[k]?) : ∀ k < len, city route k = city full k := by
  intro k hk
  simp only [city, List.getD_eq_getElem?_getD, h k hk]

/-- C7, as stated, fails for the alternating route of length `N = 26188826` with
`len = N - 1` and `full` the route itself: `estimate(route, len)` is 2147483568, but the
sum of `estimate(full, N)` exceeds `INT_MAX`, an addition overflows, and there is no
value that `estimate(route, len)` is at most. -/
theorem C7_counterexample :
    26188825 < (alternating_route 26188826).length ∧
      (∀ c ∈ alternating_route 26188826, c < 15) ∧
      estimate (alternating_route 26188826) 26188825 = some 2147483568 ∧
      INT_MAX < prefix_cost (alternating_route 26188826) 26188826 ∧
      estimate (alternating_route 26188826) (alternating_route 26188826).length = none ∧
      ¬ ∃ e c, estimate (alternating_route 26188826) 26188825 = some e ∧
        estimate (alternating_route 26188826) (alternating_route 26188826).length = some c ∧
        e ≤ c := by
  have hl := alternating_length 26188826
  have hnone : estimate (alternating_route 26188826) (alternating_route 26188826).length =
      none := by
    rw [hl]
    exact estimate_alternating_overflow le_rfl le_rfl
  refine ⟨by rw [hl]; norm_num, alternating_valid _, ?_, ?_, hnone, ?_⟩
  · rw [estimate_alternating (by norm_num) (by norm_num) (by norm_num)]
    norm_num
  · rw [prefix_cost_alternating le_rfl]
    unfold INT_MAX
    norm_num
  · rintro ⟨e, c, -, hc, -⟩
    rw [hnone] at hc
    exact Option.noConfusion hc

/-- C7 (admissible bound), amended: every table entry is non-negative, and so for every
route over the table and every `len` below its length `N`, whenever `estimate(full, N)`
returns a value (its sum does not overflow), `estimate(route, len)` returns a value that
is at most `estimate(full, N)`, for every route `full` of length `N` over the table that
agrees with `route` on the first `len` positions; and whenever `len + 1 < N` and
`estimate(route, len + 1)` returns a value, `estimate(route, len)` is at most that value.
For `N <= 26188824` all these estimates return a value. -/
theorem C7_admissible_bound (route full : List Nat) (len : Nat)
    (hlen : len < route.length) (hN : full.length = route.length)
    (hvr : ∀ c ∈ route, c < 15) (hvf : ∀ c ∈ full, c < 15)
    (hagree : ∀ k < len, full[k]? = route[k]?) :
    (∀ a < 15, ∀ b < 15, ∃ d, distance_map a b = some d ∧ 0 ≤ d) ∧
    (∀ c, estimate full full.length = some c →
      ∃ e, estimate route len = some e ∧ e ≤ c) ∧
    (len + 1 < route.length → ∀ e', estimate route (len + 1) = some e' →
      ∃ e, estimate route len = some e ∧ e ≤ e') ∧
    (route.length ≤ 26188824 →
      ∃ e c, estimate route len = some e ∧ estimate full full.length = some c ∧ e ≤ c ∧
        (len + 1 < route.length → ∃ e', estimate route (len + 1) = some e' ∧ e ≤ e')) := by
  have hne : route ≠ [] := List.ne_nil_of_length_pos (by omega)
  have hnef : full ≠ [] := List.ne_nil_of_length_pos (by omega)
  have hvl := city_lt_of_forall_mem hvr (le_of_lt hlen)
  have hle : prefix_cost route len ≤ tour_cost full := by
    rw [prefix_cost_congr (city_eq_of_agree hagree)]
    exact prefix_cost_le_tour_cost full (by omega)
  have hmono := prefix_cost_mono route (Nat.le_add_right len 1)
  have hlow : ∀ b : Int, prefix_cost route len ≤ b → b ≤ INT_MAX →
      estimate route len = some (prefix_cost route len) := by
    intro b h1 h2
    rw [estimate_eq_fit (le_of_lt hlen) hne hvl (by rw [if_neg (by omega)]; omega),
      if_neg (by omega), add_zero]
  refine ⟨fun a ha b hb => ⟨dist a b, distance_map_some a ha b hb, dist_nonneg a b⟩,
    ?_, ?_, ?_⟩
  · intro c hc
    obtain ⟨hceq, hcfit⟩ := estimate_some le_rfl hnef (city_lt_of_forall_mem hvf le_rfl) hc
    rw [if_pos rfl] at hceq
    have hct : c = tour_cost full := hceq
    exact ⟨_, hlow c (by omega) hcfit, by omega⟩
  · intro h1 e' he'
    obtain ⟨heq, hfit⟩ := estimate_some (by omega) hne
      (city_lt_of_forall_mem hvr (by omega)) he'
    rw [if_neg (by omega), add_zero] at heq
    exact ⟨_, hlow e' (by omega) hfit, by omega⟩
  · intro hsmall
    have hfull := estimate_eq le_rfl hnef (city_lt_of_forall_mem hvf le_rfl) (by omega)
    rw [if_pos rfl] at hfull
    have hfit := cost_fits le_rfl hnef (city_lt_of_forall_mem hvf le_rfl) (by omega)
    rw [if_pos rfl] at hfit
    refine ⟨prefix_cost route len, tour_cost full, hlow _ hle hfit, hfull, hle, ?_⟩
    intro h1
    refine ⟨prefix_cost route (len + 1), ?_, hmono⟩
    rw [estimate_eq (by omega) hne (city_lt_of_forall_mem hvr (by omega)) (by omega),
      if_neg (by omega), add_zero]

theorem C7_admissible_bound_witness :
    estimate [0, 3, 0, 0, 0] 2 = some 46 ∧ estimate [0, 3, 1, 2, 4] 5 = some 261 ∧
      2 < [0, 3, 0, 0, 0].length ∧ [0, 3, 1, 2, 4].length = [0, 3, 0, 0, 0].length ∧
      (∀ c ∈ [0, 3, 0, 0, 0], c < 15) ∧ (∀ c ∈ [0, 3, 1, 2, 4], c < 15) ∧
      (∀ k < 2, [0, 3, 1, 2, 4][k]? = [0, 3, 0, 0, 0][k]?) ∧
      ((∀ a < 15, ∀ b < 15, ∃ d, distance_map a b = some d ∧ 0 ≤ d) ∧
      (∀ c, estimate [0, 3, 1, 2, 4] [0, 3, 1, 2, 4].length = some c →
        ∃ e, estimate [0, 3, 0, 0, 0] 2 = some e ∧ e ≤ c) ∧
      (2 + 1 < [0, 3, 0, 0, 0].length → ∀ e', estimate [0, 3, 0, 0, 0] (2 + 1) = some e' →
        ∃ e, estimate [0, 3, 0, 0, 0] 2 = some e ∧ e ≤ e') ∧
      ([0, 3, 0, 0, 0].length ≤ 26188824 →
        ∃ e c, estimate [0, 3, 0, 0, 0] 2 = some e ∧
          estimate [0, 3, 1, 2, 4] [0, 3, 1, 2, 4].length = some c ∧ e ≤ c ∧
          (2 + 1 < [0, 3, 0, 0, 0].length →
            ∃ e', estimate [0, 3, 0, 0, 0] (2 + 1) = some e' ∧ e ≤ e'))) :=
  ⟨by decide, by decide, by decide, by decide, by decide, by decide, by decide,
    C7_admissible_bound [0, 3, 0, 0, 0] [0, 3, 1, 2, 4] 2 (by decide) (by decide)
      (by decide) (by decide) (by decide)⟩

/-- C8 (city-count clamping): for every integer `a` parsed from the single
command-line argument, the `N` of `main` is `min(15, max(5, a))`: 5 when `a < 5`, 15
when `a > 15`, `a` otherwise; so `N` always lies in `[5, 15]` and no value is rejected. -/
theorem C8_city_count_clamp (a : Int) :
    ((main_N 2 a : Nat) : Int) = min 15 (max 5 a) ∧
      (a < 5 → main_N 2 a = 5) ∧ (15 < a → main_N 2 a = 15) ∧
      (5 ≤ a → a ≤ 15 → ((main_N 2 a : Nat) : Int) = a) ∧
      5 ≤ main_N 2 a ∧ main_N 2 a ≤ 15 := by
  unfold main_N
  simp only [if_true]
  refine ⟨?_, ?_, ?_, ?_, ?_, ?_⟩ <;> omega

theorem C8_city_count_clamp_witness :
    main_N 2 (-7) = 5 ∧ main_N 2 99 = 15 ∧ main_N 2 8 = 8 ∧
      (((main_N 2 8 : Nat) : Int) = min 15 (max 5 8) ∧
        ((8 : Int) < 5 → main_N 2 8 = 5) ∧ ((15 : Int) < 8 → main_N 2 8 = 15) ∧
        ((5 : Int) ≤ 8 → (8 : Int) ≤ 15 → ((main_N 2 8 : Nat) : Int) = 8) ∧
        5 ≤ main_N 2 8 ∧ main_N 2 8 ≤ 15) :=
  ⟨by decide, by decide, by decide, C8_city_count_clamp 8⟩

theorem estimate_reads_lt {N : Nat} {route : List Nat} {len : Nat} (h1 : 1 ≤ len)
    (hv : ∀ k < len, city route k < N) :
    ∀ ij ∈ estimate_reads route len, ij.1 < N ∧ ij.2 < N := by
  intro ij hij
  unfold estimate_reads at hij
  rcases List.mem_append.mp hij with h | h
  · rw [List.mem_map] at h
    obtain ⟨k, hk, rfl⟩ := h
    rw [List.mem_range'_1] at hk
    exact ⟨hv (k - 1) (by omega), hv k (by omega)⟩
  · by_cases hfull : route.length = len
    · rw [if_pos hfull, List.mem_singleton] at h
      subst h
      exact ⟨hv (len - 1) (by omega), hv 0 (by omega)⟩
    · rw [if_neg hfull] at h
      exact absurd h (List.not_mem_nil ij)

/-- C9 (distance sub-block): for every `N` from 5 to 15 the search of `main` returns
(no read leaves the table), and every index pair `(i, j)` at which `estimate` reads
`distance_map` during the search has `i < N` and `j < N`: this holds for the initial
estimate of the identity tour and for the estimate made by every call of `walk_route`.
The same holds when the started calls run in any order: every call that is pending can
run, its estimate returns the sum of the entries it reads, and it reads at index pairs
below `N` only. -/
theorem C9_distance_sub_block (N : Nat) (h5 : 5 ≤ N) (h15 : N ≤ 15) :
    (∃ st, main_search N = some st ∧
      (∀ ij ∈ estimate_reads (List.range N) N, ij.1 < N ∧ ij.2 < N) ∧
      ∀ route len, Event.enter route len ∈ st.trace →
        ∀ ij ∈ estimate_reads route len, ij.1 < N ∧ ij.2 < N) ∧
    ∀ s0 sched s, pool_init N = some s0 → pool_run s0 sched = some s →
      (∀ route len, (route, len) ∈ s.pending →
        (∀ ij ∈ estimate_reads route len, ij.1 < N ∧ ij.2 < N) ∧
        estimate route len =
          some ((estimate_reads route len).map (fun ij => dist ij.1 ij.2)).sum) ∧
      ∀ k < s.pending.length, ∃ s', pool_step s k = some s' := by
  have h0 : 0 < N := by omega
  constructor
  · obtain ⟨st, hst, -, -, -, evs, htr, hev⟩ := main_search_spec h0 h15
    refine ⟨st, hst, ?_, ?_⟩
    · apply estimate_reads_lt (by omega)
      intro k hk
      exact tour_lt (tour_range h0) (city_mem_take hk (by simp) |> List.mem_of_mem_take)
    · intro route len hmem
      rw [htr, List.nil_append] at hmem
      have hr : RouteOK N route len := hev _ hmem
      exact estimate_reads_lt hr.2.1 (fun k hk => routeOK_city_lt hr hk)
  · intro s0 sched s hinit hrun
    rw [pool_init_eq h0 h15, Option.some.injEq] at hinit
    subst hinit
    have hinv := pool_run_inv h15 sched _ s (pool_init_inv h0) hrun
    refine ⟨?_, fun k hk => pool_progress h15 hinv hk⟩
    intro route len hmem
    have hr : RouteOK N route len := hinv.2.1 (route, len) hmem
    refine ⟨estimate_reads_lt hr.2.1 (fun k hk => routeOK_city_lt hr hk), ?_⟩
    rw [routeOK_estimate h15 hr, reads_sum_eq]

theorem C9_distance_sub_block_witness :
    5 ≤ 5 ∧ 5 ≤ 15 ∧ estimate_reads [0, 1, 4, 0, 0] 3 = [(0, 1), (1, 4)] ∧
      ((∃ st, main_search 5 = some st ∧
        (∀ ij ∈ estimate_reads (List.range 5) 5, ij.1 < 5 ∧ ij.2 < 5) ∧
        ∀ route len, Event.enter route len ∈ st.trace →
          ∀ ij ∈ estimate_reads route len, ij.1 < 5 ∧ ij.2 < 5) ∧
      ∀ s0 sched s, pool_init 5 = some s0 → pool_run s0 sched = some s →
        (∀ route len, (route, len) ∈ s.pending →
          (∀ ij ∈ estimate_reads route len, ij.1 < 5 ∧ ij.2 < 5) ∧
          estimate route len =
            some ((estimate_reads route len).map (fun ij => dist ij.1 ij.2)).sum) ∧
        ∀ k < s.pending.length, ∃ s', pool_step s k = some s') :=
  ⟨by decide, by decide, by decide, C9_distance_sub_block 5 (by decide) (by decide)⟩

/-- C10 (concurrent update safety): tasks that have reached the leaf update of
`walk_route` with candidate costs and routes `cands` (ties included) take the steps of
lines 73-81 in any order.  Whenever a schedule has run every task to its return, the
mutex is free, `best_estimation` is the minimum of the initial best and all candidate
costs, and `best_solution_found` is the route submitted with that cost (the initial
route if no candidate is lower): no update is lost and cost and route are never torn.
The re-check under the mutex is what a step from `at_recheck` does. -/
theorem C10_concurrent_update_safety (cands : List (Int × List Nat)) (best : Int)
    (route : List Nat) (sched : List Nat) (s : Shared)
    (hrun : leaf_run cands (leaf_init best route) sched = some s)
    (hfin : all_finished cands s) :
    s.best_estimation = (cands.map Prod.fst).foldl min best ∧
      s.best_estimation ≤ best ∧ (∀ c ∈ cands, s.best_estimation ≤ c.1) ∧
      ((s.best_estimation = best ∧ s.best_solution_found = route) ∨
        ∃ c ∈ cands, s.best_estimation = c.1 ∧ s.best_solution_found = c.2) ∧
      s.mutex = none := by
  have h := leaf_run_inv sched _ s (leaf_init_inv cands best route) hrun
  have hall : ∀ c ∈ cands, s.best_estimation ≤ c.1 := by
    intro c hc
    obtain ⟨i, hi, rfl⟩ := List.mem_iff_getElem.mp hc
    exact h.passed i cands[i].1 cands[i].2 (by rw [List.getElem?_eq_getElem hi])
      (Or.inl (hfin i hi))
  have hpair := h.pair (fun i hi => by rw [hfin i hi]; simp)
  refine ⟨?_, h.le_init, hall, hpair, ?_⟩
  · symm
    apply foldl_min_eq h.le_init
    · intro x hx
      obtain ⟨c, hc, rfl⟩ := List.mem_map.mp hx
      exact hall c hc
    · rcases hpair with ⟨hb, -⟩ | ⟨c, hc, hb, -⟩
      · exact Or.inl hb
      · exact Or.inr (List.mem_map.mpr ⟨c, hc, hb.symm⟩)
  · cases hm : s.mutex with
    | none => rfl
    | some i =>
      have hcrit := (h.owner i).mpr hm
      by_cases hi : i < cands.length
      · rw [hfin i hi] at hcrit
        exact absurd hcrit (by simp [in_critical])
      · exact absurd hcrit (by
          have := h.idle i (List.getElem?_eq_none (by omega))
          rw [this]
          simp [in_critical])

theorem leaf_run_example :
    (leaf_run [(5, [1]), (3, [2]), (3, [3])] (leaf_init 10 [0])
      [0, 1, 2, 0, 0, 0, 0, 0, 1, 1, 1, 1, 1, 2, 2, 2]).isSome = true := by
  decide

theorem C10_concurrent_update_safety_witness :
    ∃ s, leaf_run [(5, [1]), (3, [2]), (3, [3])] (leaf_init 10 [0])
          [0, 1, 2, 0, 0, 0, 0, 0, 1, 1, 1, 1, 1, 2, 2, 2] = some s ∧
      all_finished [(5, [1]), (3, [2]), (3, [3])] s ∧
      (s.best_estimation = 3 ∧ s.best_solution_found = [2]) ∧
      (s.best_estimation = ([(5, [1]), (3, [2]), (3, [3])].map Prod.fst).foldl min 10 ∧
        s.best_estimation ≤ 10 ∧
        (∀ c ∈ [(5, [1]), (3, [2]), (3, [3])], s.best_estimation ≤ c.1) ∧
        ((s.best_estimation = 10 ∧ s.best_solution_found = [0]) ∨
          ∃ c ∈ [(5, [1]), (3, [2]), (3, [3])],
            s.best_estimation = c.1 ∧ s.best_solution_found = c.2) ∧
        s.mutex = none) :=
  ⟨_, (Option.some_get leaf_run_example).symm, by unfold all_finished; decide,
    ⟨by decide, by decide⟩,
    C10_concurrent_update_safety _ 10 [0] _ _ (Option.some_get leaf_run_example).symm
      (by unfold all_finished; decide)⟩

/-! ### The calls a call logs -/

theorem calls_at_append (len : Nat) (l1 l2 : List Event) :
    calls_at len (l1 ++ l2) = calls_at len l1 ++ calls_at len l2 := by
  induction l1 with
  | nil => rfl
  | cons ev l1 ih =>
    cases ev with
    | enter r l =>
      by_cases h : l = len
      · simp [calls_at, h, ih]
      · simp [calls_at, h, ih]
    | attempt e r => simpa [calls_at] using ih
    | commit e r => simpa [calls_at] using ih

theorem calls_at_eq_nil {len : Nat} {evs : List Event}
    (h : ∀ r l, Event.enter r l ∈ evs → l ≠ len) : calls_at len evs = [] := by
  induction evs with
  | nil => rfl
  | cons ev evs ih =>
    have ih' := ih (fun r l hm => h r l (List.mem_cons_of_mem ev hm))
    cases ev with
    | enter r l =>
      have := h r l (List.mem_cons_self _ evs)
      simp [calls_at, this, ih']
    | attempt e r => simpa [calls_at] using ih'
    | commit e r => simpa [calls_at] using ih'

theorem new_route_some {route : List Nat} {len c : Nat} {r : List Nat}
    (h : new_route route len c = some r) : len < route.length ∧ r = route.set len c := by
  unfold new_route at h
  by_cases hlt : len < route.length
  · rw [if_pos hlt, Option.some.injEq] at h
    exact ⟨hlt, h.symm⟩
  · rw [if_neg hlt] at h
    exact Option.noConfusion h

theorem foldlM_child_trace {fuel : Nat} {route : List Nat} {len : Nat}
    (hrec : ∀ (s : State) (r : List Nat) (s' : State),
      walk_route_aux fuel s r (len + 1) = some s' →
      ∃ evs, s'.trace = s.trace ++ Event.enter r (len + 1) :: evs ∧
        ∀ r' l', Event.enter r' l' ∈ evs →
          r'.length = r.length ∧ len + 1 < l' ∧ l' ≤ r.length) :
    ∀ (cs : List Nat) (s s' : State), cs.foldlM (child fuel route len) s = some s' →
      ∃ evs, s'.trace = s.trace ++ evs ∧
        (∀ r' l', Event.enter r' l' ∈ evs →
          r'.length = route.length ∧ len < l' ∧ l' ≤ route.length) ∧
        calls_at (len + 1) evs = cs.map (fun c => route.set len c) := by
  intro cs
  induction cs with
  | nil =>
    intro s s' h
    have : s = s' := by simpa using h
    subst this
    exact ⟨[], by simp, by simp, rfl⟩
  | cons c cs ih =>
    intro s s' h
    rw [List.foldlM_cons] at h
    cases hc : child fuel route len s c with
    | none => rw [hc] at h; exact Option.noConfusion h
    | some s1 =>
      rw [hc] at h
      unfold child at hc
      cases hn : new_route route len c with
      | none => rw [hn] at hc; exact Option.noConfusion hc
      | some r =>
        rw [hn] at hc
        obtain ⟨hlt, hr⟩ := new_route_some hn
        have hrl : r.length = route.length := by rw [hr, List.length_set]
        obtain ⟨evs1, ht1, hb1⟩ := hrec s r s1 hc
        obtain ⟨evs2, ht2, hb2, hc2⟩ := ih s1 s' h
        refine ⟨Event.enter r (len + 1) :: evs1 ++ evs2, ?_, ?_, ?_⟩
        · rw [ht2, ht1]
          simp
        · intro r' l' hm
          rcases List.mem_append.mp hm with hm | hm
          · rcases List.mem_cons.mp hm with heq | hm
            · simp only [Event.enter.injEq] at heq
              rw [heq.1, heq.2, hrl]
              omega
            · have := hb1 r' l' hm
              rw [hrl] at this
              omega
          · exact hb2 r' l' hm
        · rw [calls_at_append, hc2]
          have hnil : calls_at (len + 1) evs1 = [] :=
            calls_at_eq_nil (fun r' l' hm => by
              have := hb1 r' l' hm
              omega)
          simp [calls_at, hnil, hr]

/-- The log of a call that returns: its own entry first; every call logged after it
has a route of the same length and a `len` above the call's, at most the length. -/
theorem walk_route_aux_trace :
    ∀ (fuel : Nat) (st : State) (route : List Nat) (len : Nat) (st' : State),
      walk_route_aux fuel st route len = some st' →
      ∃ evs, st'.trace = st.trace ++ Event.enter route len :: evs ∧
        ∀ r' l', Event.enter r' l' ∈ evs →
          r'.length = route.length ∧ len < l' ∧ l' ≤ route.length := by
  intro fuel
  induction fuel with
  | zero =>
    intro st route len st' h
    cases he : estimate route len with
    | none => rw [walk_route_aux_none he] at h; exact Option.noConfusion h
    | some e =>
      by_cases hp : e ≥ st.best_estimation
      · rw [walk_route_aux_pruned he hp, Option.some.injEq] at h
        rw [← h]
        exact ⟨[], rfl, by simp⟩
      · by_cases hfull : route.length = len
        · rw [walk_route_aux_leaf he (not_le.mp hp) hfull, Option.some.injEq] at h
          rw [← h]
          exact ⟨[Event.attempt e route, Event.commit e route], by simp [committed], by simp⟩
        · exfalso
          unfold walk_route_aux at h
          simp only [he, hp, hfull, if_false] at h
          cases hu : unvisited_cities route len with
          | none => rw [hu] at h; exact Option.noConfusion h
          | some cities => rw [hu] at h; exact Option.noConfusion h
  | succ fuel ih =>
    intro st route len st' h
    cases he : estimate route len with
    | none => rw [walk_route_aux_none he] at h; exact Option.noConfusion h
    | some e =>
      by_cases hp : e ≥ st.best_estimation
      · rw [walk_route_aux_pruned he hp, Option.some.injEq] at h
        rw [← h]
        exact ⟨[], rfl, by simp⟩
      · by_cases hfull : route.length = len
        · rw [walk_route_aux_leaf he (not_le.mp hp) hfull, Option.some.injEq] at h
          rw [← h]
          exact ⟨[Event.attempt e route, Event.commit e route], by simp [committed], by simp⟩
        · cases hu : unvisited_cities route len with
          | none =>
            rw [walk_route_aux_branch_none he (not_le.mp hp) hfull hu] at h
            exact Option.noConfusion h
          | some cities =>
            rw [walk_route_aux_branch he (not_le.mp hp) hfull hu] at h
            obtain ⟨evs, ht, hb, -⟩ := foldlM_child_trace (fun s r s' hs => ih s r (len + 1) s' hs)
              cities _ st' h
            exact ⟨evs, by rw [ht]; simp [entered], hb⟩

theorem walk_route_trace {st : State} {route : List Nat} {len : Nat} {st' : State}
    (h : walk_route st route len = some st') :
    ∃ evs, st'.trace = st.trace ++ Event.enter route len :: evs ∧
      ∀ r' l', Event.enter r' l' ∈ evs →
        r'.length = route.length ∧ len < l' ∧ l' ≤ route.length :=
  walk_route_aux_trace _ st route len st' h

/-- C13, as stated, fails when leaf calls overlap.  Two leaf calls run as threads against
the initial pair (302, identity tour).  The first has cost 257, below 302, and passes the
test of line 73; before it takes the mutex, the second stores its cost 231 and its route;
the re-check of line 76 then fails for the first, which returns without having stored
its cost or its route at any moment. -/
theorem C13_counterexample :
    estimate [0, 1, 3, 2, 4] 5 = some 257 ∧ estimate [0, 1, 4, 2, 3] 5 = some 231 ∧
      (257 : Int) < 302 ∧
      (leaf_run [(257, [0, 1, 3, 2, 4]), (231, [0, 1, 4, 2, 3])]
          (leaf_init 302 [0, 1, 2, 3, 4]) [0]).map
        (fun s => (s.pc 0, s.best_estimation)) = some (PC.at_lock, 302) ∧
      (leaf_run [(257, [0, 1, 3, 2, 4]), (231, [0, 1, 4, 2, 3])]
          (leaf_init 302 [0, 1, 2, 3, 4]) [0, 1, 1, 1, 1, 1, 1, 0, 0, 0]).map
        (fun s => (s.pc 0, s.pc 1, s.best_estimation, s.best_solution_found)) =
        some (PC.finished, PC.finished, 231, [0, 1, 4, 2, 3]) ∧
      ∀ n ≤ 10,
        (leaf_run [(257, [0, 1, 3, 2, 4]), (231, [0, 1, 4, 2, 3])]
            (leaf_init 302 [0, 1, 2, 3, 4]) ([0, 1, 1, 1, 1, 1, 1, 0, 0, 0].take n)).map
          (fun s => decide (s.best_estimation = 257 ∨
            s.best_solution_found = [0, 1, 3, 2, 4])) = some false := by
  decide

/-- C13 (leaf update), amended.  When no other call runs in between, a call of
`walk_route` on a complete route whose full tour cost `c = estimate(route, N)` is
strictly below `best_estimation` sets `best_estimation` to `c` and `best_solution_found`
to exactly that route and logs its entry, the attempt and the assignment only; and
whatever the outcome, a call on a complete route logs no call besides its own entry: a
leaf never recurses.  When the statements of leaf updates of several threads interleave,
a task whose cost is below `best_estimation` at its re-check under the mutex (line 76)
makes both assignments, and at the moment it is about to release the mutex
`best_estimation` is its cost and `best_solution_found` its route, whatever the other
tasks do in between; a task whose re-check fails stores nothing; and a task that has
returned takes no further step. -/
theorem C13_leaf_update :
    (∀ (st : State) (route : List Nat) (c : Int), estimate route route.length = some c →
      (c < st.best_estimation →
        ∃ st', walk_route st route route.length = some st' ∧
          st'.best_estimation = c ∧ st'.best_solution_found = route ∧
          st'.trace = st.trace ++ [Event.enter route route.length, Event.attempt c route,
            Event.commit c route]) ∧
      ∃ st', walk_route st route route.length = some st' ∧
        ∃ evs, st'.trace = st.trace ++ Event.enter route route.length :: evs ∧
          ∀ r l, Event.enter r l ∉ evs) ∧
    (∀ (cands : List (Int × List Nat)) (best : Int) (route0 : List Nat) (sched : List Nat)
        (s : Shared) (i : Nat) (e : Int) (r : List Nat),
      leaf_run cands (leaf_init best route0) sched = some s →
      cands[i]? = some (e, r) → s.pc i = PC.at_recheck →
      (e < s.best_estimation →
        (∃ s3, leaf_run cands s [i, i, i] = some s3 ∧ s3.pc i = PC.at_unlock ∧
          s3.best_estimation = e ∧ s3.best_solution_found = r) ∧
        ∀ sched2 s2, leaf_run cands s sched2 = some s2 → s2.pc i = PC.at_unlock →
          s2.best_estimation = e ∧ s2.best_solution_found = r) ∧
      (¬ e < s.best_estimation →
        ∃ s1, leaf_step cands s i = some s1 ∧ s1.pc i = PC.at_unlock ∧
          s1.best_estimation = s.best_estimation ∧
          s1.best_solution_found = s.best_solution_found)) ∧
    (∀ (cands : List (Int × List Nat)) (s : Shared) (i : Nat),
      s.pc i = PC.finished → leaf_step cands s i = none) := by
  refine ⟨?_, ?_, ?_⟩
  · intro st route c hc
    constructor
    · intro hlt
      exact ⟨_, walk_route_aux_leaf hc hlt rfl, rfl, rfl, by simp [committed]⟩
    · by_cases hp : c ≥ st.best_estimation
      · exact ⟨_, walk_route_aux_pruned hc hp, [], rfl, by simp⟩
      · exact ⟨_, walk_route_aux_leaf hc (not_le.mp hp) rfl,
          [Event.attempt c route, Event.commit c route], by simp [committed], by simp⟩
  · intro cands best route0 sched s i e r hrun hc hpc
    have h := leaf_run_inv sched _ s (leaf_init_inv cands best route0) hrun
    constructor
    · intro hlt
      refine ⟨leaf_store_steps hc hpc hlt, ?_⟩
      intro sched2 s2 hrun2 hpc2
      have hst := storing_run hc sched2 s s2 h (Or.inl ⟨hpc, hlt⟩) hrun2
      rcases hst with ⟨hp, -⟩ | hp | ⟨hp, -⟩ | ⟨-, hb, hr⟩ | hp
      · rw [hpc2] at hp; exact PC.noConfusion hp
      · rw [hpc2] at hp; exact PC.noConfusion hp
      · rw [hpc2] at hp; exact PC.noConfusion hp
      · exact ⟨hb, hr⟩
      · rw [hpc2] at hp; exact PC.noConfusion hp
    · intro hge
      exact leaf_skip_step hc hpc hge
  · intro cands s i hpc
    unfold leaf_step
    cases hc : cands[i]? with
    | none => rfl
    | some c => simp only [hpc]

theorem leaf_recheck_example :
    (leaf_run [(257, [0, 1, 3, 2, 4]), (231, [0, 1, 4, 2, 3])]
      (leaf_init 302 [0, 1, 2, 3, 4]) [0, 1, 0]).isSome = true := by
  decide

theorem C13_leaf_update_witness :
    estimate [0, 1, 4, 2, 3] [0, 1, 4, 2, 3].length = some 231 ∧ (231 : Int) < 324 ∧
      ((231 < (324 : Int) →
        ∃ st', walk_route ⟨324, [0, 1, 2, 3, 4], []⟩ [0, 1, 4, 2, 3] [0, 1, 4, 2, 3].length =
            some st' ∧
          st'.best_estimation = 231 ∧ st'.best_solution_found = [0, 1, 4, 2, 3] ∧
          st'.trace = [] ++ [Event.enter [0, 1, 4, 2, 3] [0, 1, 4, 2, 3].length,
            Event.attempt 231 [0, 1, 4, 2, 3], Event.commit 231 [0, 1, 4, 2, 3]]) ∧
      ∃ st', walk_route ⟨324, [0, 1, 2, 3, 4], []⟩ [0, 1, 4, 2, 3] [0, 1, 4, 2, 3].length =
          some st' ∧
        ∃ evs, st'.trace = [] ++ Event.enter [0, 1, 4, 2, 3] [0, 1, 4, 2, 3].length :: evs ∧
          ∀ r l, Event.enter r l ∉ evs) ∧
      (leaf_run [(257, [0, 1, 3, 2, 4]), (231, [0, 1, 4, 2, 3])]
          (leaf_init 302 [0, 1, 2, 3, 4]) [0, 1, 0, 0, 0, 0]).map
        (fun s => (s.pc 0, s.pc 1, s.best_estimation, s.best_solution_found)) =
        some (PC.at_unlock, PC.at_lock, 257, [0, 1, 3, 2, 4]) ∧
      ∃ s, leaf_run [(257, [0, 1, 3, 2, 4]), (231, [0, 1, 4, 2, 3])]
          (leaf_init 302 [0, 1, 2, 3, 4]) [0, 1, 0] = some s ∧
        [((257 : Int), [0, 1, 3, 2, 4]), (231, [0, 1, 4, 2, 3])][0]? =
          some (257, [0, 1, 3, 2, 4]) ∧
        s.pc 0 = PC.at_recheck ∧ 257 < s.best_estimation ∧
        (∃ s3, leaf_run [(257, [0, 1, 3, 2, 4]), (231, [0, 1, 4, 2, 3])] s [0, 0, 0] =
            some s3 ∧ s3.pc 0 = PC.at_unlock ∧
          s3.best_estimation = 257 ∧ s3.best_solution_found = [0, 1, 3, 2, 4]) ∧
        ∀ sched2 s2, leaf_run [(257, [0, 1, 3, 2, 4]), (231, [0, 1, 4, 2, 3])] s sched2 =
            some s2 → s2.pc 0 = PC.at_unlock →
          s2.best_estimation = 257 ∧ s2.best_solution_found = [0, 1, 3, 2, 4] :=
  ⟨by decide, by decide,
    C13_leaf_update.1 ⟨324, [0, 1, 2, 3, 4], []⟩ [0, 1, 4, 2, 3] 231 (by decide),
    by decide,
    _, (Option.some_get leaf_recheck_example).symm, by decide, by decide, by decide,
    (C13_leaf_update.2.1 [(257, [0, 1, 3, 2, 4]), (231, [0, 1, 4, 2, 3])]
      302 [0, 1, 2, 3, 4] [0, 1, 0] _ 0 257 [0, 1, 3, 2, 4]
      (Option.some_get leaf_recheck_example).symm (by decide) (by decide)).1 (by decide)⟩

theorem main_search_eq {N : Nat} (h0 : 0 < N) (hN : N ≤ 15) :
    main_search N =
      walk_route { best_estimation := tour_cost (List.range N),
                   best_solution_found := List.range N, trace := [] }
        ((List.replicate N 0).set 0 0) 1 := by
  unfold main_search
  rw [main_init_eq h0 hN]
  have hnr : new_route (List.replicate N 0) 0 0 = some ((List.replicate N 0).set 0 0) :=
    new_route_eq (by simpa using h0) 0
  simp only [hnr]

/-- The entry call is the first event of the log of `main`'s search. -/
theorem main_search_root {N : Nat} (h0 : 0 < N) (hN : N ≤ 15) {st : State}
    (h : main_search N = some st) :
    ∃ evs, st.trace = Event.enter ((List.replicate N 0).set 0 0) 1 :: evs := by
  rw [main_search_eq h0 hN] at h
  obtain ⟨evs, ht, -⟩ := walk_route_trace h
  exact ⟨evs, by simpa using ht⟩

/-- C15 (route-state invariant): for every `N` from 5 to 15 the search of `main` returns;
its log starts with the entry call `walk_route(route, 1)`, and in every call
`walk_route(route, len)` it logs the route has length `N`, `1 <= len <= N`, the first
`len` entries are pairwise distinct city indices below `N`, and `route[0]` is city 0.
The same holds of every call that is pending when the started calls run in any order. -/
theorem C15_route_state_invariant (N : Nat) (h5 : 5 ≤ N) (h15 : N ≤ 15) :
    (∃ st, main_search N = some st ∧
      (∃ evs, st.trace = Event.enter ((List.replicate N 0).set 0 0) 1 :: evs) ∧
      ∀ route len, Event.enter route len ∈ st.trace →
        route.length = N ∧ 1 ≤ len ∧ len ≤ N ∧ (route.take len).Nodup ∧
          (∀ c ∈ route.take len, c < N) ∧ route[0]? = some 0) ∧
    ∀ s0 sched s, pool_init N = some s0 → pool_run s0 sched = some s →
      ∀ route len, (route, len) ∈ s.pending →
        route.length = N ∧ 1 ≤ len ∧ len ≤ N ∧ (route.take len).Nodup ∧
          (∀ c ∈ route.take len, c < N) ∧ route[0]? = some 0 := by
  have h0 : 0 < N := by omega
  constructor
  · obtain ⟨st, hst, -, -, -, evs, htr, hev⟩ := main_search_spec h0 h15
    refine ⟨st, hst, main_search_root h0 h15 hst, ?_⟩
    intro route len hmem
    rw [htr, List.nil_append] at hmem
    obtain ⟨hl, h1, h2, hnd, hlt, hh⟩ : RouteOK N route len := hev _ hmem
    exact ⟨hl, h1, h2, hnd, hlt, by rw [← List.head?_eq_getElem?]; exact hh⟩
  · intro s0 sched s hinit hrun route len hmem
    rw [pool_init_eq h0 h15, Option.some.injEq] at hinit
    subst hinit
    obtain ⟨-, hok, -⟩ := pool_run_inv h15 sched _ s (pool_init_inv h0) hrun
    obtain ⟨hl, h1, h2, hnd, hlt, hh⟩ : RouteOK N route len := hok (route, len) hmem
    exact ⟨hl, h1, h2, hnd, hlt, by rw [← List.head?_eq_getElem?]; exact hh⟩

theorem C15_route_state_invariant_witness :
    5 ≤ 5 ∧ 5 ≤ 15 ∧
      ((∃ st, main_search 5 = some st ∧
        (∃ evs, st.trace = Event.enter ((List.replicate 5 0).set 0 0) 1 :: evs) ∧
        ∀ route len, Event.enter route len ∈ st.trace →
          route.length = 5 ∧ 1 ≤ len ∧ len ≤ 5 ∧ (route.take len).Nodup ∧
            (∀ c ∈ route.take len, c < 5) ∧ route[0]? = some 0) ∧
      ∀ s0 sched s, pool_init 5 = some s0 → pool_run s0 sched = some s →
        ∀ route len, (route, len) ∈ s.pending →
          route.length = 5 ∧ 1 ≤ len ∧ len ≤ 5 ∧ (route.take len).Nodup ∧
            (∀ c ∈ route.take len, c < 5) ∧ route[0]? = some 0) :=
  ⟨by decide, by decide, C15_route_state_invariant 5 (by decide) (by decide)⟩

/-- C16: the caller-error case of `estimate` does not occur during `main`'s search.  For
every `N` from 5 to 15 the search returns; the initial call `estimate(identity, N)` and
the call `estimate(route, len)` of every logged `walk_route(route, len)` have
`1 <= len <= route.size()` and a result that is not the sentinel; and in every call
that is not a leaf, `len < route.size()`, so the write `new_route[len]` is in range.
The same holds of every call that is pending when the started calls run in any order,
and every pending call can run. -/
theorem C16_estimate_caller_error_unreachable (N : Nat) (h5 : 5 ≤ N) (h15 : N ≤ 15) :
    (∃ st, main_search N = some st ∧
      (1 ≤ N ∧ N ≤ (List.range N).length ∧
        ∃ e, estimate (List.range N) N = some e ∧ 0 ≤ e) ∧
      ∀ route len, Event.enter route len ∈ st.trace →
        1 ≤ len ∧ len ≤ route.length ∧ ¬ route.length < len ∧
          (∃ e, estimate route len = some e ∧ 0 ≤ e) ∧
          (route.length ≠ len →
            len < route.length ∧ ∀ c, new_route route len c = some (route.set len c))) ∧
    ∀ s0 sched s, pool_init N = some s0 → pool_run s0 sched = some s →
      (∀ route len, (route, len) ∈ s.pending →
        1 ≤ len ∧ len ≤ route.length ∧ ¬ route.length < len ∧
          (∃ e, estimate route len = some e ∧ 0 ≤ e) ∧
          (route.length ≠ len →
            len < route.length ∧ ∀ c, new_route route len c = some (route.set len c))) ∧
      ∀ k < s.pending.length, ∃ s', pool_step s k = some s' := by
  have h0 : 0 < N := by omega
  have hcall : ∀ route len, RouteOK N route len →
      1 ≤ len ∧ len ≤ route.length ∧ ¬ route.length < len ∧
        (∃ e, estimate route len = some e ∧ 0 ≤ e) ∧
        (route.length ≠ len →
          len < route.length ∧ ∀ c, new_route route len c = some (route.set len c)) := by
    intro route len hr
    have hlen : len ≤ route.length := by rw [hr.1]; exact hr.2.2.1
    refine ⟨hr.2.1, hlen, by omega, ?_, ?_⟩
    · obtain ⟨e, he, hnn, -⟩ := estimate_le hlen
        (List.ne_nil_of_length_pos (by rw [hr.1]; exact h0))
        (fun k hk => lt_of_lt_of_le (routeOK_city_lt hr hk) h15)
        (by have := hr.1; omega)
      exact ⟨e, he, hnn⟩
    · intro hne
      have hlt : len < route.length := by omega
      exact ⟨hlt, fun c => new_route_eq hlt c⟩
  constructor
  · obtain ⟨st, hst, -, -, -, evs, htr, hev⟩ := main_search_spec h0 h15
    refine ⟨st, hst, ⟨by omega, by simp, ?_⟩, ?_⟩
    · have ht := tour_estimate h15 h0 (tour_range h0)
      rw [List.length_range] at ht
      refine ⟨_, ht, ?_⟩
      unfold tour_cost
      have := prefix_cost_nonneg (List.range N) (List.range N).length
      have := closing_edge_nonneg (List.range N) (List.range N).length
      omega
    · intro route len hmem
      rw [htr, List.nil_append] at hmem
      exact hcall route len (hev _ hmem)
  · intro s0 sched s hinit hrun
    rw [pool_init_eq h0 h15, Option.some.injEq] at hinit
    subst hinit
    have hinv := pool_run_inv h15 sched _ s (pool_init_inv h0) hrun
    exact ⟨fun route len hmem => hcall route len (hinv.2.1 (route, len) hmem),
      fun k hk => pool_progress h15 hinv hk⟩

theorem C16_estimate_caller_error_unreachable_witness :
    5 ≤ 5 ∧ 5 ≤ 15 ∧
      ((∃ st, main_search 5 = some st ∧
        (1 ≤ 5 ∧ 5 ≤ (List.range 5).length ∧
          ∃ e, estimate (List.range 5) 5 = some e ∧ 0 ≤ e) ∧
        ∀ route len, Event.enter route len ∈ st.trace →
          1 ≤ len ∧ len ≤ route.length ∧ ¬ route.length < len ∧
            (∃ e, estimate route len = some e ∧ 0 ≤ e) ∧
            (route.length ≠ len →
              len < route.length ∧ ∀ c, new_route route len c = some (route.set len c))) ∧
      ∀ s0 sched s, pool_init 5 = some s0 → pool_run s0 sched = some s →
        (∀ route len, (route, len) ∈ s.pending →
          1 ≤ len ∧ len ≤ route.length ∧ ¬ route.length < len ∧
            (∃ e, estimate route len = some e ∧ 0 ≤ e) ∧
            (route.length ≠ len →
              len < route.length ∧ ∀ c, new_route route len c = some (route.set len c))) ∧
        ∀ k < s.pending.length, ∃ s', pool_step s k = some s') :=
  ⟨by decide, by decide, C16_estimate_caller_error_unreachable 5 (by decide) (by decide)⟩

/-- C17 (termination): for every route of length `N` and every `len`, the recursion of
`walk_route(route, len)` never goes deeper than `N - len` (any larger bound on its
depth gives the same result); every call it logs besides its own entry has a route of
length `N` and a `len` from `len + 1` to `N`, so the measure `N - len` strictly
decreases; a call with `len = N` logs no call besides its own entry; and every
well-formed call, in particular every one with `1 <= len <= N` on a route of cities,
returns. -/
theorem C17_termination (st : State) (route : List Nat) (len : Nat) :
    (∀ fuel, route.length - len ≤ fuel →
      walk_route_aux fuel st route len = walk_route st route len) ∧
    (∀ st', walk_route st route len = some st' →
      ∃ evs, st'.trace = st.trace ++ Event.enter route len :: evs ∧
        (∀ r l, Event.enter r l ∈ evs →
          r.length = route.length ∧ len + 1 ≤ l ∧ l ≤ route.length ∧
            route.length - l < route.length - len) ∧
        (len = route.length → ∀ r l, Event.enter r l ∉ evs)) ∧
    (CallOK route len → ∃ st', walk_route st route len = some st') := by
  refine ⟨fun fuel hf => walk_route_aux_fuel fuel st route len hf, ?_,
    fun h => walk_route_returns h st⟩
  intro st' hst'
  obtain ⟨evs, htr, hb⟩ := walk_route_trace hst'
  refine ⟨evs, htr, ?_, ?_⟩
  · intro r l hm
    have := hb r l hm
    omega
  · intro hfull r l hm
    have := hb r l hm
    omega

theorem C17_termination_witness :
    CallOK [0, 3, 0, 0, 0] 2 ∧
      (walk_route ⟨324, [0, 1, 2, 3, 4], []⟩ [0, 3, 0, 0, 0] 2).map
          (fun s => (s.best_estimation, s.trace.length)) = some (231, 20) ∧
      ∃ st', walk_route ⟨324, [0, 1, 2, 3, 4], []⟩ [0, 3, 0, 0, 0] 2 = some st' ∧
        ∃ evs, st'.trace = [] ++ Event.enter [0, 3, 0, 0, 0] 2 :: evs ∧
          (∀ r l, Event.enter r l ∈ evs →
            r.length = [0, 3, 0, 0, 0].length ∧ 2 + 1 ≤ l ∧ l ≤ [0, 3, 0, 0, 0].length ∧
              [0, 3, 0, 0, 0].length - l < [0, 3, 0, 0, 0].length - 2) ∧
          (2 = [0, 3, 0, 0, 0].length → ∀ r l, Event.enter r l ∉ evs) := by
  obtain ⟨h1, h2, h3⟩ := C17_termination ⟨324, [0, 1, 2, 3, 4], []⟩ [0, 3, 0, 0, 0] 2
  have hc : CallOK [0, 3, 0, 0, 0] 2 := ⟨by decide, by decide, by decide, by decide⟩
  obtain ⟨st', hst'⟩ := h3 hc
  exact ⟨hc, by decide!, st', hst', h2 st' hst'⟩

theorem city_range {N k : Nat} (hk : k < N) : city (List.range N) k = k := by
  simp [city, List.getD_eq_getElem?_getD, List.getElem?_range hk]

theorem tour_cost_range {N : Nat} (h0 : 0 < N) :
    tour_cost (List.range N) =
      ((List.range (N - 1)).map (fun i => dist i (i + 1))).sum + dist (N - 1) 0 := by
  unfold tour_cost prefix_cost closing_edge
  rw [List.length_range, city_range (by omega : N - 1 < N), city_range h0]
  congr 1
  rw [List.range'_eq_map_range, List.map_map]
  congr 1
  apply List.map_congr_left
  intro i hi
  rw [List.mem_range] at hi
  simp only [Function.comp_def, Nat.zero_add]
  rw [show 1 + i - 1 = i by omega, show 1 + i = i + 1 by omega,
    city_range (by omega : i < N), city_range (by omega : i + 1 < N)]

/-- C18 (initial best solution): for every `N` from 5 to 15, the state with which `main`
makes the entry call has `best_solution_found` equal to the identity tour
`(0, 1, ..., N-1)` and `best_estimation` equal to `estimate(identity, N)`, which is the
sum of `distance_map[i][i+1]` for `i = 0..N-2` plus `distance_map[N-1][0]`. -/
theorem C18_initial_best (N : Nat) (h5 : 5 ≤ N) (h15 : N ≤ 15) :
    ∃ st0, main_init N = some st0 ∧
      st0.best_solution_found = List.range N ∧
      estimate (List.range N) N = some st0.best_estimation ∧
      st0.best_estimation =
        ((List.range (N - 1)).map (fun i => dist i (i + 1))).sum + dist (N - 1) 0 ∧
      (∀ i < N, ∀ j < N, distance_map i j = some (dist i j)) ∧
      main_search N = walk_route st0 ((List.replicate N 0).set 0 0) 1 := by
  have h0 : 0 < N := by omega
  refine ⟨_, main_init_eq h0 h15, rfl, ?_, tour_cost_range h0, ?_, main_search_eq h0 h15⟩
  · have ht := tour_estimate h15 h0 (tour_range h0)
    rw [List.length_range] at ht
    exact ht
  · intro i hi j hj
    exact distance_map_some i (by omega) j (by omega)

theorem C18_initial_best_witness :
    5 ≤ 5 ∧ 5 ≤ 15 ∧
      (main_init 5).map (fun s => (s.best_estimation, s.best_solution_found)) =
        some (29 + 55 + 68 + 82 + 68, [0, 1, 2, 3, 4]) ∧
      ∃ st0, main_init 5 = some st0 ∧
        st0.best_solution_found = List.range 5 ∧
        estimate (List.range 5) 5 = some st0.best_estimation ∧
        st0.best_estimation =
          ((List.range (5 - 1)).map (fun i => dist i (i + 1))).sum + dist (5 - 1) 0 ∧
        (∀ i < 5, ∀ j < 5, distance_map i j = some (dist i j)) ∧
        main_search 5 = walk_route st0 ((List.replicate 5 0).set 0 0) 1 :=
  ⟨by decide, by decide, by decide, C18_initial_best 5 (by decide) (by decide)⟩

/-- C20, as stated, fails for the empty route with `len = 0`: every entry is a table
index and `len <= route.size()`, yet `estimate` has no result there, because the
closing edge reads `solution[len - 1]` and `solution[0]` of an empty vector. -/
theorem C20_counterexample :
    (∀ c ∈ ([] : List Nat), c < 15) ∧ 0 ≤ ([] : List Nat).length ∧
      estimate [] 0 = none ∧ ¬ ∃ e, estimate [] 0 = some e ∧ 0 ≤ e := by
  refine ⟨by simp, by simp, by decide, ?_⟩
  rintro ⟨e, he, -⟩
  have hnone : estimate [] 0 = none := by decide
  rw [hnone] at he
  exact Option.noConfusion he

/-- C20 (error sentinel of `estimate`), amended: for every route whose entries are table
indices and every `len`, except the empty route with `len = 0`, and provided that for
`len <= route.size()` the sum of the edges is at most `INT_MAX`, `estimate(route, len)`
returns a value; the value is -1 if and only if `len > route.size()`, and for
`len <= route.size()` it is at least 0.  The sum is at most `INT_MAX` whenever
`len <= 26188824`. -/
theorem C20_error_sentinel (route : List Nat) (len : Nat) (hv : ∀ c ∈ route, c < 15)
    (hne : route ≠ [] ∨ len ≠ 0) :
    ((len ≤ route.length →
        prefix_cost route len + (if route.length = len then closing_edge route len else 0)
          ≤ INT_MAX) →
      ∃ e, estimate route len = some e ∧ (e = -1 ↔ route.length < len) ∧
        (len ≤ route.length → 0 ≤ e)) ∧
    (len ≤ 26188824 → len ≤ route.length →
      prefix_cost route len + (if route.length = len then closing_edge route len else 0)
        ≤ INT_MAX) := by
  have hne' : len ≤ route.length → route ≠ [] := by
    intro hlen
    rcases hne with h | h
    · exact h
    · intro hnil
      rw [hnil] at hlen
      simp at hlen
      exact h hlen
  constructor
  · intro hfit
    by_cases hlt : route.length < len
    · refine ⟨-1, ?_, by simp [hlt], fun h => by omega⟩
      unfold estimate
      rw [if_pos hlt]
    · have hlen : len ≤ route.length := by omega
      have hvk := city_lt_of_forall_mem hv hlen
      have hnn := (cost_bounds hlen (hne' hlen) hvk).1
      refine ⟨_, estimate_eq_fit hlen (hne' hlen) hvk (hfit hlen), ?_, fun _ => hnn⟩
      constructor
      · intro h
        omega
      · intro h
        omega
  · intro hsmall hlen
    exact cost_fits hlen (hne' hlen) (city_lt_of_forall_mem hv hlen) hsmall

theorem C20_error_sentinel_witness :
    estimate [0, 1, 2] 4 = some (-1) ∧ estimate [0, 1, 2] 3 = some 166 ∧
      estimate [] 1 = some (-1) ∧
      (∀ c ∈ [0, 1, 2], c < 15) ∧ ([0, 1, 2] ≠ [] ∨ 3 ≠ 0) ∧
      (3 ≤ [0, 1, 2].length →
        prefix_cost [0, 1, 2] 3 +
          (if [0, 1, 2].length = 3 then closing_edge [0, 1, 2] 3 else 0) ≤ INT_MAX) ∧
      ∃ e, estimate [0, 1, 2] 3 = some e ∧ (e = -1 ↔ [0, 1, 2].length < 3) ∧
        (3 ≤ [0, 1, 2].length → 0 ≤ e) :=
  ⟨by decide, by decide, by decide, by decide, by decide, by decide,
    (C20_error_sentinel [0, 1, 2] 3 (by decide) (by decide)).1 (by decide)⟩

/-! ### The children of a call -/

theorem unvisited_sorted (route : List Nat) (len : Nat) :
    ((List.range route.length).filter (fun c => decide (c ∉ route.take len))).Sorted
      (fun a b => a < b) :=
  (List.sorted_lt_range route.length).filter _

/-- With a duplicate-free prefix of cities below the length of the route, as many cities
are unvisited as positions are open. -/
theorem unvisited_length {route : List Nat} {len : Nat} (hlen : len ≤ route.length)
    (hnd : (route.take len).Nodup) (hlt : ∀ c ∈ route.take len, c < route.length) :
    ((List.range route.length).filter (fun c => decide (c ∉ route.take len))).length =
      route.length - len := by
  have hsplit := List.length_eq_length_filter_add (l := List.range route.length)
    (fun c => decide (c ∈ route.take len))
  have hvis : ((List.range route.length).filter
      (fun c => decide (c ∈ route.take len))).length = len := by
    have hperm : ((List.range route.length).filter
        (fun c => decide (c ∈ route.take len))).Perm (route.take len) := by
      apply List.Subperm.antisymm
      · apply ((List.nodup_range _).filter _).subperm
        intro x hx
        simpa using (List.mem_filter.mp hx).2
      · apply hnd.subperm
        intro x hx
        exact List.mem_filter.mpr ⟨List.mem_range.mpr (hlt x hx), by simpa using hx⟩
    rw [hperm.length_eq, List.length_take]
    omega
  rw [List.length_range] at hsplit
  have heq : (List.range route.length).filter (fun c => decide (c ∉ route.take len)) =
      (List.range route.length).filter (fun c => !decide (c ∈ route.take len)) := by
    apply List.filter_congr
    intro x _
    simp
  rw [heq]
  omega

/-- A call that is neither pruned nor a leaf is the calls on its children, one after
the other over the unvisited cities. -/
theorem walk_route_branch {st : State} {route : List Nat} {len : Nat} {e : Int}
    (hlen : len < route.length) (he : estimate route len = some e)
    (hp : e < st.best_estimation) :
    walk_route st route len =
      ((List.range route.length).filter (fun c => decide (c ∉ route.take len))).foldlM
        (fun s c => walk_route s (route.set len c) (len + 1)) (entered st route len) := by
  obtain ⟨k, hk⟩ : ∃ k, route.length - len = k + 1 := ⟨route.length - len - 1, by omega⟩
  unfold walk_route
  rw [hk, walk_route_aux_branch he hp (by omega) (unvisited_cities_eq route len (le_of_lt hlen))]
  apply foldlM_congr_fun
  intro s c
  unfold child
  rw [new_route_eq hlen]
  simp only
  have hk' : (route.set len c).length - (len + 1) = k := by
    rw [List.length_set]
    omega
  rw [hk']

/-- C14, as stated, fails when the prefix holds an entry that is no city of the route:
for the route `(0, 7, 0, 0, 0)` with `len = 2` the prefix `(0, 7)` has no repeats and
the call is not pruned, yet the call recurses for the four cities 1, 2, 3, 4 and not
for `N - len = 3`. -/
theorem C14_counterexample :
    (List.take 2 [0, 7, 0, 0, 0]).Nodup ∧ estimate [0, 7, 0, 0, 0] 2 = some 42 ∧
      (42 : Int) < 1000 ∧ unvisited_cities [0, 7, 0, 0, 0] 2 = some [1, 2, 3, 4] ∧
      (walk_route ⟨1000, [0, 1, 2, 3, 4], []⟩ [0, 7, 0, 0, 0] 2).map
          (fun s => calls_at 3 s.trace) =
        some [[0, 7, 1, 0, 0], [0, 7, 2, 0, 0], [0, 7, 3, 0, 0], [0, 7, 4, 0, 0]] ∧
      [1, 2, 3, 4].length ≠ [0, 7, 0, 0, 0].length - 2 := by
  refine ⟨by decide, by decide, by decide, by decide, by decide!, by decide⟩

/-- C14 (branching), amended: for every route of length `N` and `len < N` that is not
pruned, `walk_route(route, len)` is the sequence of the calls
`walk_route(child, len + 1)` over the cities of `[0, N)` that do not occur among
`route[0..len-1]`, each exactly once and in ascending order, where the child for a
city is the copy of the route with that city at position `len`; these are the calls
it logs with `len + 1`.  When the prefix has no repeats and holds only cities below
`N`, these are exactly `N - len` children. -/
theorem C14_branching (st : State) (route : List Nat) (len : Nat) (e : Int)
    (hlen : len < route.length) (he : estimate route len = some e)
    (hp : e < st.best_estimation) :
    ∃ cities, unvisited_cities route len = some cities ∧
      cities.Sorted (fun a b => a < b) ∧
      (∀ c, c ∈ cities ↔ c < route.length ∧ c ∉ route.take len) ∧
      walk_route st route len =
        cities.foldlM (fun s c => walk_route s (route.set len c) (len + 1))
          (entered st route len) ∧
      (∀ c, (route.set len c).length = route.length ∧ (route.set len c)[len]? = some c ∧
        ∀ k, k ≠ len → (route.set len c)[k]? = route[k]?) ∧
      (∀ st', walk_route st route len = some st' →
        ∃ evs, st'.trace = st.trace ++ Event.enter route len :: evs ∧
          calls_at (len + 1) evs = cities.map (fun c => route.set len c)) ∧
      (CallOK route len → ∃ st', walk_route st route len = some st') ∧
      ((route.take len).Nodup → (∀ c ∈ route.take len, c < route.length) →
        cities.length = route.length - len) := by
  refine ⟨_, unvisited_cities_eq route len (le_of_lt hlen), unvisited_sorted route len,
    fun c => mem_unvisited, walk_route_branch hlen he hp, ?_, ?_,
    fun hc => walk_route_returns hc st, unvisited_length (le_of_lt hlen)⟩
  · intro c
    refine ⟨List.length_set _ _ _, ?_, ?_⟩
    · rw [List.getElem?_set]
      simp [hlen]
    · intro k hk
      rw [List.getElem?_set, if_neg (fun h : len = k => hk h.symm)]
  · intro st' hst'
    obtain ⟨k, hk⟩ : ∃ k, route.length - len = k + 1 := ⟨route.length - len - 1, by omega⟩
    unfold walk_route at hst'
    rw [hk, walk_route_aux_branch he hp (by omega)
      (unvisited_cities_eq route len (le_of_lt hlen))] at hst'
    obtain ⟨evs, ht, -, hc⟩ := foldlM_child_trace
      (fun s r s' hs => walk_route_aux_trace k s r (len + 1) s' hs) _ _ st' hst'
    exact ⟨evs, by rw [ht]; simp [entered], hc⟩

theorem C14_branching_witness :
    2 < [0, 3, 0, 0, 0].length ∧ estimate [0, 3, 0, 0, 0] 2 = some 46 ∧ (46 : Int) < 324 ∧
      unvisited_cities [0, 3, 0, 0, 0] 2 = some [1, 2, 4] ∧
      ∃ cities, unvisited_cities [0, 3, 0, 0, 0] 2 = some cities ∧
        cities.Sorted (fun a b => a < b) ∧
        (∀ c, c ∈ cities ↔ c < [0, 3, 0, 0, 0].length ∧ c ∉ [0, 3, 0, 0, 0].take 2) ∧
        walk_route ⟨324, [0, 1, 2, 3, 4], []⟩ [0, 3, 0, 0, 0] 2 =
          cities.foldlM (fun s c => walk_route s ([0, 3, 0, 0, 0].set 2 c) (2 + 1))
            (entered ⟨324, [0, 1, 2, 3, 4], []⟩ [0, 3, 0, 0, 0] 2) ∧
        (∀ c, ([0, 3, 0, 0, 0].set 2 c).length = [0, 3, 0, 0, 0].length ∧
          ([0, 3, 0, 0, 0].set 2 c)[2]? = some c ∧
          ∀ k, k ≠ 2 → ([0, 3, 0, 0, 0].set 2 c)[k]? = [0, 3, 0, 0, 0][k]?) ∧
        (∀ st', walk_route ⟨324, [0, 1, 2, 3, 4], []⟩ [0, 3, 0, 0, 0] 2 = some st' →
          ∃ evs, st'.trace = [] ++ Event.enter [0, 3, 0, 0, 0] 2 :: evs ∧
            calls_at (2 + 1) evs = cities.map (fun c => [0, 3, 0, 0, 0].set 2 c)) ∧
        (CallOK [0, 3, 0, 0, 0] 2 →
          ∃ st', walk_route ⟨324, [0, 1, 2, 3, 4], []⟩ [0, 3, 0, 0, 0] 2 = some st') ∧
        (([0, 3, 0, 0, 0].take 2).Nodup →
          (∀ c ∈ [0, 3, 0, 0, 0].take 2, c < [0, 3, 0, 0, 0].length) →
          cities.length = [0, 3, 0, 0, 0].length - 2) :=
  ⟨by decide, by decide, by decide, by decide,
    C14_branching ⟨324, [0, 1, 2, 3, 4], []⟩ [0, 3, 0, 0, 0] 2 46 (by decide) (by decide)
      (by decide)⟩

/-! ### Ties: the first optimal tour in lexicographic order is kept -/

theorem lexBefore_mono {b b' : Nat} {p q : List Nat} (h : LexBefore b p q) (hb : b ≤ b') :
    LexBefore b' p q := by
  obtain ⟨k, hk, ht, hc⟩ := h
  exact ⟨k, by omega, ht, hc⟩

/-- The lexicographic order of lists of equal length, by the first difference. -/
theorem lexBefore_of_lt : ∀ {p q : List Nat}, p < q → p.length = q.length →
    LexBefore p.length p q := by
  intro p q h
  induction h with
  | nil => intro hl; simp at hl
  | cons _ ih =>
    intro hl
    obtain ⟨k, hk, ht, hc⟩ := ih (by simpa using hl)
    refine ⟨k + 1, by simpa using hk, by simpa using ht, ?_⟩
    simpa [city] using hc
  | rel hab =>
    intro _
    exact ⟨0, by simp, by simp, by simpa [city] using hab⟩

/-- No tour comes before the identity tour. -/
theorem not_lexBefore_range {N : Nat} {p : List Nat} (hp : Tour N p) :
    ¬ LexBefore N p (List.range N) := by
  rintro ⟨k, hk, ht, hc⟩
  have hpl := tour_length hp
  have hkp : k < p.length := by omega
  rw [city_range hk] at hc
  have hmem : city p k ∈ p.take k := by
    rw [ht, List.take_range, List.mem_range, min_eq_left (le_of_lt hk)]
    exact hc
  have hnd : (p.take (k + 1)).Nodup := (tour_nodup hp).sublist (List.take_sublist _ _)
  rw [take_succ_eq hkp, List.nodup_append] at hnd
  exact hnd.2.2 hmem (List.mem_singleton_self _)

theorem take_set_of_le {route : List Nat} {len k : Nat} (hk : k ≤ len) (c : Nat) :
    (route.set len c).take k = route.take k := by
  rw [List.set_take, List.set_eq_of_length_le (by rw [List.length_take]; omega)]

theorem city_set_of_ne {route : List Nat} {len k : Nat} (hk : k ≠ len) (c : Nat) :
    city (route.set len c) k = city route k := by
  simp only [city, List.getD_eq_getElem?_getD, List.getElem?_set,
    if_neg (fun h : len = k => hk h.symm)]

theorem city_set_self {route : List Nat} {len : Nat} (hlt : len < route.length) (c : Nat) :
    city (route.set len c) len = c := by
  simp [city, List.getD_eq_getElem?_getD, List.getElem?_set, hlt]

/-- What has been explored before a child call: the tours before the parent call, and
the tours below the children for the smaller cities. -/
theorem explored_child {N : Nat} {s : State} {route : List Nat} {len c : Nat}
    {done cs : List Nat} (hl : route.length = N) (hlenN : len < N)
    (hsplit : done ++ c :: cs =
      (List.range route.length).filter (fun c => decide (c ∉ route.take len)))
    (hex : Explored N s route len)
    (hdone : ∀ c' ∈ done, ∀ p, Tour N p → p.take (len + 1) = route.take len ++ [c'] →
      s.best_estimation ≤ tour_cost p) :
    Explored N s (route.set len c) (len + 1) := by
  have hlt : len < route.length := by omega
  intro p hp hb
  obtain ⟨k, hk, ht, hc⟩ := hb
  by_cases hkl : k = len
  · subst hkl
    rw [take_set_of_le le_rfl, city_set_self hlt] at *
    obtain ⟨h1, h2, -⟩ := tour_below_child hp hl hlenN ht
    have hmem : city p k ∈ done ++ c :: cs := by
      rw [hsplit]
      exact mem_unvisited.mpr ⟨h1, h2⟩
    have hsorted : (done ++ c :: cs).Sorted (fun a b => a < b) := by
      rw [hsplit]
      exact unvisited_sorted route k
    have hin : city p k ∈ done := by
      rcases List.mem_append.mp hmem with h | h
      · exact h
      · exfalso
        rcases List.mem_cons.mp h with h | h
        · omega
        · have hpw := (List.pairwise_append.mp hsorted).2.1
          have := List.rel_of_pairwise_cons hpw h
          omega
    apply hdone (city p k) hin p hp
    rw [take_succ_eq (by rw [tour_length hp]; omega), ht]
  · have hk' : k < len := by omega
    apply hex p hp
    refine ⟨k, hk', ?_, ?_⟩
    · rw [ht, take_set_of_le (le_of_lt hk')]
    · rw [city_set_of_ne hkl] at hc
      exact hc

theorem fold_children_first {N fuel : Nat} (hN : N ≤ 15) {route : List Nat} {len : Nat}
    (hr : RouteOK N route len) (hlenN : len < N) (hfuel : N - (len + 1) ≤ fuel)
    (hrec : ∀ (st : State) (r : List Nat) (l : Nat) (st' : State),
      RouteOK N r l → N - l ≤ fuel → Good N st → Explored N st r l → FirstBest N st →
      walk_route_aux fuel st r l = some st' → FirstBest N st') :
    ∀ (cs done : List Nat) (s s' : State),
      done ++ cs = (List.range route.length).filter (fun c => decide (c ∉ route.take len)) →
      Good N s → FirstBest N s → Explored N s route len →
      (∀ c ∈ done, ∀ p, Tour N p → p.take (len + 1) = route.take len ++ [c] →
        s.best_estimation ≤ tour_cost p) →
      cs.foldlM (child fuel route len) s = some s' → FirstBest N s' := by
  have hl := hr.1
  have hlt : len < route.length := by omega
  intro cs
  induction cs with
  | nil =>
    intro done s s' _ _ hf _ _ h
    have : s = s' := by simpa using h
    rw [← this]
    exact hf
  | cons c cs ih =>
    intro done s s' hsplit hg hf hex hdone h
    rw [List.foldlM_cons] at h
    cases hc : child fuel route len s c with
    | none => rw [hc] at h; exact Option.noConfusion h
    | some s1 =>
      rw [hc] at h
      simp only [child, new_route_eq hlt] at hc
      have hcm : c < route.length ∧ c ∉ route.take len := by
        apply (@mem_unvisited route len c).mp
        rw [← hsplit]
        exact List.mem_append_right _ (List.mem_cons_self c cs)
      have hrc : RouteOK N (route.set len c) (len + 1) :=
        routeOK_child hr hlenN (by omega) hcm.2
      obtain ⟨s1', hs1', hg1, hle1, hcov1, -⟩ :=
        walk_route_aux_spec hN fuel s (route.set len c) (len + 1) hrc hfuel hg
      have heq : s1' = s1 := by
        rw [hs1', Option.some.injEq] at hc
        exact hc
      subst heq
      have hf1 : FirstBest N s1' :=
        hrec s _ _ s1' hrc hfuel hg (explored_child hl hlenN hsplit hex hdone) hf hc
      apply ih (done ++ [c]) s1' s' (by rw [List.append_assoc]; exact hsplit) hg1 hf1
      · intro p hp hb
        exact le_trans hle1 (hex p hp hb)
      · intro c' hc' p hp ht
        rcases List.mem_append.mp hc' with h' | h'
        · exact le_trans hle1 (hdone c' h' p hp ht)
        · rw [List.mem_singleton] at h'
          subst h'
          apply hcov1 p hp
          rw [ht, take_set_succ hlt]
      · exact h

/-- A call started when every tour before it has been accounted for keeps the best
solution the first of its cost. -/
theorem walk_route_aux_first {N : Nat} (hN : N ≤ 15) :
    ∀ (fuel : Nat) (st : State) (route : List Nat) (len : Nat) (st' : State),
      RouteOK N route len → N - len ≤ fuel → Good N st → Explored N st route len →
      FirstBest N st → walk_route_aux fuel st route len = some st' → FirstBest N st' := by
  intro fuel
  induction fuel with
  | zero =>
    intro st route len st' hr hfuel hg hex hf h
    have hfull : route.length = len := by
      have := hr.1
      have := hr.2.2.1
      omega
    have he := routeOK_estimate hN hr
    by_cases hp : prefix_cost route len +
        (if route.length = len then closing_edge route len else 0) ≥ st.best_estimation
    · rw [walk_route_aux_pruned he hp, Option.some.injEq] at h
      rw [← h]
      exact hf
    · rw [walk_route_aux_leaf he (not_le.mp hp) hfull, Option.some.injEq] at h
      rw [← h]
      intro p hpt hb
      have := hex p hpt (by
        have hb' : LexBefore N p route := hb
        rw [← hr.1, hfull] at hb'
        exact hb')
      show _ < tour_cost p
      exact lt_of_lt_of_le (not_le.mp hp) this
  | succ fuel ih =>
    intro st route len st' hr hfuel hg hex hf h
    have he := routeOK_estimate hN hr
    by_cases hp : prefix_cost route len +
        (if route.length = len then closing_edge route len else 0) ≥ st.best_estimation
    · rw [walk_route_aux_pruned he hp, Option.some.injEq] at h
      rw [← h]
      exact hf
    · by_cases hfull : route.length = len
      · rw [walk_route_aux_leaf he (not_le.mp hp) hfull, Option.some.injEq] at h
        rw [← h]
        intro p hpt hb
        have := hex p hpt (by
          have hb' : LexBefore N p route := hb
          rw [← hr.1, hfull] at hb'
          exact hb')
        show _ < tour_cost p
        exact lt_of_lt_of_le (not_le.mp hp) this
      · have hl := hr.1
        have hlenN : len < N := by
          have := hr.2.2.1
          omega
        have hlt : len < route.length := by omega
        rw [walk_route_aux_branch he (not_le.mp hp) hfull
          (unvisited_cities_eq route len (le_of_lt hlt))] at h
        exact fold_children_first hN hr hlenN (by omega) ih _ [] (entered st route len) st'
          (List.nil_append _) hg hf hex (fun c hc => absurd hc (List.not_mem_nil c)) h

/-- C19 (tie-breaking in sequential execution): with the children explored one after
the other in ascending city order, for every `N` from 5 to 15 the search of `main`
returns and the final `best_solution_found` is the lexicographically smallest tour
among the permutations of `[0, N)` starting with city 0 whose full tour cost is the
optimum; the costs assigned to `best_estimation` strictly decrease, so a later tour of
equal cost never replaces it. -/
theorem C19_tie_breaking (N : Nat) (h5 : 5 ≤ N) (h15 : N ≤ 15) :
    ∃ st, main_search N = some st ∧ Tour N st.best_solution_found ∧
      tour_cost st.best_solution_found = st.best_estimation ∧
      Optimum N st.best_estimation ∧
      (∀ p, Tour N p → tour_cost p = st.best_estimation → st.best_solution_found ≤ p) ∧
      (commits st.trace).Pairwise (fun a b => b < a) := by
  have h0 : 0 < N := by omega
  obtain ⟨st, hst, hg, hopt⟩ := main_search_optimum h0 h15
  have hrun := hst
  rw [main_search_eq h0 h15] at hrun
  have hf : FirstBest N st := by
    apply walk_route_aux_first h15 _ _ _ 1 st (main_route_ok h0)
      (by rw [(main_route_ok h0).1]) ⟨tour_range h0, rfl⟩ _ _ hrun
    · intro p hp hb
      obtain ⟨k, hk, -, hc⟩ := hb
      have hk0 : k = 0 := by omega
      subst hk0
      obtain ⟨n, rfl⟩ : ∃ n, N = n + 1 := ⟨N - 1, by omega⟩
      simp [city, List.replicate_succ] at hc
    · intro p hp hb
      exact absurd hb (not_lexBefore_range hp)
  refine ⟨st, hst, hg.1, hg.2.symm, hopt, ?_, ?_⟩
  · intro p hp hcost
    apply le_of_not_lt
    intro hlt
    have hb := lexBefore_of_lt hlt (by rw [tour_length hp, tour_length hg.1])
    rw [tour_length hp] at hb
    have := hf p hp hb
    omega
  · obtain ⟨-, -, -, evs, htr, -, hpw, -⟩ := walk_route_step hrun
    rw [htr]
    exact hpw

theorem C19_tie_breaking_witness :
    5 ≤ 5 ∧ 5 ≤ 15 ∧
      (main_search 5).map (fun s => (s.best_estimation, s.best_solution_found)) =
        some (231, [0, 1, 4, 2, 3]) ∧
      tour_cost [0, 3, 2, 4, 1] = 231 ∧ [0, 1, 4, 2, 3] < [0, 3, 2, 4, 1] ∧
      ∃ st, main_search 5 = some st ∧ Tour 5 st.best_solution_found ∧
        tour_cost st.best_solution_found = st.best_estimation ∧
        Optimum 5 st.best_estimation ∧
        (∀ p, Tour 5 p → tour_cost p = st.best_estimation → st.best_solution_found ≤ p) ∧
        (commits st.trace).Pairwise (fun a b => b < a) :=
  ⟨by decide, by decide, by decide!, by decide, by decide,
    C19_tie_breaking 5 (by decide) (by decide)⟩

end TSP

namespace MultMatrix

/-! ### `fill_matrix` -/

theorem write_eq {M : Mat} {i j : Nat} (hi : i < M.rows) (hj : j < M.cols) (v : ℚ) :
    M.write i j v =
      some { M with elem := fun a b => if a = i ∧ b = j then v else M.elem a b } := by
  unfold Mat.write
  rw [if_pos ⟨hi, hj⟩]

theorem read_eq {M : Mat} {i j : Nat} (hi : i < M.rows) (hj : j < M.cols) :
    M.read i j = some (M.elem i j) := by
  unfold Mat.read
  rw [if_pos ⟨hi, hj⟩]

theorem fill_row_spec (v : ℚ) (i : Nat) :
    ∀ (n : Nat) (M : Mat), i < M.rows → n ≤ M.cols →
      ∃ M', (List.range n).foldlM (fun M j => M.write i j v) M = some M' ∧
        M'.rows = M.rows ∧ M'.cols = M.cols ∧
        ∀ a b, M'.elem a b = if a = i ∧ b < n then v else M.elem a b := by
  intro n
  induction n with
  | zero =>
    intro M _ _
    exact ⟨M, rfl, rfl, rfl, by simp⟩
  | succ n ih =>
    intro M hi hn
    obtain ⟨M1, h1, hr, hc, he⟩ := ih M hi (by omega)
    rw [List.range_succ, List.foldlM_append, h1]
    simp only [Option.bind_eq_bind, Option.some_bind, List.foldlM_cons, List.foldlM_nil]
    rw [write_eq (by omega) (by omega)]
    refine ⟨_, rfl, hr, hc, ?_⟩
    intro a b
    simp only [he]
    by_cases ha : a = i
    · by_cases hb : b = n
      · simp [ha, hb]
      · by_cases hb' : b < n
        · simp [ha, hb, hb', Nat.lt_succ_of_lt hb']
        · have : ¬ b < n + 1 := by omega
          simp [ha, hb, hb', this]
    · simp [ha]

theorem fill_matrix_spec (v : ℚ) (M : Mat) :
    ∃ M', fill_matrix M M.rows M.cols v = some M' ∧ M'.rows = M.rows ∧ M'.cols = M.cols ∧
      ∀ a < M.rows, ∀ b < M.cols, M'.elem a b = v := by
  have key : ∀ (m : Nat) (M0 : Mat), m ≤ M0.rows →
      ∃ M', (List.range m).foldlM
          (fun M i => (List.range M0.cols).foldlM (fun M j => M.write i j v) M) M0 = some M' ∧
        M'.rows = M0.rows ∧ M'.cols = M0.cols ∧
        ∀ a b, M'.elem a b = if a < m ∧ b < M0.cols then v else M0.elem a b := by
    intro m
    induction m with
    | zero =>
      intro M0 _
      exact ⟨M0, rfl, rfl, rfl, by simp⟩
    | succ m ih =>
      intro M0 hm
      obtain ⟨M1, h1, hr, hc, he⟩ := ih M0 (by omega)
      rw [List.range_succ, List.foldlM_append, h1]
      simp only [Option.bind_eq_bind, Option.some_bind, List.foldlM_cons, List.foldlM_nil]
      obtain ⟨M2, h2, hr2, hc2, he2⟩ := fill_row_spec v m M0.cols M1 (by omega) (by omega)
      rw [h2]
      refine ⟨M2, rfl, by omega, by omega, ?_⟩
      intro a b
      rw [he2, he]
      by_cases ha : a = m
      · by_cases hb : b < M0.cols
        · simp [ha, hb]
        · simp [ha, hb]
      · by_cases ha' : a < m
        · have : a < m + 1 := by omega
          simp [ha, ha', this]
        · have : ¬ a < m + 1 := by omega
          simp [ha, ha', this]
  obtain ⟨M', h, hr, hc, he⟩ := key M.rows M le_rfl
  refine ⟨M', h, hr, hc, ?_⟩
  intro a ha b hb
  rw [he, if_pos ⟨ha, hb⟩]

/-! ### `mult_matrix` on matrices of ones -/


theorem mult_sum_ones {N : Nat} {A B : Mat} (hA : Ones N A) (hB : Ones N B) {i j : Nat}
    (hi : i < N) (hj : j < N) :
    ∀ n, n ≤ N →
      (List.range n).foldlM
        (fun sum k =>
          match A.read i k, B.read k j with
          | some a, some b => some (sum + a * b)
          | _, _ => none)
        (0 : ℚ) = some (n : ℚ) := by
  obtain ⟨hAr, hAc, hAe⟩ := hA
  obtain ⟨hBr, hBc, hBe⟩ := hB
  intro n
  induction n with
  | zero => intro _; simp
  | succ n ih =>
    intro hn
    rw [List.range_succ, List.foldlM_append, ih (by omega)]
    simp only [Option.bind_eq_bind, Option.some_bind, List.foldlM_cons, List.foldlM_nil]
    rw [read_eq (by omega) (by omega), read_eq (by omega) (by omega)]
    simp only [hAe i hi n (by omega), hBe n (by omega) j hj]
    simp

theorem mult_row_ones {N : Nat} {A B : Mat} (hA : Ones N A) (hB : Ones N B) {i : Nat}
    (hi : i < N) :
    ∀ (n : Nat) (C : Mat), C.rows = N → C.cols = N → n ≤ N →
      ∃ C', (List.range n).foldlM
          (fun C j =>
            match mult_sum A B N i j, C.read i j with
            | some sum, some c => C.write i j (c + sum)
            | _, _ => none)
          C = some C' ∧
        C'.rows = N ∧ C'.cols = N ∧
        ∀ a b, C'.elem a b = if a = i ∧ b < n then C.elem a b + N else C.elem a b := by
  intro n
  induction n with
  | zero =>
    intro C hr hc _
    exact ⟨C, rfl, hr, hc, by simp⟩
  | succ n ih =>
    intro C hr hc hn
    obtain ⟨C1, h1, hr1, hc1, he1⟩ := ih C hr hc (by omega)
    rw [List.range_succ, List.foldlM_append, h1]
    simp only [Option.bind_eq_bind, Option.some_bind, List.foldlM_cons, List.foldlM_nil]
    have hsum : mult_sum A B N i n = some (N : ℚ) :=
      mult_sum_ones hA hB hi (by omega) N le_rfl
    rw [hsum, read_eq (by omega) (by omega)]
    simp only
    rw [write_eq (by omega) (by omega)]
    refine ⟨_, rfl, hr1, hc1, ?_⟩
    intro a b
    simp only [he1]
    by_cases ha : a = i
    · by_cases hb : b = n
      · simp [ha, hb]
      · by_cases hb' : b < n
        · simp [ha, hb, hb', Nat.lt_succ_of_lt hb']
        · have : ¬ b < n + 1 := by omega
          simp [ha, hb, hb', this]
    · simp [ha]

theorem mult_row_ones_spec {N : Nat} {A B : Mat} (hA : Ones N A) (hB : Ones N B) {i : Nat}
    (hi : i < N) (C : Mat) (hr : C.rows = N) (hc : C.cols = N) :
    ∃ C', mult_row A B N N i C = some C' ∧ C'.rows = N ∧ C'.cols = N ∧
      ∀ a b, C'.elem a b = if a = i ∧ b < N then C.elem a b + N else C.elem a b :=
  mult_row_ones hA hB hi N C hr hc le_rfl

theorem on_stride_step {P i a : Nat} :
    on_stride P i a ↔ a = i ∨ on_stride P (i + P) a := by
  unfold on_stride
  constructor
  · rintro ⟨hle, hdvd⟩
    by_cases ha : a = i
    · exact Or.inl ha
    · right
      have hpos : 0 < a - i := by omega
      have hP : P ≤ a - i := Nat.le_of_dvd hpos hdvd
      refine ⟨by omega, ?_⟩
      have : a - (i + P) = a - i - P := by omega
      rw [this]
      exact Nat.dvd_sub' hdvd (dvd_refl P)
  · rintro (ha | ⟨hle, hdvd⟩)
    · subst ha
      exact ⟨le_rfl, by simp⟩
    · refine ⟨by omega, ?_⟩
      have : a - i = a - (i + P) + P := by omega
      rw [this]
      exact Dvd.dvd.add hdvd (dvd_refl P)

/-- One call of `mult_matrix` on matrices of ones adds `N` to the entries of the rows
`i, i + P, ...` of `C` and leaves the other entries as they are; every bound of at least
`N - i` rounds gives this result. -/
theorem mult_matrix_loop_spec {N P : Nat} (hP : 1 ≤ P) {A B : Mat} (hA : Ones N A)
    (hB : Ones N B) :
    ∀ (fuel i : Nat) (C : Mat), C.rows = N → C.cols = N → N - i ≤ fuel →
      ∃ C', mult_matrix_loop A B N N N P fuel i C = some C' ∧ C'.rows = N ∧ C'.cols = N ∧
        ∀ a b, (a < N ∧ b < N ∧ on_stride P i a → C'.elem a b = C.elem a b + N) ∧
          (¬ (a < N ∧ b < N ∧ on_stride P i a) → C'.elem a b = C.elem a b) := by
  intro fuel
  induction fuel with
  | zero =>
    intro i C hr hc hf
    refine ⟨C, ?_, hr, hc, ?_⟩
    · simp only [mult_matrix_loop]
      rw [if_neg (by omega)]
    · intro a b
      constructor
      · rintro ⟨ha, -, hle, -⟩
        omega
      · intro _
        rfl
  | succ fuel ih =>
    intro i C hr hc hf
    simp only [mult_matrix_loop]
    by_cases hi : i < N
    · rw [if_pos hi]
      obtain ⟨C1, h1, hr1, hc1, he1⟩ := mult_row_ones_spec hA hB hi C hr hc
      rw [h1]
      simp only
      obtain ⟨C2, h2, hr2, hc2, he2⟩ := ih (i + P) C1 hr1 hc1 (by omega)
      refine ⟨C2, h2, hr2, hc2, ?_⟩
      intro a b
      have hnot : ¬ on_stride P (i + P) i := by
        rintro ⟨hle, -⟩
        omega
      constructor
      · rintro ⟨ha, hb, hs⟩
        rcases on_stride_step.mp hs with heq | hs'
        · subst heq
          rw [(he2 a b).2 (fun h => hnot h.2.2), he1, if_pos ⟨rfl, hb⟩]
        · have hai : a ≠ i := by
            intro heq
            subst heq
            exact hnot hs'
          rw [(he2 a b).1 ⟨ha, hb, hs'⟩, he1, if_neg (fun h => hai h.1)]
      · intro hn
        have hn2 : ¬ (a < N ∧ b < N ∧ on_stride P (i + P) a) :=
          fun h => hn ⟨h.1, h.2.1, on_stride_step.mpr (Or.inr h.2.2)⟩
        rw [(he2 a b).2 hn2, he1]
        by_cases hab : a = i ∧ b < N
        · exfalso
          exact hn ⟨by omega, hab.2, on_stride_step.mpr (Or.inl hab.1)⟩
        · rw [if_neg hab]
    · rw [if_neg hi]
      refine ⟨C, rfl, hr, hc, ?_⟩
      intro a b
      constructor
      · rintro ⟨ha, -, hle, -⟩
        omega
      · intro _
        rfl

/-- The rows of thread `th_idx < P` are those with `a % P = th_idx`. -/
theorem on_stride_iff_mod {P th a : Nat} (hth : th < P) : on_stride P th a ↔ a % P = th := by
  unfold on_stride
  constructor
  · rintro ⟨hle, k, hk⟩
    have ha : a = th + P * k := by omega
    rw [ha, Nat.add_mul_mod_self_left, Nat.mod_eq_of_lt hth]
  · intro h
    have hdiv := Nat.mod_add_div a P
    refine ⟨by rw [← h]; exact Nat.mod_le a P, a / P, ?_⟩
    rw [← h]
    omega

/-- Every row belongs to exactly one thread: the row sets partition the rows. -/
theorem stride_partition {P : Nat} (hP : 1 ≤ P) (a : Nat) :
    ∃ th, (th < P ∧ on_stride P th a) ∧ ∀ th', th' < P ∧ on_stride P th' a → th' = th := by
  refine ⟨a % P, ⟨Nat.mod_lt a (by omega), (on_stride_iff_mod (Nat.mod_lt a (by omega))).mpr rfl⟩,
    ?_⟩
  rintro th' ⟨hlt, hs⟩
  exact ((on_stride_iff_mod hlt).mp hs).symm

/-- The calls of `mult_matrix` for distinct thread indices below `P`, in any order, add
`N` to the entries of the rows of these threads. -/
theorem threads_spec {N P : Nat} (hP : 1 ≤ P) {A B : Mat} (hA : Ones N A) (hB : Ones N B) :
    ∀ (ths : List Nat) (C : Mat), ths.Nodup → (∀ th ∈ ths, th < P) →
      C.rows = N → C.cols = N →
      ∃ C', ths.foldlM (fun C th_idx => mult_matrix A B C N N N th_idx P) C = some C' ∧
        C'.rows = N ∧ C'.cols = N ∧
        ∀ a < N, ∀ b < N,
          (a % P ∈ ths → C'.elem a b = C.elem a b + N) ∧
          (a % P ∉ ths → C'.elem a b = C.elem a b) := by
  intro ths
  induction ths with
  | nil =>
    intro C _ _ hr hc
    exact ⟨C, rfl, hr, hc, fun a _ b _ => ⟨fun h => absurd h (List.not_mem_nil _), fun _ => rfl⟩⟩
  | cons th ths ih =>
    intro C hnd hlt hr hc
    have hth : th < P := hlt th (List.mem_cons_self th ths)
    obtain ⟨C1, h1, hr1, hc1, he1⟩ := mult_matrix_loop_spec hP hA hB N th C hr hc (by omega)
    obtain ⟨C2, h2, hr2, hc2, he2⟩ := ih C1 (List.nodup_cons.mp hnd).2
      (fun t ht => hlt t (List.mem_cons_of_mem th ht)) hr1 hc1
    refine ⟨C2, ?_, hr2, hc2, ?_⟩
    · rw [List.foldlM_cons]
      have : mult_matrix A B C N N N th P = some C1 := h1
      rw [this]
      exact h2
    · intro a ha b hb
      have hnotin : th ∉ ths := (List.nodup_cons.mp hnd).1
      by_cases hmod : a % P = th
      · have hs : on_stride P th a := (on_stride_iff_mod hth).mpr hmod
        have hn : a % P ∉ ths := by rw [hmod]; exact hnotin
        constructor
        · intro _
          rw [(he2 a ha b hb).2 hn, (he1 a b).1 ⟨ha, hb, hs⟩]
        · intro h
          exact absurd (hmod ▸ List.mem_cons_self th ths) h
      · have hs : ¬ (a < N ∧ b < N ∧ on_stride P th a) :=
          fun h => hmod ((on_stride_iff_mod hth).mp h.2.2)
        constructor
        · intro h
          have hin : a % P ∈ ths := by
            rcases List.mem_cons.mp h with h | h
            · exact absurd h hmod
            · exact h
          rw [(he2 a ha b hb).1 hin, (he1 a b).2 hs]
        · intro h
          have hn : a % P ∉ ths := fun h' => h (List.mem_cons_of_mem th h')
          rw [(he2 a ha b hb).2 hn, (he1 a b).2 hs]

/-! ### `test_result` -/

theorem test_result_none {M : Mat} {N : Nat} (hr : M.rows = N) (hc : M.cols = N) {v : ℚ}
    (he : ∀ a < N, ∀ b < N, M.elem a b = v) : test_result M N N v = some [] := by
  have inner : ∀ (i : Nat), i < N → ∀ (n : Nat), n ≤ N → ∀ out : List (Nat × Nat × ℚ),
      (List.range n).foldlM
        (fun out j =>
          match M.read i j with
          | none => none
          | some w => if w ≠ v then some (out ++ [(i, j, w)]) else some out)
        out = some out := by
    intro i hi n
    induction n with
    | zero => intro _ out; rfl
    | succ n ih =>
      intro hn out
      rw [List.range_succ, List.foldlM_append, ih (by omega) out]
      simp only [Option.bind_eq_bind, Option.some_bind, List.foldlM_cons, List.foldlM_nil]
      rw [read_eq (by omega) (by omega), he i hi n (by omega)]
      simp
  have outer : ∀ (m : Nat), m ≤ N → ∀ out : List (Nat × Nat × ℚ),
      (List.range m).foldlM
        (fun out i =>
          (List.range N).foldlM
            (fun out j =>
              match M.read i j with
              | none => none
              | some w => if w ≠ v then some (out ++ [(i, j, w)]) else some out)
            out)
        out = some out := by
    intro m
    induction m with
    | zero => intro _ out; rfl
    | succ m ih =>
      intro hm out
      rw [List.range_succ, List.foldlM_append, ih (by omega) out]
      simp only [Option.bind_eq_bind, Option.some_bind, List.foldlM_cons, List.foldlM_nil]
      rw [inner m (by omega) N le_rfl out]
      rfl
  exact outer N le_rfl []

/-! ### `main` -/

theorem fill_created {N : Nat} (junk : Nat → Nat → ℚ) (v : ℚ) :
    ∃ M, fill_matrix (create_matrix N N junk) N N v = some M ∧ M.rows = N ∧ M.cols = N ∧
      ∀ a < N, ∀ b < N, M.elem a b = v :=
  fill_matrix_spec v (create_matrix N N junk)

/-- The product `main` computes: every entry of `C` within the matrix equals `N`. -/
theorem main_product_spec {N P : Nat} (hP : 1 ≤ P) {order : List Nat}
    (hord : order.Perm (List.range P)) (junkA junkB junkC : Nat → Nat → ℚ) :
    ∃ C, main_product N P order junkA junkB junkC = some C ∧ C.rows = N ∧ C.cols = N ∧
      ∀ a < N, ∀ b < N, C.elem a b = N := by
  obtain ⟨A, hA, hAr, hAc, hAe⟩ := fill_created (N := N) junkA 1
  obtain ⟨B, hB, hBr, hBc, hBe⟩ := fill_created (N := N) junkB 1
  obtain ⟨C0, hC, hCr, hCc, hCe⟩ := fill_created (N := N) junkC 0
  have hnd : order.Nodup := hord.nodup_iff.mpr (List.nodup_range P)
  have hlt : ∀ th ∈ order, th < P := fun th h => List.mem_range.mp (hord.mem_iff.mp h)
  obtain ⟨C, hrun, hr, hc, he⟩ :=
    threads_spec hP ⟨hAr, hAc, hAe⟩ ⟨hBr, hBc, hBe⟩ order C0 hnd hlt hCr hCc
  refine ⟨C, ?_, hr, hc, ?_⟩
  · unfold main_product
    rw [hA, hB, hC]
    exact hrun
  · intro a ha b hb
    have hin : a % P ∈ order :=
      hord.mem_iff.mpr (List.mem_range.mpr (Nat.mod_lt a (by omega)))
    rw [(he a ha b hb).1 hin, hCe a ha b hb]
    simp

theorem main_N_default (argc : Nat) (arg : Int) (h : argc ≠ 2) : main_N argc arg = 1000 := by
  unfold main_N
  rw [if_neg h]
  decide

/-- C11 (matrix benchmark default size): started without the size argument (`argc = 1`),
`main` takes the matrix size 1000 of line 89, whatever `argv` holds; this is not the 50
that the header of the program documents as the default. -/
theorem C11_default_size (arg : Int) : main_N 1 arg = 1000 ∧ main_N 1 arg ≠ 50 := by
  rw [main_N_default 1 arg (by decide)]
  exact ⟨rfl, by decide⟩

/-- C12 (matrix benchmark result): for every size `N` and every number `P >= 1` of
threads, with `A` and `B` filled with 1 and `C` with 0, after `mult_matrix` has run for
every `th_idx` in `0..P-1`, in any order, every entry `C[i][j]` with `i, j < N` equals
`N` in exact arithmetic; every row belongs to the rows `th_idx, th_idx + P, ...` of
exactly one thread; and `test_result` prints no mismatch. -/
theorem C12_matrix_result (N P : Nat) (order : List Nat)
    (junkA junkB junkC : Nat → Nat → ℚ) (hP : 1 ≤ P) (hord : order.Perm (List.range P)) :
    (∃ C, main_product N P order junkA junkB junkC = some C ∧
      ∀ i < N, ∀ j < N, C.read i j = some (N : ℚ)) ∧
    (∀ i, ∃ th, (th < P ∧ on_stride P th i) ∧
      ∀ th', th' < P ∧ on_stride P th' i → th' = th) ∧
    main_report N P order junkA junkB junkC = some [] := by
  obtain ⟨C, hC, hr, hc, he⟩ := main_product_spec (N := N) hP hord junkA junkB junkC
  refine ⟨⟨C, hC, ?_⟩, stride_partition hP, ?_⟩
  · intro i hi j hj
    rw [read_eq (by omega) (by omega), he i hi j hj]
  · unfold main_report
    rw [hC]
    exact test_result_none hr hc he

theorem C12_matrix_result_witness :
    1 ≤ 3 ∧ [2, 0, 1].Perm (List.range 3) ∧
      ((∃ C, main_product 4 3 [2, 0, 1] (fun _ _ => 7) (fun _ _ => 8) (fun _ _ => 9) = some C ∧
        ∀ i < 4, ∀ j < 4, C.read i j = some ((4 : Nat) : ℚ)) ∧
      (∀ i, ∃ th, (th < 3 ∧ on_stride 3 th i) ∧
        ∀ th', th' < 3 ∧ on_stride 3 th' i → th' = th) ∧
      main_report 4 3 [2, 0, 1] (fun _ _ => 7) (fun _ _ => 8) (fun _ _ => 9) = some []) :=
  ⟨by decide, by decide,
    C12_matrix_result 4 3 [2, 0, 1] (fun _ _ => 7) (fun _ _ => 8) (fun _ _ => 9)
      (by decide) (by decide)⟩

end MultMatrix
